import Mathlib

/-!
# xv6 console (`console.c`): line editor, blocking reader, character sink

A shallow embedding of the console driver.  The globals of `console.c`
(`panicked`, `cons.locking`, the `input` structure, the CGA memory `crt`
and the two cursor registers of the CRT controller) are the fields of one
record that every function takes and returns.  A C function that may never
return (`consputc` spinning on the panic latch, `cgaputc` calling `panic`)
returns `Option`: `none` means the calling CPU never comes back.

Machine integers: `uint` is a `Nat` below `2^32` with every operation
reduced modulo `2^32`; `int` is an `Int`; a `char` in memory is a byte
(`Nat` below `256`) that is sign extended when it is loaded into an `int`.
The lock, the inode lock and the scheduler are not modelled: the functions
are run one after the other, a reader that would sleep is reported as such.

Strings: a C string is the list of its bytes up to the terminating NUL, a
null pointer is `none`; the variable arguments of `cprintf` are the words
that `argp` runs over.
-/

namespace Console

/-! ## Constants and machine arithmetic -/

/-- The capacity of the input buffer, `#define INPUT_BUF 128`. -/
def INPUT_BUF : Nat := 128

/-- The backspace sentinel, `#define BACKSPACE 0x100`. -/
def BACKSPACE : Int := 0x100

/-- Control-x, `#define C(x) ((x) - '@')`. -/
def C (x : Char) : Int := (x.toNat : Int) - ('@'.toNat : Int)

/-- Addition of two `uint` values. -/
def u32add (a b : Nat) : Nat := (a + b) % 4294967296

/-- Subtraction of two `uint` values (both below `2^32`). -/
def u32sub (a b : Nat) : Nat := (a + 4294967296 - b) % 4294967296

/-- Conversion of a `uint` to `int`. -/
def toInt32 (x : Nat) : Int :=
  if x < 2147483648 then (x : Int) else (x : Int) - 4294967296

/-- Conversion of an `int` to `uint`. -/
def toUInt32 (x : Int) : Nat := (x % 4294967296).toNat

/-- The byte stored when an `int` is assigned to a `char`. -/
def toByte (c : Int) : Nat := (c % 256).toNat

/-- The `int` obtained when a (signed) `char` is loaded from a byte. -/
def charVal (b : Nat) : Int := if b < 128 then (b : Int) else (b : Int) - 256

/-! ## The state -/

/-- The globals of `console.c` together with the devices it drives. -/
structure State where
  /-- The panic latch `panicked`. -/
  panicked : Bool
  /-- The flag `cons.locking`. -/
  locking : Bool
  /-- The characters handed to `uartputc`, oldest first. -/
  uart : List Int
  /-- The CGA memory behind the pointer `crt`, one 16-bit cell per index. -/
  crt : Int → Nat
  /-- Register 14 of the CRT controller: the high byte of the cursor. -/
  cursorHi : Nat
  /-- Register 15 of the CRT controller: the low byte of the cursor. -/
  cursorLo : Nat
  /-- The bytes of `input.buf`. -/
  buf : Nat → Nat
  /-- The read index `input.r`. -/
  r : Nat
  /-- The write index `input.w`. -/
  w : Nat
  /-- The edit index `input.e`. -/
  e : Nat
  /-- The number of calls of `wakeup(&input.r)` so far. -/
  wakeups : Nat
  /-- The number of calls of `procdump()` so far. -/
  procdumps : Nat

/-- The state at boot: every global is zero (they live in `.bss`), the
screen and the cursor are whatever the firmware left. -/
def bootState (crt : Int → Nat) (hi lo : Nat) : State :=
  { panicked := false, locking := false, uart := [], crt := crt,
    cursorHi := hi, cursorLo := lo, buf := fun _ => 0,
    r := 0, w := 0, e := 0, wakeups := 0, procdumps := 0 }

/-- The cursor position that `cgaputc` reads from the two ports:
`inb(CRTPORT + 1) << 8` or-ed with `inb(CRTPORT + 1)`. -/
def readCursor (s : State) : Int := ((s.cursorHi <<< 8 ||| s.cursorLo : Nat) : Int)

/-! ## Output: `cgaputc`, `consputc`, `consolewrite` -/

/-- The function `cgaputc`.  `pos` is an `int`; `/` and `%` are applied to
it only where it is not negative, where C and Lean agree.  `panic` never
returns, hence `none`. -/
def cgaputc (c : Int) (s : State) : Option State :=
  let pos : Int := readCursor s
  let crt1 : Int → Nat :=
    if c = 10 then s.crt
    else if c = BACKSPACE then s.crt
    else fun i => if i = pos then (c % 256).toNat ||| 0x0700 else s.crt i
  let pos1 : Int :=
    if c = 10 then pos + (80 - pos % 80)
    else if c = BACKSPACE then (if pos > 0 then pos - 1 else pos)
    else pos + 1
  if pos1 < 0 ∨ pos1 > 25 * 80 then none
  else
    let scroll : Bool := decide (pos1 / 80 ≥ 24)
    let pos2 : Int := if scroll then pos1 - 80 else pos1
    let crt2 : Int → Nat :=
      if scroll then
        fun i =>
          if pos2 ≤ i ∧ i < 24 * 80 then 0
          else if 0 ≤ i ∧ i < 23 * 80 then crt1 (i + 80)
          else crt1 i
      else crt1
    some { s with
      cursorHi := ((pos2 / 256) % 256).toNat
      cursorLo := (pos2 % 256).toNat
      crt := fun i => if i = pos2 then 0x20 ||| 0x0700 else crt2 i }

/-- The function `consputc`: spin forever when the panic latch is set,
otherwise the serial line first and the screen second. -/
def consputc (c : Int) (s : State) : Option State :=
  if s.panicked then none
  else if c = BACKSPACE then cgaputc c { s with uart := s.uart ++ [8, 32, 8] }
  else cgaputc c { s with uart := s.uart ++ [c] }

/-- How a call of `consputc` ends. -/
inductive Ending where
  /-- The call returns, the devices and the globals being in the given state. -/
  | returned (s : State)
  /-- The call spins in the `for (;;)` under `if (panicked)`, the devices and
  the globals staying in the given state. -/
  | spins (s : State)
  /-- The call reaches `panic` in `cgaputc` and never returns. -/
  | panics

/-- The function `consputc` again, telling how the call ends. -/
def consputc_run (c : Int) (s : State) : Ending :=
  if s.panicked then Ending.spins s
  else
    match (if c = BACKSPACE then cgaputc c { s with uart := s.uart ++ [8, 32, 8] }
           else cgaputc c { s with uart := s.uart ++ [c] }) with
    | some s1 => Ending.returned s1
    | none => Ending.panics

/-- The loop `for (i = 0; i < n; i++) consputc(buf[i] & 0xff)` of
`consolewrite`: `k` rounds are left, `i` is the index, `buf` the caller's
memory (bytes). -/
def consolewrite_loop (buf : Nat → Nat) : Nat → Nat → State → Option State
  | 0, _, s => some s
  | k + 1, i, s =>
    match consputc (charVal (buf i) % 256) s with
    | none => none
    | some s1 => consolewrite_loop buf k (i + 1) s1

/-- The function `consolewrite`: the value returned and the state afterwards. -/
def consolewrite (buf : Nat → Nat) (n : Int) (s : State) : Option (Int × State) :=
  match consolewrite_loop buf n.toNat 0 s with
  | none => none
  | some s1 => some (n, s1)

/-- The calls `consputc(c)` for the characters `c` of a list, in order. -/
def consputcAll : List Int → State → Option State
  | [], s => some s
  | c :: cs, s =>
    match consputc c s with
    | none => none
    | some s1 => consputcAll cs s1

/-- The position that `cgaputc` computes from the position `pos` it has read
and the character `c`, before the range check. -/
def cursorNext (c pos : Int) : Int :=
  if c = 10 then pos + (80 - pos % 80)
  else if c = BACKSPACE then (if pos > 0 then pos - 1 else pos)
  else pos + 1

/-- The video memory after the glyph of `cgaputc` is stored:
`crt[pos++] = (c & 0xff) | 0x0700` for a character other than newline and
the backspace sentinel. -/
def cgaGlyph (c : Int) (s : State) : Int → Nat :=
  if c = 10 then s.crt
  else if c = BACKSPACE then s.crt
  else fun i => if i = readCursor s then (c % 256).toNat ||| 0x0700 else s.crt i

/-- A read of the cell `crt[i]` of the CGA memory, which has `25*80` cells:
the value, or the index when it lies outside the memory. -/
def crtLoad (crt : Int → Nat) (i : Int) : Except Int Nat :=
  if 0 ≤ i ∧ i < 25 * 80 then Except.ok (crt i) else Except.error i

/-- A write `crt[i] = v` to the CGA memory: the memory afterwards, or the
index when it lies outside the memory. -/
def crtStore (crt : Int → Nat) (i : Int) (v : Nat) : Except Int (Int → Nat) :=
  if 0 ≤ i ∧ i < 25 * 80 then Except.ok (fun j => if j = i then v else crt j)
  else Except.error i

/-- The call `memmove(crt + i, crt + i + off, n * sizeof(crt[0]))` for
`off >= 0`, cell by cell from the lowest index: each round reads
`crt[i + off]` and writes `crt[i]`. -/
@[irreducible] def crtMove (off : Int) : Nat → Int → (Int → Nat) → Except Int (Int → Nat)
  | 0, _, crt => Except.ok crt
  | n + 1, i, crt =>
    match crtLoad crt (i + off) with
    | Except.error j => Except.error j
    | Except.ok v =>
      match crtStore crt i v with
      | Except.error j => Except.error j
      | Except.ok crt1 => crtMove off n (i + 1) crt1

/-- The call `memset(crt + i, 0, n * sizeof(crt[0]))`, cell by cell. -/
def crtSet : Nat → Int → (Int → Nat) → Except Int (Int → Nat)
  | 0, _, crt => Except.ok crt
  | n + 1, i, crt =>
    match crtStore crt i 0 with
    | Except.error j => Except.error j
    | Except.ok crt1 => crtSet n (i + 1) crt1

/-- The function `cgaputc` again, with every read and write of `crt` made
through `crtLoad` and `crtStore`: `Except.error i` is an access to `crt[i]`
outside the memory, `Except.ok none` the call of `panic`, and
`Except.ok (some s1)` the return in the state `s1`.  The count of `memset`,
`24*80 - pos`, is not negative behind the range check. -/
def cgaputc_mem (c : Int) (s : State) : Except Int (Option State) :=
  let pos : Int := readCursor s
  match (if c = 10 then Except.ok s.crt
      else if c = BACKSPACE then Except.ok s.crt
      else crtStore s.crt pos ((c % 256).toNat ||| 0x0700)) with
  | Except.error j => Except.error j
  | Except.ok crt1 =>
    let pos1 : Int :=
      if c = 10 then pos + (80 - pos % 80)
      else if c = BACKSPACE then (if pos > 0 then pos - 1 else pos)
      else pos + 1
    if pos1 < 0 ∨ pos1 > 25 * 80 then Except.ok none
    else
      let scroll : Bool := decide (pos1 / 80 ≥ 24)
      let pos2 : Int := if scroll then pos1 - 80 else pos1
      match (if scroll then
          match crtMove 80 (23 * 80) 0 crt1 with
          | Except.error j => Except.error j
          | Except.ok m => crtSet (24 * 80 - pos2).toNat pos2 m
        else Except.ok crt1) with
      | Except.error j => Except.error j
      | Except.ok crt2 =>
        match crtStore crt2 pos2 (0x20 ||| 0x0700) with
        | Except.error j => Except.error j
        | Except.ok crt3 =>
          Except.ok (some { s with
            cursorHi := ((pos2 / 256) % 256).toNat
            cursorLo := (pos2 % 256).toNat
            crt := crt3 })

/-! ## Formatted output: `printint`, `cprintf`, `panic` -/

/-- The table `static char digits[] = "0123456789abcdef"` of `printint`: the
character `digits[d]` (the terminating zero at index 16, zero beyond). -/
def digits (d : Nat) : Int :=
  (("0123456789abcdef".toList.getD d (Char.ofNat 0)).toNat : Int)

/-- The loop `do { buf[i++] = digits[x % base]; } while ((x /= base) != 0)` of
`printint`: `buf` holds the characters stored so far, least significant digit
first.  The first argument bounds the number of rounds; 32 are enough for a
`uint` and a base of at least 2, and `none` stands for a loop that has not
ended by then. -/
def printint_fill (base : Nat) : Nat → Nat → List Int → Option (List Int)
  | 0, _, _ => none
  | fuel + 1, x, buf =>
    if x / base ≠ 0 then printint_fill base fuel (x / base) (buf ++ [digits (x % base)])
    else some (buf ++ [digits (x % base)])

/-- The characters that `printint` has stored in `buf[0 .. i-1]` when it
starts to print: the digits, least significant first, then the sign.  The
array has 16 entries in the code; the list here is as long as the code makes
it.  `none`: the division by a zero base traps, or the loop does not end. -/
def printint_buf (xx base sign : Int) : Option (List Int) :=
  if toUInt32 base = 0 then none
  else
    match printint_fill (toUInt32 base) 32
        (if sign ≠ 0 ∧ xx < 0 then toUInt32 (-xx) else toUInt32 xx) [] with
    | none => none
    | some buf => some (if sign ≠ 0 ∧ xx < 0 then buf ++ [45] else buf)

/-- The function `printint`: fill the buffer, then
`while (--i >= 0) consputc(buf[i])`. -/
def printint (xx base sign : Int) (s : State) : Option State :=
  match printint_buf xx base sign with
  | none => none
  | some buf => consputcAll buf.reverse s

/-- The bytes of a string literal of the C source, without the terminating
NUL. -/
def bytes (t : String) : List Nat := t.toList.map Char.toNat

/-- The loop of `cprintf`.  The first list holds the bytes of the format from
`fmt[i]` up to its terminating NUL, which the end of the list stands for; `k`
counts the argument words consumed so far, `argp k` being the word that
`*argp++` reads next; `str p` holds the bytes of the string at the address
`p`, up to its terminating NUL. -/
def cprintf_loop (str : Nat → List Nat) (argp : Nat → Nat) :
    List Nat → Nat → State → Option State
  | [], _, s => some s
  | b :: rest, k, s =>
    if charVal b % 256 = 0 then some s
    else if charVal b % 256 ≠ 37 then
      match consputc (charVal b % 256) s with
      | none => none
      | some s1 => cprintf_loop str argp rest k s1
    else
      match rest with
      | [] => some s
      | b2 :: rest2 =>
        if charVal b2 % 256 = 0 then some s
        else if charVal b2 % 256 = 100 then
          match printint (toInt32 (argp k)) 10 1 s with
          | none => none
          | some s1 => cprintf_loop str argp rest2 (k + 1) s1
        else if charVal b2 % 256 = 120 ∨ charVal b2 % 256 = 112 then
          match printint (toInt32 (argp k)) 16 0 s with
          | none => none
          | some s1 => cprintf_loop str argp rest2 (k + 1) s1
        else if charVal b2 % 256 = 115 then
          match consputcAll
              (((if argp k = 0 then bytes "(null)" else str (argp k)).takeWhile
                (fun b3 => charVal b3 ≠ 0)).map charVal) s with
          | none => none
          | some s1 => cprintf_loop str argp rest2 (k + 1) s1
        else if charVal b2 % 256 = 37 then
          match consputc 37 s with
          | none => none
          | some s1 => cprintf_loop str argp rest2 k s1
        else
          match consputc 37 s with
          | none => none
          | some s1 =>
            match consputc (charVal b2 % 256) s1 with
            | none => none
            | some s2 => cprintf_loop str argp rest2 k s2

/-- The function `cprintf`.  The format is `none` for a null pointer; the call
then goes to `panic` and does not return.  The lock of the console is not part
of the state. -/
def cprintf (str : Nat → List Nat) (argp : Nat → Nat) (fmt : Option (List Nat))
    (s : State) : Option State :=
  match fmt with
  | none => none
  | some f => cprintf_loop str argp f 0 s

/-- The argument words of a call of `cprintf` with one argument `v`; `stack`
holds the words that follow it in memory. -/
def oneArg (v : Nat) (stack : Nat → Nat) : Nat → Nat
  | 0 => v
  | j + 1 => stack j

/-- The loop `for (i = 0; i < 10; i++) cprintf(" %p", pcs[i])` of `panic`: `n`
rounds are left, `i` is the index. -/
def panic_pcs (str : Nat → List Nat) (stack : Nat → Nat) (pcs : Nat → Nat) :
    Nat → Nat → State → Option State
  | 0, _, s => some s
  | n + 1, i, s =>
    match cprintf str (oneArg (pcs i) stack) (some (bytes " %p")) s with
    | none => none
    | some s1 => panic_pcs str stack pcs n (i + 1) s1

/-- The function `panic`, up to the statement `panicked = 1`: the state in
which it enters its final `for (;;)`, or `none` when a call on the way does
not return.  `lapicid` is the word that `lapicid()` returns, `pcs` the array
that `getcallerpcs` fills, `msg` the string `s` (`none` for a null pointer),
and `stack` the words that follow the only argument of `cprintf(s)` in
memory. -/
def panic (str : Nat → List Nat) (stack : Nat → Nat) (lapicid : Nat) (pcs : Nat → Nat)
    (msg : Option (List Nat)) (s : State) : Option State :=
  match cprintf str (oneArg lapicid stack) (some (bytes "lapicid %d: panic: "))
      { s with locking := false } with
  | none => none
  | some s1 =>
    match cprintf str stack msg s1 with
    | none => none
    | some s2 =>
      match cprintf str stack (some (bytes "\n")) s2 with
      | none => none
      | some s3 =>
        match panic_pcs str stack pcs 10 0 s3 with
        | none => none
        | some s4 => some { s4 with panicked := true }

/-- The characters that `printint` passes to `consputc`, in order. -/
def printint_chars (xx base sign : Int) : List Int :=
  match printint_buf xx base sign with
  | none => []
  | some buf => buf.reverse

/-- The characters that the loop of `cprintf` passes to `consputc`, in
order. -/
def cprintf_chars (str : Nat → List Nat) (argp : Nat → Nat) : List Nat → Nat → List Int
  | [], _ => []
  | b :: rest, k =>
    if charVal b % 256 = 0 then []
    else if charVal b % 256 ≠ 37 then (charVal b % 256) :: cprintf_chars str argp rest k
    else
      match rest with
      | [] => []
      | b2 :: rest2 =>
        if charVal b2 % 256 = 0 then []
        else if charVal b2 % 256 = 100 then
          printint_chars (toInt32 (argp k)) 10 1 ++ cprintf_chars str argp rest2 (k + 1)
        else if charVal b2 % 256 = 120 ∨ charVal b2 % 256 = 112 then
          printint_chars (toInt32 (argp k)) 16 0 ++ cprintf_chars str argp rest2 (k + 1)
        else if charVal b2 % 256 = 115 then
          ((if argp k = 0 then bytes "(null)" else str (argp k)).takeWhile
              (fun b3 => charVal b3 ≠ 0)).map charVal
            ++ cprintf_chars str argp rest2 (k + 1)
        else if charVal b2 % 256 = 37 then 37 :: cprintf_chars str argp rest2 k
        else 37 :: (charVal b2 % 256) :: cprintf_chars str argp rest2 k

/-- The characters of a string literal. -/
def text (t : String) : List Int := t.toList.map (fun c => (c.toNat : Int))

/-- The characters of the loop `for (i = 0; i < 10; i++) cprintf(" %p", pcs[i])`
of `panic`, in order. -/
def panic_pcs_chars (pcs : Nat → Nat) : Nat → Nat → List Int
  | 0, _ => []
  | n + 1, i => (32 :: printint_chars (toInt32 (pcs i)) 16 0) ++ panic_pcs_chars pcs n (i + 1)

/-! ## Input: `consoleintr` -/

/-- The test of the kill-line loop:
`input.e != input.w && input.buf[(input.e - 1) % INPUT_BUF] != '\n'`. -/
def killCond (s : State) : Bool :=
  decide (s.e ≠ s.w) && decide (charVal (s.buf (u32sub s.e 1 % INPUT_BUF)) ≠ 10)

/-- The kill-line loop of `consoleintr`, `case C('U')`.  Every round
decrements `input.e`, so `(e - w) mod 2^32` rounds are the most it can take;
`none` also stands for a loop that has not finished after that many. -/
def killLine : Nat → State → Option State
  | 0, s => if killCond s then none else some s
  | fuel + 1, s =>
    if killCond s then
      match consputc BACKSPACE { s with e := u32sub s.e 1 } with
      | none => none
      | some s1 => killLine fuel s1
    else some s

/-- The body of the `switch (c)` of `consoleintr`, for one code `c >= 0`:
its effect on the globals.  (`case C('P')` only sets the local
`doprocdump`, see `dumpFlag`.) -/
def consoleintr_key (c : Int) (s : State) : Option State :=
  if c = C 'P' then some s
  else if c = C 'U' then killLine (u32sub s.e s.w) s
  else if c = C 'H' ∨ c = 0x7f then
    if s.e ≠ s.w then consputc BACKSPACE { s with e := u32sub s.e 1 }
    else some s
  else if c ≠ 0 ∧ u32sub s.e s.r < INPUT_BUF then
    let c1 : Int := if c = 13 then 10 else c
    match consputc c1
        { s with buf := fun i => if i = s.e % INPUT_BUF then toByte c1 else s.buf i
                 e := u32add s.e 1 } with
    | none => none
    | some s2 =>
      if c1 = 10 ∨ c1 = C 'D' ∨ s2.e = u32add s2.r INPUT_BUF then
        some { s2 with w := s2.e, wakeups := s2.wakeups + 1 }
      else some s2
  else some s

/-- The effect of one code on the local `doprocdump` of `consoleintr`. -/
def dumpFlag (c : Int) (d : Bool) : Bool := if c = C 'P' then true else d

/-- The loop `while ((c = getc()) >= 0)` of `consoleintr`; `getc` is the list
of the codes it will return, and returns `-1` once the list is used up. -/
def consoleintr_loop : List Int → State → Bool → Option (State × Bool)
  | [], s, d => some (s, d)
  | c :: rest, s, d =>
    if c ≥ 0 then
      match consoleintr_key c s with
      | none => none
      | some s1 => consoleintr_loop rest s1 (dumpFlag c d)
    else some (s, d)

/-- The function `consoleintr`. -/
def consoleintr (getc : List Int) (s : State) : Option State :=
  match consoleintr_loop getc s false with
  | none => none
  | some (s1, d) => some (if d then { s1 with procdumps := s1.procdumps + 1 } else s1)

/-- The key `c` is accepted by the `default:` branch of `consoleintr` and
commits: it is a newline or a carriage return, the EOF code, or it fills the
buffer to `e = r + INPUT_BUF`. -/
def commits (c : Int) (s : State) : Prop :=
  c ≠ C 'P' ∧ c ≠ C 'U' ∧ c ≠ C 'H' ∧ c ≠ 0x7f ∧ c ≠ 0 ∧ u32sub s.e s.r < INPUT_BUF ∧
    (c = 10 ∨ c = 13 ∨ c = C 'D' ∨ u32add s.e 1 = u32add s.r INPUT_BUF)

instance (c : Int) (s : State) : Decidable (commits c s) := by
  unfold commits; infer_instance

/-- The number of keys of a call of `consoleintr` at which the write index
changes. -/
def wAdvances : List Int → State → Nat
  | [], _ => 0
  | c :: rest, s =>
    if c ≥ 0 then
      match consoleintr_key c s with
      | none => 0
      | some s1 => (if s1.w ≠ s.w then 1 else 0) + wAdvances rest s1
    else 0

/-! ## Input: `consoleread` -/

/-- What a call of `consoleread` has done when it stops. -/
structure ReadResult where
  /-- The value returned; `none` when the caller sleeps in
  `sleep(&input.r, &cons.lock)` and nothing wakes it. -/
  ret : Option Int
  /-- The bytes stored through `dst`, in order. -/
  dst : List Nat
  /-- The globals afterwards. -/
  state : State

/-- The loop `while (n > 0)` of `consoleread`, `n` being the current value of
the local `n` and `dst` the bytes stored so far. -/
def consoleread_loop (killed : Bool) (target : Nat) : Nat → List Nat → State → ReadResult
  | 0, dst, s => ⟨some (toInt32 (u32sub target 0)), dst, s⟩
  | n + 1, dst, s =>
    if s.r = s.w then
      if killed then ⟨some (-1), dst, s⟩ else ⟨none, dst, s⟩
    else
      let c : Int := charVal (s.buf (s.r % INPUT_BUF))
      let s1 : State := { s with r := u32add s.r 1 }
      if c = C 'D' then
        ⟨some (toInt32 (u32sub target (n + 1))), dst,
          if n + 1 < target then { s1 with r := u32sub s1.r 1 } else s1⟩
      else if c = 10 then ⟨some (toInt32 (u32sub target n)), dst ++ [toByte c], s1⟩
      else consoleread_loop killed target n (dst ++ [toByte c]) s1

/-- The function `consoleread`; `killed` is `myproc()->killed`. -/
def consoleread (killed : Bool) (n : Int) (s : State) : ReadResult :=
  if n > 0 then consoleread_loop killed (toUInt32 n) n.toNat [] s
  else ⟨some (toInt32 (u32sub (toUInt32 n) (toUInt32 n))), [], s⟩

/-! ## Predicates used in the statements -/

/-- The counters are `uint` values and the buffer holds bytes. -/
def WF (s : State) : Prop :=
  s.r < 4294967296 ∧ s.w < 4294967296 ∧ s.e < 4294967296 ∧ ∀ i, s.buf i < 256

/-- Normal operation: the panic latch is clear and the cursor registers hold
a position on the 80x25 screen. -/
def Normal (s : State) : Prop := s.panicked = false ∧ readCursor s < 25 * 80

/-- The bytes `buf[a mod 128], ..., buf[(a + len - 1) mod 128]`, in order. -/
def region (buf : Nat → Nat) (a len : Nat) : List Nat :=
  (List.range len).map (fun i => buf ((a + i) % INPUT_BUF))

/-- The invariant of the input buffer in the arithmetic of the counters:
`w - r <= e - r` and `e - r <= INPUT_BUF`, the differences taken as `uint`. -/
def Inv (s : State) : Prop :=
  u32sub s.w s.r ≤ u32sub s.e s.r ∧ u32sub s.e s.r ≤ INPUT_BUF

/-- The invariant of the input buffer on the counters read as numbers:
`r <= w <= e` and `e - r <= INPUT_BUF`. -/
def PlainInv (s : State) : Prop :=
  s.r ≤ s.w ∧ s.w ≤ s.e ∧ s.e - s.r ≤ INPUT_BUF

/-- No byte of the pending region `[w, e)` is a newline. -/
def PendingNoNewline (s : State) : Prop :=
  ∀ j, j < u32sub s.e s.w → s.buf ((s.w + j) % INPUT_BUF) ≠ 10

/-- An ordinary key: a byte that is neither zero nor one of the codes the
line editor or the reader treats specially (control-D, control-H, newline,
carriage return, control-P, control-U, DEL). -/
def Ordinary (c : Nat) : Prop :=
  0 < c ∧ c < 256 ∧ c ≠ 4 ∧ c ≠ 8 ∧ c ≠ 10 ∧ c ≠ 13 ∧ c ≠ 16 ∧ c ≠ 21 ∧ c ≠ 127

instance (c : Nat) : Decidable (Ordinary c) := by unfold Ordinary; infer_instance

/-- The keys as `getc` returns them. -/
def keysOf (l : List Nat) : List Int := l.map (fun c => (c : Int))

/-- Well formed, in normal operation, within the invariant, and without a
newline in the pending region: what holds of every reachable state. -/
def Good (s : State) : Prop := WF s ∧ Normal s ∧ Inv s ∧ PendingNoNewline s

/-- The position the claim gives for the cursor after a character: the next
multiple of 80 strictly greater than `pos` for a newline, `pos - 1` (or `0`
at `pos = 0`) for the backspace sentinel, `pos + 1` otherwise. -/
def specCursor (c pos : Int) : Int :=
  if c = 10 then 80 * (pos / 80 + 1)
  else if c = BACKSPACE then (if pos = 0 then 0 else pos - 1)
  else pos + 1

/-- A blank cell of the screen, as the claims use the word: a cell that
`memset` has cleared to `0` or that holds the blank glyph `' ' | 0x0700`. -/
def specBlank (v : Nat) : Prop := v = 0 ∨ v = 0x20 ||| 0x0700

/-- The digits of the canonical representation of `n` in base `b`, most
significant first and without leading zeros; the representation of zero is
the single digit `0`.  (The side of the specification: `Nat.digits` is the
list of digits of Mathlib, least significant first.) -/
def specDigits (b n : Nat) : List Nat :=
  if n = 0 then [0] else (Nat.digits b n).reverse

/-- The character of a digit in the canonical representation, lowercase
beyond 9. -/
def specDigitChar (d : Nat) : Int := ((Nat.digitChar d).toNat : Int)

/-- The canonical signed decimal representation of `v`: a `-` exactly when
`v < 0`, then the digits of the magnitude. -/
def specDecimal (v : Int) : List Int :=
  (if v < 0 then [45] else []) ++ (specDigits 10 v.natAbs).map specDigitChar

/-- The canonical lowercase hexadecimal representation of `n`. -/
def specHex (n : Nat) : List Int := (specDigits 16 n).map specDigitChar

/-- The text of a panic as the specification describes it: the prefix
`lapicid <id>: panic: `, the characters `msg` of the message, a newline, and
ten entries, each a space followed by a return address in hexadecimal. -/
def specPanic (id : Int) (msg : List Int) (pcs : Nat → Nat) : List Int :=
  text "lapicid " ++ specDecimal id ++ text ": panic: " ++ msg ++ text "\n" ++
    (List.range 10).flatMap (fun i => text " " ++ specHex (pcs i))

/-- The states reached from boot, with the cursor on the screen, by calls of
`consoleintr` (`getc` delivers bytes, as the keyboard and the serial port do)
and of `consoleread` (`n` is an `int`). -/
inductive Reachable : State → Prop
  | boot (crt : Int → Nat) (hi lo : Nat) :
      readCursor (bootState crt hi lo) < 25 * 80 → Reachable (bootState crt hi lo)
  | intr (s s1 : State) (getc : List Int) :
      Reachable s → (∀ c ∈ getc, c < 256) → consoleintr getc s = some s1 → Reachable s1
  | read (s : State) (killed : Bool) (n : Int) :
      Reachable s → -2147483648 ≤ n → n < 2147483648 →
      Reachable (consoleread killed n s).state

/-! ## The character sink returns in normal operation -/

theorem Normal_of_eq (s s1 : State) (hp : s1.panicked = s.panicked)
    (hh : s1.cursorHi = s.cursorHi) (hl : s1.cursorLo = s.cursorLo) (h : Normal s) :
    Normal s1 := by
  unfold Normal readCursor at *
  rw [hp, hh, hl]
  exact h

theorem readCursor_nonneg (s : State) : 0 ≤ readCursor s := by
  unfold readCursor
  exact Int.ofNat_nonneg _

theorem readCursor_write (s : State) (crt : Int → Nat) (p : Int) (h0 : 0 ≤ p) (h1 : p < 65536) :
    readCursor { s with cursorHi := ((p / 256) % 256).toNat, cursorLo := (p % 256).toNat,
                        crt := crt } = p := by
  unfold readCursor
  simp only
  have hlo : (p % 256).toNat < 2 ^ 8 := by omega
  have h := Nat.mul_add_lt_is_or hlo ((p / 256) % 256).toNat
  rw [Nat.shiftLeft_eq, Nat.mul_comm, ← h]
  omega

/-- With the cursor on the screen `cgaputc` does not panic: it returns, it
touches only the screen and the cursor, and the cursor stays on the screen. -/
theorem cgaputc_normal (c : Int) (s : State) (h : readCursor s < 25 * 80) :
    ∃ crt hi lo, cgaputc c s = some { s with crt := crt, cursorHi := hi, cursorLo := lo } ∧
      readCursor { s with crt := crt, cursorHi := hi, cursorLo := lo } < 25 * 80 := by
  have h0 := readCursor_nonneg s
  dsimp only [cgaputc]
  generalize hp1 : (if c = 10 then readCursor s + (80 - readCursor s % 80)
    else if c = BACKSPACE then (if readCursor s > 0 then readCursor s - 1 else readCursor s)
    else readCursor s + 1) = pos1
  have hb : 0 ≤ pos1 ∧ pos1 ≤ 25 * 80 := by
    subst hp1
    split
    · omega
    · split
      · split <;> omega
      · omega
  rw [if_neg (by omega)]
  refine ⟨_, _, _, rfl, ?_⟩
  rw [readCursor_write] <;> simp only [decide_eq_true_eq] <;> split <;> omega

/-- In normal operation `consputc` returns: the character is appended to the
serial trace (the erase sequence for the backspace sentinel), the screen and
the cursor change, nothing else does, and operation stays normal. -/
theorem consputc_normal (c : Int) (s : State) (h : Normal s) :
    ∃ crt hi lo, consputc c s = some { s with
        uart := s.uart ++ (if c = BACKSPACE then [8, 32, 8] else [c]),
        crt := crt, cursorHi := hi, cursorLo := lo } ∧
      Normal { s with uart := s.uart ++ (if c = BACKSPACE then [8, 32, 8] else [c]),
                      crt := crt, cursorHi := hi, cursorLo := lo } := by
  obtain ⟨hp, hc⟩ := h
  by_cases hb : c = BACKSPACE
  · obtain ⟨crt, hi, lo, h1, h2⟩ :=
      cgaputc_normal c { s with uart := s.uart ++ [8, 32, 8] } hc
    refine ⟨crt, hi, lo, ?_, ?_⟩
    · simp only [consputc, hp, hb, if_true] at h1 ⊢
      simpa using h1
    · exact ⟨hp, by simpa [hb] using h2⟩
  · obtain ⟨crt, hi, lo, h1, h2⟩ :=
      cgaputc_normal c { s with uart := s.uart ++ [c] } hc
    refine ⟨crt, hi, lo, ?_, ?_⟩
    · simp only [consputc, hp, hb, if_false] at h1 ⊢
      simpa using h1
    · exact ⟨hp, by simpa [hb] using h2⟩

/-- The fields that `consputc` leaves alone, in normal operation. -/
theorem consputc_fields (c : Int) (s : State) (h : Normal s) :
    ∃ s2, consputc c s = some s2 ∧ Normal s2 ∧ s2.r = s.r ∧ s2.w = s.w ∧ s2.e = s.e ∧
      s2.buf = s.buf ∧ s2.wakeups = s.wakeups ∧ s2.procdumps = s.procdumps ∧
      s2.uart = s.uart ++ (if c = BACKSPACE then [8, 32, 8] else [c]) := by
  obtain ⟨crt, hi, lo, hput, hN2⟩ := consputc_normal c s h
  exact ⟨_, hput, hN2, rfl, rfl, rfl, rfl, rfl, rfl, rfl⟩

/-! ## Machine arithmetic -/

@[simp] theorem C_P : C 'P' = 16 := by decide
@[simp] theorem C_U : C 'U' = 21 := by decide
@[simp] theorem C_H : C 'H' = 8 := by decide
@[simp] theorem C_D : C 'D' = 4 := by decide

theorem toByte_charVal (b : Nat) (h : b < 256) : toByte (charVal b) = b := by
  unfold toByte charVal
  split <;> omega

theorem charVal_eq_iff (b : Nat) (h : b < 256) (v : Nat) (hv : v < 128) :
    charVal b = (v : Int) ↔ b = v := by
  unfold charVal
  split <;> omega

theorem toByte_ofNat (c : Nat) (h : c < 256) : toByte (c : Int) = c := by
  unfold toByte
  omega

theorem u32sub_self (r : Nat) : u32sub r r = 0 := by
  unfold u32sub; omega

theorem u32add_lt (a b : Nat) : u32add a b < 4294967296 := by
  unfold u32add; omega

theorem u32sub_lt (a b : Nat) : u32sub a b < 4294967296 := by
  unfold u32sub; omega

theorem u32sub_succ_self (r : Nat) (hr : r < 4294967296) : u32sub (u32add r 1) r = 1 := by
  unfold u32sub u32add; omega

theorem u32sub_pred_succ (r : Nat) (hr : r < 4294967296) : u32sub (u32add r 1) 1 = r := by
  unfold u32sub u32add; omega

theorem u32sub_pos (w r : Nat) (hw : w < 4294967296) (hr : r < 4294967296) (h : r ≠ w) :
    1 ≤ u32sub w r := by
  unfold u32sub; omega

theorem u32sub_step (x r : Nat) (hx : x < 4294967296) (hr : r < 4294967296) (h : r ≠ x) :
    u32sub x r = u32sub x (u32add r 1) + 1 := by
  unfold u32sub u32add; omega

theorem u32sub_step_le (x w r : Nat) (hx : x < 4294967296) (hw : w < 4294967296)
    (hr : r < 4294967296) (hrw : r ≠ w)
    (h : u32sub x (u32add r 1) ≤ u32sub w (u32add r 1)) :
    u32sub x r = u32sub x (u32add r 1) + 1 := by
  unfold u32sub u32add at *; omega

theorem u32add_mod (r k : Nat) : u32add r k % INPUT_BUF = (r + k) % INPUT_BUF := by
  unfold u32add INPUT_BUF; omega

theorem u32sub_between (r r1 w : Nat) (hr1 : r1 < 4294967296) (hw : w < 4294967296)
    (h : u32sub r1 r ≤ u32sub w r) (hrw : r ≤ w) : r ≤ r1 ∧ r1 ≤ w := by
  unfold u32sub at h; omega

theorem u32sub_eq_zero (a b : Nat) (ha : a < 4294967296) (hb : b < 4294967296)
    (h : u32sub a b = 0) : a = b := by
  unfold u32sub at h; omega

theorem u32sub_pred (e w : Nat) (he : e < 4294967296) (hw : w < 4294967296) (h : e ≠ w) :
    u32sub (u32sub e 1) w + 1 = u32sub e w := by
  unfold u32sub; omega

theorem toByte_lt (c : Int) : toByte c < 256 := by
  unfold toByte; omega

theorem inv_retract (r w e e1 : Nat) (hr : r < 4294967296) (hw : w < 4294967296)
    (he : e < 4294967296) (he1 : e1 < 4294967296)
    (h1 : u32sub w r ≤ u32sub e r) (h2 : u32sub e r ≤ 128)
    (h3 : u32sub e1 w ≤ u32sub e w) :
    u32sub w r ≤ u32sub e1 r ∧ u32sub e1 r ≤ u32sub e r := by
  unfold u32sub at *; omega

theorem inv_accept (r e : Nat) (hr : r < 4294967296) (he : e < 4294967296)
    (h : u32sub e r < 128) : u32sub (u32add e 1) r = u32sub e r + 1 := by
  unfold u32sub u32add at *; omega

theorem inv_pending (r w e : Nat) (hr : r < 4294967296) (hw : w < 4294967296)
    (he : e < 4294967296) (h1 : u32sub w r ≤ u32sub e r) (h2 : u32sub e r ≤ 128) :
    u32sub e w + u32sub w r = u32sub e r := by
  unfold u32sub at *; omega

theorem inv_read (r w e r1 : Nat) (hr : r < 4294967296) (hw : w < 4294967296)
    (he : e < 4294967296) (hr1 : r1 < 4294967296)
    (h1 : u32sub w r ≤ u32sub e r) (h2 : u32sub e r ≤ 128)
    (h3 : u32sub r1 r ≤ u32sub w r) :
    u32sub w r1 + u32sub r1 r = u32sub w r ∧ u32sub e r1 + u32sub r1 r = u32sub e r := by
  unfold u32sub at *; omega

theorem pending_index (w e : Nat) (hw : w < 4294967296) (he : e < 4294967296) :
    (w + u32sub e w) % INPUT_BUF = e % INPUT_BUF := by
  unfold u32sub INPUT_BUF; omega

theorem pending_last (w e1 : Nat) (hw : w < 4294967296) (he1 : e1 < 4294967296)
    (h : e1 ≠ w) : (w + (u32sub e1 w - 1)) % INPUT_BUF = u32sub e1 1 % INPUT_BUF := by
  unfold u32sub INPUT_BUF; omega

theorem u32add_pred (e k : Nat) (hk : k < 4294967295) :
    u32sub (u32add e (k + 1)) 1 = u32add e k ∧ u32add e (k + 1) ≠ e := by
  unfold u32sub u32add; omega

theorem u32sub_add_self (e k : Nat) (he : e < 4294967296) (hk : k < 4294967296) :
    u32sub (u32add e k) e = k := by
  unfold u32sub u32add; omega

theorem u32add_add (e a b : Nat) : u32add (u32add e a) b = u32add e (a + b) := by
  unfold u32add; omega

/-! ## Regions of the circular buffer -/

theorem region_length (buf : Nat → Nat) (a m : Nat) : (region buf a m).length = m := by
  simp [region]

theorem region_succ_snoc (buf : Nat → Nat) (a m : Nat) :
    region buf a (m + 1) = region buf a m ++ [buf ((a + m) % INPUT_BUF)] := by
  simp [region, List.range_succ]

theorem region_succ_cons (buf : Nat → Nat) (a m : Nat) :
    region buf a (m + 1) = buf (a % INPUT_BUF) :: region buf (a + 1) m := by
  simp only [region, List.range_succ_eq_map, List.map_cons, List.map_map, Nat.add_zero]
  congr 1
  apply List.map_congr_left
  intro i _
  simp only [Function.comp, Nat.succ_eq_add_one]
  congr 2
  omega

theorem region_congr_base (buf : Nat → Nat) (a b m : Nat)
    (h : a % INPUT_BUF = b % INPUT_BUF) : region buf a m = region buf b m := by
  unfold region
  apply List.map_congr_left
  intro i _
  congr 1
  unfold INPUT_BUF at *
  omega

theorem region_congr_buf (buf1 buf2 : Nat → Nat) (a m : Nat)
    (h : ∀ i, i < m → buf1 ((a + i) % INPUT_BUF) = buf2 ((a + i) % INPUT_BUF)) :
    region buf1 a m = region buf2 a m := by
  unfold region
  apply List.map_congr_left
  intro i hi
  exact h i (List.mem_range.mp hi)

theorem region_getElem (buf : Nat → Nat) (a m i : Nat) (h : i < (region buf a m).length) :
    (region buf a m)[i] = buf ((a + i) % INPUT_BUF) := by
  simp [region]

/-! ## The loop of `consoleread` -/

theorem consoleread_loop_succ (killed : Bool) (target n : Nat) (dst : List Nat) (s : State) :
    consoleread_loop killed target (n + 1) dst s =
      if s.r = s.w then
        if killed then ⟨some (-1), dst, s⟩ else ⟨none, dst, s⟩
      else
        if charVal (s.buf (s.r % INPUT_BUF)) = C 'D' then
          ⟨some (toInt32 (u32sub target (n + 1))), dst,
            if n + 1 < target then { s with r := u32sub (u32add s.r 1) 1 }
            else { s with r := u32add s.r 1 }⟩
        else if charVal (s.buf (s.r % INPUT_BUF)) = 10 then
          ⟨some (toInt32 (u32sub target n)), dst ++ [toByte (charVal (s.buf (s.r % INPUT_BUF)))],
            { s with r := u32add s.r 1 }⟩
        else consoleread_loop killed target n
          (dst ++ [toByte (charVal (s.buf (s.r % INPUT_BUF)))]) { s with r := u32add s.r 1 } := by
  rfl

/-- Reading through a run of committed bytes that holds neither a newline nor
the EOF code: the loop stores them and goes on behind them. -/
theorem consoleread_loop_advance (killed : Bool) (target : Nat) (bs : List Nat) :
    ∀ (n : Nat) (dst : List Nat) (s : State), WF s →
      bs = region s.buf s.r bs.length → (∀ x ∈ bs, x ≠ 4 ∧ x ≠ 10) →
      bs.length ≤ n → bs.length ≤ u32sub s.w s.r →
      consoleread_loop killed target n dst s =
        consoleread_loop killed target (n - bs.length) (dst ++ bs)
          { s with r := u32add s.r bs.length } := by
  induction bs with
  | nil =>
    intro n dst s hwf _ _ _ _
    have hr : u32add s.r 0 = s.r := by
      unfold u32add; have := hwf.1; omega
    simp [hr]
  | cons b bs ih =>
    intro n dst s hwf hreg hne hn hw
    obtain ⟨hr, hw32, he, hbuf⟩ := hwf
    simp only [List.length_cons] at hreg hn hw
    rw [region_succ_cons] at hreg
    injection hreg with hb htl
    obtain ⟨n1, rfl⟩ : ∃ n1, n = n1 + 1 := ⟨n - 1, by omega⟩
    have hrw : s.r ≠ s.w := by
      intro h; rw [h] at hw; unfold u32sub at hw; omega
    have hb4 := (hne b (List.mem_cons_self _ _)).1
    have hb10 := (hne b (List.mem_cons_self _ _)).2
    have hlt : s.buf (s.r % INPUT_BUF) < 256 := hbuf _
    have hc4 : charVal (s.buf (s.r % INPUT_BUF)) ≠ C 'D' := by
      rw [C_D]; intro h
      exact hb4 (hb.trans ((charVal_eq_iff _ hlt 4 (by omega)).mp h))
    have hc10 : charVal (s.buf (s.r % INPUT_BUF)) ≠ 10 := by
      intro h
      exact hb10 (hb.trans ((charVal_eq_iff _ hlt 10 (by omega)).mp h))
    rw [consoleread_loop_succ, if_neg hrw, if_neg hc4, if_neg hc10, toByte_charVal _ hlt, ← hb]
    have hwf1 : WF { s with r := u32add s.r 1 } :=
      ⟨by show u32add s.r 1 < 4294967296; unfold u32add; omega, hw32, he, hbuf⟩
    have hreg1 : bs = region s.buf (u32add s.r 1) bs.length :=
      htl.trans (region_congr_base _ _ _ _ (by unfold u32add INPUT_BUF; omega))
    have hw1 : bs.length ≤ u32sub s.w (u32add s.r 1) := by
      unfold u32sub u32add at *; omega
    rw [ih n1 (dst ++ [b]) { s with r := u32add s.r 1 } hwf1 hreg1
      (fun x hx => hne x (List.mem_cons_of_mem _ hx)) (by omega) hw1]
    have e1 : n1 + 1 - (bs.length + 1) = n1 - bs.length := by omega
    have e2 : u32add (u32add s.r 1) bs.length = u32add s.r (bs.length + 1) := by
      unfold u32add; omega
    simp only [List.length_cons, e1, e2, List.append_assoc, List.singleton_append]

/-- Storing a byte at the edit position extends the run that starts at the
read position by that byte. -/
theorem region_store (buf : Nat → Nat) (r e v : Nat) (hr : r < 4294967296)
    (he : e < 4294967296) (hm : u32sub e r < INPUT_BUF) :
    region (fun i => if i = e % INPUT_BUF then v else buf i) r (u32sub e r + 1) =
      region buf r (u32sub e r) ++ [v] := by
  have hidx : (r + u32sub e r) % INPUT_BUF = e % INPUT_BUF := by
    unfold u32sub INPUT_BUF at *; omega
  rw [region_succ_snoc, hidx, if_pos rfl]
  congr 1
  apply region_congr_buf
  intro i hi
  have hne : (r + i) % INPUT_BUF ≠ e % INPUT_BUF := by
    unfold u32sub INPUT_BUF at *; omega
  rw [if_neg hne]

/-- What the loop of `consoleread` does from any state: it stores a run `d`
of committed bytes taken in order from the read position, none of them the
EOF code and none but the last a newline, it moves the read index behind the
run (and behind an EOF code that it consumes) without passing the write
index, and it touches nothing else. -/
theorem consoleread_loop_spec (killed : Bool) (target : Nat) :
    ∀ (n : Nat) (dst : List Nat) (s : State), WF s →
      ∃ (d : List Nat) (r1 : Nat),
        (consoleread_loop killed target n dst s).dst = dst ++ d ∧
        (consoleread_loop killed target n dst s).state = { s with r := r1 } ∧
        r1 < 4294967296 ∧
        d = region s.buf s.r d.length ∧
        d.length ≤ n ∧
        (∀ x ∈ d, x ≠ 4) ∧
        (∀ i (h : i + 1 < d.length), d[i] ≠ 10) ∧
        d.length ≤ u32sub r1 s.r ∧ u32sub r1 s.r ≤ d.length + 1 ∧
        u32sub r1 s.r ≤ u32sub s.w s.r ∧
        (((consoleread_loop killed target n dst s).ret = none ∧ killed = false ∧ r1 = s.w) ∨
         ((consoleread_loop killed target n dst s).ret = some (-1) ∧ killed = true ∧
            r1 = s.w) ∨
         (consoleread_loop killed target n dst s).ret =
            some (toInt32 (u32sub target (n - d.length)))) := by
  intro n
  induction n with
  | zero =>
    intro dst s hwf
    obtain ⟨hr, hw, he, hbuf⟩ := hwf
    have h0 : u32sub s.r s.r = 0 := u32sub_self _
    refine ⟨[], s.r, by simp [consoleread_loop], rfl, hr, by simp [region], by simp,
      by simp, by simp, ?_, ?_, ?_, Or.inr (Or.inr rfl)⟩ <;>
    · rw [h0]; simp
  | succ n ih =>
    intro dst s hwf
    obtain ⟨hr, hw, he, hbuf⟩ := hwf
    have hlt : s.buf (s.r % INPUT_BUF) < 256 := hbuf _
    have h0 : u32sub s.r s.r = 0 := u32sub_self _
    rw [consoleread_loop_succ]
    by_cases hrw : s.r = s.w
    · rw [if_pos hrw]
      cases killed
      · refine ⟨[], s.r, by simp, rfl, hr, by simp [region], by simp,
          by simp, by simp, ?_, ?_, ?_, Or.inl ⟨rfl, rfl, hrw⟩⟩ <;>
        · rw [h0]; simp
      · refine ⟨[], s.r, by simp, rfl, hr, by simp [region], by simp,
          by simp, by simp, ?_, ?_, ?_, Or.inr (Or.inl ⟨rfl, rfl, hrw⟩)⟩ <;>
        · rw [h0]; simp
    · rw [if_neg hrw]
      have hadd : u32add s.r 1 < 4294967296 := u32add_lt _ _
      have h1 : u32sub (u32add s.r 1) s.r = 1 := u32sub_succ_self _ hr
      have hw1 : 1 ≤ u32sub s.w s.r := u32sub_pos _ _ hw hr hrw
      by_cases hD : charVal (s.buf (s.r % INPUT_BUF)) = C 'D'
      · rw [if_pos hD]
        by_cases hpush : n + 1 < target
        · have hback : u32sub (u32add s.r 1) 1 = s.r := u32sub_pred_succ _ hr
          refine ⟨[], s.r, by simp, by simp [hpush, hback], hr, by simp [region],
            by simp, by simp, by simp, ?_, ?_, ?_, Or.inr (Or.inr rfl)⟩ <;>
          · rw [h0]; simp
        · refine ⟨[], u32add s.r 1, by simp, by simp [hpush], hadd, by simp [region],
            by simp, by simp, by simp, ?_, ?_, ?_, Or.inr (Or.inr rfl)⟩
          · simp
          · rw [h1]; simp
          · rw [h1]; exact hw1
      · rw [if_neg hD, toByte_charVal _ hlt]
        have hb4 : s.buf (s.r % INPUT_BUF) ≠ 4 := by
          intro h; apply hD; rw [h]; decide
        by_cases hnl : charVal (s.buf (s.r % INPUT_BUF)) = 10
        · rw [if_pos hnl]
          refine ⟨[s.buf (s.r % INPUT_BUF)], u32add s.r 1, rfl, rfl, hadd, ?_, by simp,
            by simpa using hb4, by simp, ?_, ?_, ?_, Or.inr (Or.inr (by simp))⟩
          · rw [List.length_singleton, region_succ_cons]; simp [region]
          · rw [h1]; simp
          · rw [h1]; simp
          · rw [h1]; exact hw1
        · rw [if_neg hnl]
          have hb10 : s.buf (s.r % INPUT_BUF) ≠ 10 := by
            intro h; apply hnl; rw [h]; decide
          have hwf1 : WF { s with r := u32add s.r 1 } := ⟨hadd, hw, he, hbuf⟩
          obtain ⟨d, r1, hdst, hst, hr1, hreg, hlen, h4, h10, hlo, hhi, hpass, hret⟩ :=
            ih (dst ++ [s.buf (s.r % INPUT_BUF)]) { s with r := u32add s.r 1 } hwf1
          simp only at hst hreg hlo hhi hpass hret
          have hstep : u32sub r1 s.r = u32sub r1 (u32add s.r 1) + 1 :=
            u32sub_step_le r1 s.w s.r hr1 hw hr hrw hpass
          have hstepw : u32sub s.w s.r = u32sub s.w (u32add s.r 1) + 1 :=
            u32sub_step s.w s.r hw hr hrw
          refine ⟨s.buf (s.r % INPUT_BUF) :: d, r1, by simp [hdst], by rw [hst], hr1, ?_,
            by simp only [List.length_cons]; omega, ?_, ?_, ?_, ?_, ?_, ?_⟩
          · simp only [List.length_cons]
            rw [region_succ_cons]
            congr 1
            exact hreg.trans (region_congr_base _ _ _ _ (by rw [u32add_mod]))
          · intro x hx
            rcases List.mem_cons.mp hx with rfl | hx
            · exact hb4
            · exact h4 x hx
          · intro i hi
            cases i with
            | zero => simpa using hb10
            | succ j =>
              simp only [List.getElem_cons_succ]
              exact h10 j (by simp only [List.length_cons] at hi; omega)
          · simp only [List.length_cons]; omega
          · simp only [List.length_cons]; omega
          · omega
          · rcases hret with h | h | h
            · exact Or.inl h
            · exact Or.inr (Or.inl h)
            · refine Or.inr (Or.inr ?_)
              rw [h]; simp only [List.length_cons]
              rw [show n + 1 - (d.length + 1) = n - d.length by omega]

/-- What a call of `consoleread` does from any state. -/
theorem consoleread_spec (killed : Bool) (n : Int) (s : State) (hwf : WF s)
    (hn32 : n < 2147483648) :
    ∃ (d : List Nat) (r1 : Nat),
      (consoleread killed n s).dst = d ∧
      (consoleread killed n s).state = { s with r := r1 } ∧
      r1 < 4294967296 ∧
      d = region s.buf s.r d.length ∧
      ((d.length : Nat) : Int) ≤ max n 0 ∧
      (∀ x ∈ d, x ≠ 4) ∧
      (∀ i (h : i + 1 < d.length), d[i] ≠ 10) ∧
      d.length ≤ u32sub r1 s.r ∧ u32sub r1 s.r ≤ d.length + 1 ∧
      u32sub r1 s.r ≤ u32sub s.w s.r ∧
      (((consoleread killed n s).ret = none ∧ killed = false ∧ r1 = s.w) ∨
       ((consoleread killed n s).ret = some (-1) ∧ killed = true ∧ r1 = s.w) ∨
       (consoleread killed n s).ret = some ((d.length : Nat) : Int)) := by
  by_cases hpos : n > 0
  · obtain ⟨m, rfl⟩ : ∃ m : Nat, n = (m : Int) := ⟨n.toNat, by omega⟩
    have hT : toUInt32 (m : Int) = m := by unfold toUInt32; omega
    simp only [consoleread, hpos, if_true, hT, Int.toNat_ofNat]
    obtain ⟨d, r1, hdst, hst, hr1, hreg, hlen, h4, h10, hlo, hhi, hpass, hret⟩ :=
      consoleread_loop_spec killed m m [] s hwf
    refine ⟨d, r1, by simpa using hdst, hst, hr1, hreg, by omega, h4, h10, hlo, hhi, hpass, ?_⟩
    rcases hret with h | h | h
    · exact Or.inl h
    · exact Or.inr (Or.inl h)
    · refine Or.inr (Or.inr ?_)
      rw [h]
      congr 1
      unfold toInt32 u32sub; split <;> omega
  · have hret : toInt32 (u32sub (toUInt32 n) (toUInt32 n)) = 0 := by
      rw [u32sub_self]; rfl
    simp only [consoleread, hpos, if_false, hret]
    refine ⟨[], s.r, rfl, rfl, hwf.1, by simp [region], by simp, by simp, by simp, ?_, ?_, ?_,
      Or.inr (Or.inr rfl)⟩ <;>
    · rw [u32sub_self]; simp

/-- Reading a committed line: a run of bytes without newline or EOF code,
then a newline.  The call returns the whole line and stops behind it. -/
theorem consoleread_line (killed : Bool) (n : Int) (bs : List Nat) (s : State) (hwf : WF s)
    (hreg : region s.buf s.r (bs.length + 1) = bs ++ [10])
    (hne : ∀ x ∈ bs, x ≠ 4 ∧ x ≠ 10) (hw : bs.length + 1 ≤ u32sub s.w s.r)
    (hn : ((bs.length + 1 : Nat) : Int) ≤ n) (hn32 : n < 2147483648) :
    consoleread killed n s =
      ⟨some ((bs.length + 1 : Nat) : Int), bs ++ [10],
        { s with r := u32add s.r (bs.length + 1) }⟩ := by
  obtain ⟨m, rfl⟩ : ∃ m : Nat, n = (m : Int) := ⟨n.toNat, by omega⟩
  have hpos : (m : Int) > 0 := by omega
  have hT : toUInt32 (m : Int) = m := by unfold toUInt32; omega
  rw [region_succ_snoc] at hreg
  have hlen : (region s.buf s.r bs.length).length = bs.length := region_length _ _ _
  obtain ⟨hpre, hlast⟩ := List.append_inj hreg hlen
  have hlast10 : s.buf ((s.r + bs.length) % INPUT_BUF) = 10 := by
    injection hlast
  simp only [consoleread, hpos, if_true, hT, Int.toNat_ofNat]
  rw [consoleread_loop_advance killed m bs m [] s hwf hpre.symm hne (by omega) (by omega)]
  obtain ⟨k, hk⟩ : ∃ k, m - bs.length = k + 1 := ⟨m - bs.length - 1, by omega⟩
  obtain ⟨hr, hw32, he, hbuf⟩ := hwf
  have hidx : u32add s.r bs.length % INPUT_BUF = (s.r + bs.length) % INPUT_BUF := by
    unfold u32add INPUT_BUF; omega
  have hrw : u32add s.r bs.length ≠ s.w := by
    unfold u32add u32sub at *; omega
  have hret : toInt32 (u32sub m k) = ((bs.length + 1 : Nat) : Int) := by
    unfold toInt32 u32sub; split <;> omega
  have hr2 : u32add (u32add s.r bs.length) 1 = u32add s.r (bs.length + 1) := by
    unfold u32add; omega
  rw [hk, consoleread_loop_succ]
  simp only [hidx, hlast10, hrw, if_false, C_D, hret, hr2, List.nil_append]
  simp [charVal, toByte]

/-- Reading when the first committed byte is the EOF code: the call returns
0 bytes and consumes the marker. -/
theorem consoleread_eof_first (killed : Bool) (n : Int) (s : State)
    (hrw : s.r ≠ s.w) (hb : s.buf (s.r % INPUT_BUF) = 4) (hn32 : n < 2147483648) :
    consoleread killed n s =
      ⟨some 0, [], if n > 0 then { s with r := u32add s.r 1 } else s⟩ := by
  have hc : charVal 4 = 4 := by decide
  by_cases hpos : n > 0
  · obtain ⟨m, rfl⟩ : ∃ m : Nat, n = ((m + 1 : Nat) : Int) := ⟨n.toNat - 1, by omega⟩
    have hT : toUInt32 ((m + 1 : Nat) : Int) = m + 1 := by unfold toUInt32; omega
    have hret : toInt32 (u32sub (m + 1) (m + 1)) = 0 := by
      unfold toInt32 u32sub; split <;> omega
    simp only [consoleread, hpos, if_true, hT, Int.toNat_ofNat, consoleread_loop_succ, hrw,
      if_false, hb, hc, C_D, hret, Nat.lt_irrefl]
  · have hret : toInt32 (u32sub (toUInt32 n) (toUInt32 n)) = 0 := by
      unfold toInt32 u32sub toUInt32; split <;> omega
    simp only [consoleread, hpos, if_false, hret]

/-- Reading a committed run of at least one byte without newline or EOF code
that is followed by the EOF code: the call returns the run and leaves the
marker in the buffer. -/
theorem consoleread_eof_later (killed : Bool) (n : Int) (bs : List Nat) (s : State)
    (hwf : WF s) (hreg : region s.buf s.r (bs.length + 1) = bs ++ [4])
    (hne : ∀ x ∈ bs, x ≠ 4 ∧ x ≠ 10) (hpos : 0 < bs.length)
    (hw : bs.length + 1 ≤ u32sub s.w s.r)
    (hn : ((bs.length : Nat) : Int) < n) (hn32 : n < 2147483648) :
    consoleread killed n s =
      ⟨some ((bs.length : Nat) : Int), bs, { s with r := u32add s.r bs.length }⟩ := by
  obtain ⟨m, rfl⟩ : ∃ m : Nat, n = (m : Int) := ⟨n.toNat, by omega⟩
  have hmpos : (m : Int) > 0 := by omega
  have hT : toUInt32 (m : Int) = m := by unfold toUInt32; omega
  rw [region_succ_snoc] at hreg
  have hlen : (region s.buf s.r bs.length).length = bs.length := region_length _ _ _
  obtain ⟨hpre, hlast⟩ := List.append_inj hreg hlen
  have hlast4 : s.buf ((s.r + bs.length) % INPUT_BUF) = 4 := by
    injection hlast
  simp only [consoleread, hmpos, if_true, hT, Int.toNat_ofNat]
  rw [consoleread_loop_advance killed m bs m [] s hwf hpre.symm hne (by omega) (by omega)]
  obtain ⟨k, hk⟩ : ∃ k, m - bs.length = k + 1 := ⟨m - bs.length - 1, by omega⟩
  obtain ⟨hr, hw32, he, hbuf⟩ := hwf
  have hidx : u32add s.r bs.length % INPUT_BUF = (s.r + bs.length) % INPUT_BUF := by
    unfold u32add INPUT_BUF; omega
  have hrw : u32add s.r bs.length ≠ s.w := by
    unfold u32add u32sub at *; omega
  have hret : toInt32 (u32sub m (k + 1)) = ((bs.length : Nat) : Int) := by
    unfold toInt32 u32sub; split <;> omega
  have hback : u32sub (u32add (u32add s.r bs.length) 1) 1 = u32add s.r bs.length := by
    unfold u32add u32sub; omega
  have hlt : k + 1 < m := by omega
  have hc : charVal 4 = 4 := by decide
  rw [hk, consoleread_loop_succ]
  simp only [hidx, hlast4, hrw, if_false, C_D, hc, if_true, hret, hback, hlt, List.nil_append]

/-! ## One key of `consoleintr` -/

/-- A key of the `default:` branch that finds room is stored, echoed and,
when it ends the line or fills the buffer, committed. -/
theorem consoleintr_key_accept (c : Int) (s : State) (hN : Normal s)
    (hP : c ≠ 16) (hU : c ≠ 21) (hH : c ≠ 8) (hDel : c ≠ 127) (h0 : c ≠ 0)
    (hroom : u32sub s.e s.r < INPUT_BUF) :
    ∃ s2, consoleintr_key c s = some s2 ∧ Normal s2 ∧ s2.r = s.r ∧
      s2.e = u32add s.e 1 ∧
      s2.buf = (fun i => if i = s.e % INPUT_BUF then toByte (if c = 13 then 10 else c)
                          else s.buf i) ∧
      s2.w = (if (if c = 13 then 10 else c) = 10 ∨ (if c = 13 then 10 else c) = 4 ∨
                  u32add s.e 1 = u32add s.r INPUT_BUF then u32add s.e 1 else s.w) ∧
      s2.wakeups = (if (if c = 13 then 10 else c) = 10 ∨ (if c = 13 then 10 else c) = 4 ∨
                  u32add s.e 1 = u32add s.r INPUT_BUF then s.wakeups + 1 else s.wakeups) ∧
      s2.uart = s.uart ++ (if (if c = 13 then 10 else c) = BACKSPACE then [8, 32, 8]
                            else [if c = 13 then 10 else c]) ∧
      s2.procdumps = s.procdumps := by
  generalize hc1 : (if c = 13 then 10 else c) = c1
  obtain ⟨crt, hi, lo, hput, hN2⟩ := consputc_normal c1
    { s with buf := fun i => if i = s.e % INPUT_BUF then toByte c1 else s.buf i
             e := u32add s.e 1 } hN
  have hH2 : ¬ (c = 8 ∨ c = 127) := by omega
  simp only [consoleintr_key, C_P, C_U, C_H, C_D, hP, hU, hH2, if_false, h0, hroom,
    ne_eq, not_false_eq_true, and_self, if_true, hput, hc1]
  by_cases hcommit : c1 = 10 ∨ c1 = 4 ∨ u32add s.e 1 = u32add s.r INPUT_BUF
  · rw [if_pos hcommit, if_pos hcommit, if_pos hcommit]
    exact ⟨_, rfl, ⟨hN2.1, hN2.2⟩, rfl, rfl, rfl, rfl, rfl, rfl, rfl⟩
  · rw [if_neg hcommit, if_neg hcommit, if_neg hcommit]
    exact ⟨_, rfl, hN2, rfl, rfl, rfl, rfl, rfl, rfl, rfl⟩

/-- A newline that finds room is stored and commits the line. -/
theorem consoleintr_key_newline (s : State) (hwf : WF s) (hN : Normal s)
    (hroom : u32sub s.e s.r < INPUT_BUF) :
    ∃ s2, consoleintr_key 10 s = some s2 ∧ WF s2 ∧ Normal s2 ∧ s2.r = s.r ∧
      s2.e = u32add s.e 1 ∧ s2.w = u32add s.e 1 ∧
      region s2.buf s.r (u32sub s.e s.r + 1) = region s.buf s.r (u32sub s.e s.r) ++ [10] ∧
      s2.wakeups = s.wakeups + 1 ∧ s2.procdumps = s.procdumps ∧ s2.uart = s.uart ++ [10] := by
  obtain ⟨s2, hk, hN2, hr2, he2, hb2, hw2, hwk2, hu2, hp2⟩ :=
    consoleintr_key_accept 10 s hN (by omega) (by omega) (by omega) (by omega) (by omega) hroom
  obtain ⟨hr, hw, he, hbuf⟩ := hwf
  have h13 : ¬ ((10 : Int) = 13) := by omega
  have hbs : ¬ ((10 : Int) = BACKSPACE) := by unfold BACKSPACE; omega
  have htb : toByte 10 = 10 := by decide
  simp only [if_neg h13, true_or, if_true, if_neg hbs, htb] at hb2 hw2 hwk2 hu2
  refine ⟨s2, hk, ⟨by omega, ?_, ?_, ?_⟩, hN2, hr2, he2, hw2, ?_, hwk2, hp2, hu2⟩
  · rw [hw2]; unfold u32add; omega
  · rw [he2]; unfold u32add; omega
  · intro i; rw [hb2]; dsimp only; split
    · omega
    · exact hbuf i
  · rw [hb2]; exact region_store s.buf s.r s.e 10 hr he hroom

/-- Backspace (control-H or DEL) with a pending byte retracts the edit index
by one and echoes the erase sequence; the buffer is not touched. -/
theorem consoleintr_key_backspace (c : Int) (s : State) (hN : Normal s)
    (hc : c = 8 ∨ c = 127) (hne : s.e ≠ s.w) :
    ∃ crt hi lo, consoleintr_key c s = some { s with
        e := u32sub s.e 1, uart := s.uart ++ [8, 32, 8],
        crt := crt, cursorHi := hi, cursorLo := lo } ∧
      Normal { s with e := u32sub s.e 1, uart := s.uart ++ [8, 32, 8],
                      crt := crt, cursorHi := hi, cursorLo := lo } := by
  obtain ⟨crt, hi, lo, hput, hN2⟩ := consputc_normal BACKSPACE { s with e := u32sub s.e 1 }
    (Normal_of_eq s _ rfl rfl rfl hN)
  have hP : c ≠ 16 := by omega
  have hU : c ≠ 21 := by omega
  simp only [if_true] at hput hN2
  refine ⟨crt, hi, lo, ?_, hN2⟩
  simp only [consoleintr_key, C_P, C_U, C_H, hP, hU, if_false, hc, if_true, hne, ne_eq,
    not_false_eq_true, hput]

/-- Backspace with a pending byte, by fields. -/
theorem consoleintr_key_backspace_fields (c : Int) (s : State) (hwf : WF s) (hN : Normal s)
    (hc : c = 8 ∨ c = 127) (hne : s.e ≠ s.w) :
    ∃ s1, consoleintr_key c s = some s1 ∧ WF s1 ∧ Normal s1 ∧ s1.r = s.r ∧ s1.w = s.w ∧
      s1.buf = s.buf ∧ s1.e = u32sub s.e 1 := by
  obtain ⟨crt, hi, lo, hk, hN1⟩ := consoleintr_key_backspace c s hN hc hne
  exact ⟨_, hk, ⟨hwf.1, hwf.2.1, u32sub_lt _ _, hwf.2.2.2⟩, hN1, rfl, rfl, rfl, rfl⟩

/-! ## The kill-line loop -/

theorem killCond_true (s : State) (h : killCond s = true) :
    s.e ≠ s.w ∧ charVal (s.buf (u32sub s.e 1 % INPUT_BUF)) ≠ 10 := by
  simpa [killCond] using h

/-- The kill-line loop in normal operation: it returns, having retracted the
edit index towards the write index until its test fails; it touches neither
the other counters nor the bytes of the buffer. -/
theorem killLine_spec : ∀ (fuel : Nat) (s : State), WF s → Normal s →
    u32sub s.e s.w ≤ fuel →
    ∃ s1, killLine fuel s = some s1 ∧ WF s1 ∧ Normal s1 ∧ s1.r = s.r ∧ s1.w = s.w ∧
      s1.buf = s.buf ∧ s1.wakeups = s.wakeups ∧ s1.procdumps = s.procdumps ∧
      u32sub s1.e s.w ≤ u32sub s.e s.w ∧ killCond s1 = false := by
  intro fuel
  induction fuel with
  | zero =>
    intro s hwf hN hfuel
    have hew : s.e = s.w := u32sub_eq_zero _ _ hwf.2.2.1 hwf.2.1 (by omega)
    have hk : killCond s = false := by simp [killCond, hew]
    exact ⟨s, by simp [killLine, hk], hwf, hN, rfl, rfl, rfl, rfl, rfl, le_refl _, hk⟩
  | succ fuel ih =>
    intro s hwf hN hfuel
    by_cases hk : killCond s = true
    · obtain ⟨hne, -⟩ := killCond_true s hk
      obtain ⟨hr, hw, he, hbuf⟩ := hwf
      obtain ⟨s2, hput, hN2, hr2, hw2, he2, hb2, hwk2, hp2, -⟩ :=
        consputc_fields BACKSPACE { s with e := u32sub s.e 1 } (Normal_of_eq s _ rfl rfl rfl hN)
      simp only at hr2 hw2 he2 hb2 hwk2 hp2
      have hpred := u32sub_pred s.e s.w he hw hne
      have hwf2 : WF s2 := by
        refine ⟨hr2 ▸ hr, hw2 ▸ hw, he2 ▸ u32sub_lt s.e 1, ?_⟩
        intro i; rw [hb2]; exact hbuf i
      obtain ⟨s1, h1, hwf1, hN1, hr1, hw1, hb1, hwk1, hp1, hle1, hk1⟩ :=
        ih s2 hwf2 hN2 (by rw [he2, hw2]; omega)
      refine ⟨s1, ?_, hwf1, hN1, hr1.trans hr2, hw1.trans hw2, hb1.trans hb2,
        hwk1.trans hwk2, hp1.trans hp2, ?_, hk1⟩
      · simp only [killLine, hk, if_true, hput]
        exact h1
      · rw [he2, hw2] at hle1
        omega
    · have hk' : killCond s = false := by simpa using hk
      exact ⟨s, by simp [killLine, hk'], hwf, hN, rfl, rfl, rfl, rfl, rfl, le_refl _, hk'⟩

/-! ## Typing a run of ordinary keys -/

theorem consoleintr_loop_cons (c : Int) (rest : List Int) (s s1 : State) (d : Bool)
    (hc : 0 ≤ c) (hk : consoleintr_key c s = some s1) :
    consoleintr_loop (c :: rest) s d = consoleintr_loop rest s1 (dumpFlag c d) := by
  simp only [consoleintr_loop, hc, ge_iff_le, if_true, hk]

theorem ordinary_cast (c : Nat) (h : Ordinary c) :
    (c : Int) ≠ 16 ∧ (c : Int) ≠ 21 ∧ (c : Int) ≠ 8 ∧ (c : Int) ≠ 127 ∧ (c : Int) ≠ 0 ∧
      (c : Int) ≠ 13 ∧ (c : Int) ≠ 10 ∧ (c : Int) ≠ 4 ∧ (c : Int) ≠ BACKSPACE ∧
      0 ≤ (c : Int) := by
  obtain ⟨h0, h256, h4, h8, h10, h13, h16, h21, h127⟩ := h
  unfold BACKSPACE
  exact ⟨by exact_mod_cast h16, by exact_mod_cast h21, by exact_mod_cast h8,
    by exact_mod_cast h127, by exact_mod_cast (Nat.ne_of_gt h0), by exact_mod_cast h13,
    by exact_mod_cast h10, by exact_mod_cast h4, by exact_mod_cast (Nat.ne_of_lt h256),
    Int.ofNat_nonneg c⟩

/-- An ordinary key that does not fill the buffer is appended to the pending
region; nothing is committed and nobody is woken. -/
theorem consoleintr_key_ordinary (c : Nat) (s : State) (hwf : WF s) (hN : Normal s)
    (hc : Ordinary c) (hroom : u32sub s.e s.r + 1 < INPUT_BUF) :
    ∃ s1, consoleintr_key (c : Int) s = some s1 ∧ WF s1 ∧ Normal s1 ∧
      s1.r = s.r ∧ s1.w = s.w ∧ s1.e = u32add s.e 1 ∧
      u32sub s1.e s.r = u32sub s.e s.r + 1 ∧
      s1.buf = (fun i => if i = s.e % INPUT_BUF then c else s.buf i) ∧
      region s1.buf s.r (u32sub s.e s.r + 1) = region s.buf s.r (u32sub s.e s.r) ++ [c] ∧
      s1.wakeups = s.wakeups ∧ s1.procdumps = s.procdumps ∧ s1.uart = s.uart ++ [(c : Int)] := by
  obtain ⟨hr, hw, he, hbuf⟩ := hwf
  have hroom1 : u32sub s.e s.r < INPUT_BUF := by omega
  have hnfull : u32add s.e 1 ≠ u32add s.r INPUT_BUF := by
    unfold u32add u32sub INPUT_BUF at *; omega
  have he1 : u32add s.e 1 < 4294967296 := by unfold u32add; omega
  have hm1 : u32sub (u32add s.e 1) s.r = u32sub s.e s.r + 1 := by
    unfold u32add u32sub INPUT_BUF at *; omega
  have hst := region_store s.buf s.r s.e c hr he hroom1
  have hcb : c < 256 := hc.2.1
  have hoc := ordinary_cast c hc
  obtain ⟨s1, hk, hN1, hr1, he1', hb1, hw1, hwk1, hu1, hp1⟩ :=
    consoleintr_key_accept (c : Int) s hN hoc.1 hoc.2.1 hoc.2.2.1 hoc.2.2.2.1
      hoc.2.2.2.2.1 hroom1
  have hnc : ¬ ((c : Int) = 10 ∨ (c : Int) = 4 ∨ u32add s.e 1 = u32add s.r INPUT_BUF) := by
    rintro (h | h | h)
    · exact hoc.2.2.2.2.2.2.1 h
    · exact hoc.2.2.2.2.2.2.2.1 h
    · exact hnfull h
  simp only [if_neg hoc.2.2.2.2.2.1, if_neg hnc, if_neg hoc.2.2.2.2.2.2.2.2.1,
    toByte_ofNat c hcb] at hb1 hw1 hwk1 hu1
  refine ⟨s1, hk, ⟨hr1 ▸ hr, hw1 ▸ hw, he1' ▸ he1, ?_⟩, hN1, hr1, hw1, he1', he1' ▸ hm1, hb1,
    hb1 ▸ hst, hwk1, hp1, hu1⟩
  intro i; rw [hb1]; dsimp only; split
  · exact hcb
  · exact hbuf i

/-- Ordinary keys that do not fill the buffer are appended to the pending
region one after the other; nothing is committed and nobody is woken. -/
theorem consoleintr_loop_ordinary (l : List Nat) :
    ∀ (s : State) (d : Bool), WF s → Normal s → (∀ c ∈ l, Ordinary c) →
      u32sub s.e s.r + l.length < INPUT_BUF →
      ∃ s2, (∀ rest, consoleintr_loop (keysOf l ++ rest) s d = consoleintr_loop rest s2 d) ∧
        WF s2 ∧ Normal s2 ∧
        s2.r = s.r ∧ s2.w = s.w ∧ s2.e = u32add s.e l.length ∧
        region s2.buf s.r (u32sub s.e s.r + l.length) =
          region s.buf s.r (u32sub s.e s.r) ++ l ∧
        s2.wakeups = s.wakeups ∧ s2.procdumps = s.procdumps ∧
        s2.uart = s.uart ++ keysOf l := by
  induction l with
  | nil =>
    intro s d hwf hN _ _
    refine ⟨s, fun _ => rfl, hwf, hN, rfl, rfl, ?_, by simp, rfl, rfl, by simp [keysOf]⟩
    have := hwf.2.2.1
    unfold u32add; simp only [List.length_nil]; omega
  | cons c l ih =>
    intro s d hwf hN hord hlen
    simp only [List.length_cons] at hlen
    obtain ⟨s1, hk, hwf1, hN1, hr1, hw1, he1, hm1, -, hreg1, hwk1, hp1, hu1⟩ :=
      consoleintr_key_ordinary c s hwf hN (hord c (List.mem_cons_self _ _)) (by omega)
    have hcn : 0 ≤ (c : Int) := Int.ofNat_nonneg c
    have hdump : dumpFlag (c : Int) d = d := by
      have h16 := (ordinary_cast c (hord c (List.mem_cons_self _ _))).1
      simp [dumpFlag, h16]
    have hlen1 : u32sub s1.e s1.r + l.length < INPUT_BUF := by rw [hr1, hm1]; omega
    obtain ⟨s2, hl, hwf2, hN2, hr2, hw2, he2, hreg2, hwk2, hp2, hu2⟩ :=
      ih s1 d hwf1 hN1 (fun x hx => hord x (List.mem_cons_of_mem _ hx)) hlen1
    refine ⟨s2, ?_, hwf2, hN2, hr2.trans hr1, hw2.trans hw1, ?_, ?_, hwk2.trans hwk1,
      hp2.trans hp1, ?_⟩
    · intro rest
      rw [← hl rest]
      have h := consoleintr_loop_cons (c : Int) (keysOf l ++ rest) s s1 d hcn hk
      rw [hdump] at h
      exact h
    · rw [he2, he1]; simp only [List.length_cons]; unfold u32add; omega
    · rw [hr1, hm1, hreg1] at hreg2
      simp only [List.length_cons]
      rw [show u32sub s.e s.r + (l.length + 1) = u32sub s.e s.r + 1 + l.length by omega,
        hreg2]
      simp
    · rw [hu2, hu1]; simp [keysOf]

/-- Typing ordinary keys and a newline in one call of `consoleintr`: the
line is appended behind what the buffer holds and committed. -/
theorem consoleintr_line (l : List Nat) (s : State) (hwf : WF s) (hN : Normal s)
    (hord : ∀ c ∈ l, Ordinary c) (hlen : u32sub s.e s.r + l.length < INPUT_BUF) :
    ∃ s2, consoleintr_loop (keysOf l ++ [10]) s false = some (s2, false) ∧
      WF s2 ∧ Normal s2 ∧ s2.r = s.r ∧
      s2.e = u32add s.e (l.length + 1) ∧ s2.w = u32add s.e (l.length + 1) ∧
      region s2.buf s.r (u32sub s.e s.r + l.length + 1) =
        region s.buf s.r (u32sub s.e s.r) ++ l ++ [10] := by
  obtain ⟨s1, hl, hwf1, hN1, hr1, hw1, he1, hreg1, -, -, -⟩ :=
    consoleintr_loop_ordinary l s false hwf hN hord hlen
  have hm1 : u32sub s1.e s.r = u32sub s.e s.r + l.length := by
    obtain ⟨hr, hw, he, -⟩ := hwf
    rw [he1]; unfold u32add u32sub INPUT_BUF at *; omega
  obtain ⟨s2, hk, hwf2, hN2, hr2, he2, hw2, hreg2, -, -, -⟩ :=
    consoleintr_key_newline s1 hwf1 hN1 (by rw [hr1, hm1]; exact hlen)
  have hadd : u32add s1.e 1 = u32add s.e (l.length + 1) := by
    rw [he1]; unfold u32add; omega
  refine ⟨s2, ?_, hwf2, hN2, by omega, by omega, by omega, ?_⟩
  · rw [hl [10], consoleintr_loop_cons 10 [] s1 s2 false (by omega) hk]
    rfl
  · rw [hr1, hm1, hreg1] at hreg2
    exact hreg2

/-! ## The invariant of the input buffer -/

/-- One key of `consoleintr` in normal operation: the call returns and keeps
the state well formed, normal and within the invariant; a byte keeps the
pending region free of newlines. -/
theorem consoleintr_key_inv (c : Int) (s : State) (hwf : WF s) (hN : Normal s) (hI : Inv s) :
    ∃ s1, consoleintr_key c s = some s1 ∧ WF s1 ∧ Normal s1 ∧ Inv s1 ∧ s1.r = s.r ∧
      (0 ≤ c → c < 256 → PendingNoNewline s → PendingNoNewline s1) ∧
      ((s1.e = u32add s.e 1 ∧ (s1.w = s.w ∨ s1.w = s1.e)) ∨
        (s1.w = s.w ∧ u32sub s1.e s.w ≤ u32sub s.e s.w)) := by
  obtain ⟨hr, hw, he, hbuf⟩ := hwf
  obtain ⟨hI1, hI2⟩ := hI
  unfold INPUT_BUF at hI2
  by_cases hP : c = 16
  · exact ⟨s, by simp [consoleintr_key, hP], ⟨hr, hw, he, hbuf⟩, hN, ⟨hI1, hI2⟩, rfl,
      fun _ _ h => h, Or.inr ⟨rfl, le_refl _⟩⟩
  by_cases hU : c = 21
  · obtain ⟨s1, h1, hwf1, hN1, hr1, hw1, hb1, -, -, hle1, -⟩ :=
      killLine_spec (u32sub s.e s.w) s ⟨hr, hw, he, hbuf⟩ hN (le_refl _)
    have hret := inv_retract s.r s.w s.e s1.e hr hw he hwf1.2.2.1 hI1 hI2 hle1
    refine ⟨s1, by simp [consoleintr_key, hU, h1], hwf1, hN1, ?_, hr1, ?_, Or.inr ⟨hw1, hle1⟩⟩
    · unfold Inv INPUT_BUF; rw [hr1, hw1]; omega
    · intro _ _ hpn j hj
      rw [hw1] at hj ⊢
      rw [hb1]
      exact hpn j (by omega)
  by_cases hH : c = 8 ∨ c = 127
  · by_cases hne : s.e = s.w
    · exact ⟨s, by simp [consoleintr_key, hP, hU, hH, hne], ⟨hr, hw, he, hbuf⟩, hN,
        ⟨hI1, hI2⟩, rfl, fun _ _ h => h, Or.inr ⟨rfl, le_refl _⟩⟩
    · obtain ⟨crt, hi, lo, hk, hN1⟩ := consoleintr_key_backspace c s hN hH hne
      have hpred := u32sub_pred s.e s.w he hw hne
      have hret := inv_retract s.r s.w s.e (u32sub s.e 1) hr hw he (u32sub_lt _ _) hI1 hI2
        (by omega)
      refine ⟨_, hk, ⟨hr, hw, u32sub_lt _ _, hbuf⟩, hN1, ?_, rfl, ?_,
        Or.inr ⟨rfl, (by show u32sub (u32sub s.e 1) s.w ≤ u32sub s.e s.w; omega)⟩⟩
      · unfold Inv INPUT_BUF
        show u32sub s.w s.r ≤ u32sub (u32sub s.e 1) s.r ∧ u32sub (u32sub s.e 1) s.r ≤ 128
        omega
      · intro _ _ hpn j hj
        have hj' : j < u32sub (u32sub s.e 1) s.w := hj
        exact hpn j (by omega)
  by_cases hacc : c ≠ 0 ∧ u32sub s.e s.r < INPUT_BUF
  · obtain ⟨s1, hk, hN1, hr1, he1, hb1, hw1, -, -, -⟩ :=
      consoleintr_key_accept c s hN hP hU (fun h => hH (Or.inl h)) (fun h => hH (Or.inr h))
        hacc.1 hacc.2
    have hroom : u32sub s.e s.r < 128 := hacc.2
    have hacc1 := inv_accept s.r s.e hr he hroom
    have hpend := inv_pending s.r s.w s.e hr hw he hI1 hI2
    have he1lt : s1.e < 4294967296 := he1 ▸ u32add_lt _ _
    have hb1lt : ∀ i, s1.buf i < 256 := by
      intro i; rw [hb1]; dsimp only; split
      · exact toByte_lt _
      · exact hbuf i
    by_cases hcommit : (if c = 13 then 10 else c) = 10 ∨ (if c = 13 then 10 else c) = 4 ∨
        u32add s.e 1 = u32add s.r INPUT_BUF
    · rw [if_pos hcommit] at hw1
      refine ⟨s1, hk, ⟨hr1 ▸ hr, hw1 ▸ u32add_lt _ _, he1lt, hb1lt⟩, hN1, ?_, hr1, ?_,
        Or.inl ⟨he1, Or.inr (hw1.trans he1.symm)⟩⟩
      · unfold Inv INPUT_BUF
        rw [hr1, he1, hw1]
        omega
      · intro _ _ _ j hj
        rw [hw1, he1, u32sub_self] at hj
        omega
    · rw [if_neg hcommit] at hw1
      refine ⟨s1, hk, ⟨hr1 ▸ hr, hw1 ▸ hw, he1lt, hb1lt⟩, hN1, ?_, hr1, ?_,
        Or.inl ⟨he1, Or.inl hw1⟩⟩
      · unfold Inv INPUT_BUF
        rw [hr1, he1, hw1]
        omega
      · intro hc0 hc256 hpn j hj
        rw [hw1] at hj ⊢
        rw [he1] at hj
        have hew : u32sub (u32add s.e 1) s.w = u32sub s.e s.w + 1 :=
          inv_accept s.w s.e hw he (by omega)
        have hc10 : (if c = 13 then 10 else c) ≠ 10 := fun h => hcommit (Or.inl h)
        rw [hb1]; dsimp only
        split
        · have h13 : c ≠ 13 := by
            intro h; rw [if_pos h] at hc10; exact hc10 rfl
          rw [if_neg h13] at hc10 ⊢
          unfold toByte; omega
        · rename_i hidx
          have hlast := pending_index s.w s.e hw he
          have hjlt : j < u32sub s.e s.w := by
            rcases Nat.lt_or_ge j (u32sub s.e s.w) with h | h
            · exact h
            · exfalso; apply hidx
              have : j = u32sub s.e s.w := by omega
              rw [this]; exact hlast
          exact hpn j hjlt
  · exact ⟨s, by simp only [consoleintr_key, C_P, C_U, C_H, hP, hU, hH, hacc, if_false],
      ⟨hr, hw, he, hbuf⟩, hN, ⟨hI1, hI2⟩, rfl, fun _ _ h => h, Or.inr ⟨rfl, le_refl _⟩⟩

/-- A call of `consoleread` keeps the state well formed and within the
invariant; it changes the read index only. -/
theorem consoleread_inv (killed : Bool) (n : Int) (s : State) (hwf : WF s) (hI : Inv s)
    (hn32 : n < 2147483648) :
    WF (consoleread killed n s).state ∧ Inv (consoleread killed n s).state ∧
      (Normal s → Normal (consoleread killed n s).state) ∧
      (PendingNoNewline s → PendingNoNewline (consoleread killed n s).state) := by
  obtain ⟨d, r1, -, hst, hr1, -, -, -, -, -, -, hpass, -⟩ := consoleread_spec killed n s hwf hn32
  obtain ⟨hr, hw, he, hbuf⟩ := hwf
  obtain ⟨hI1, hI2⟩ := hI
  unfold INPUT_BUF at hI2
  have hrd := inv_read s.r s.w s.e r1 hr hw he hr1 hI1 hI2 hpass
  rw [hst]
  refine ⟨⟨hr1, hw, he, hbuf⟩, ?_, fun hN => Normal_of_eq s _ rfl rfl rfl hN, fun h => h⟩
  unfold Inv INPUT_BUF
  show u32sub s.w r1 ≤ u32sub s.e r1 ∧ u32sub s.e r1 ≤ 128
  omega

theorem consoleintr_loop_good (getc : List Int) :
    ∀ (s : State) (d : Bool), Good s → (∀ c ∈ getc, c < 256) →
      ∃ s1 d1, consoleintr_loop getc s d = some (s1, d1) ∧ Good s1 := by
  induction getc with
  | nil => intro s d hg _; exact ⟨s, d, rfl, hg⟩
  | cons c rest ih =>
    intro s d hg hb
    by_cases hc : 0 ≤ c
    · obtain ⟨hwf, hN, hI, hpn⟩ := hg
      obtain ⟨s1, hk, hwf1, hN1, hI1, -, hpn1, -⟩ := consoleintr_key_inv c s hwf hN hI
      obtain ⟨s2, d2, hl, hg2⟩ := ih s1 (dumpFlag c d)
        ⟨hwf1, hN1, hI1, hpn1 hc (hb c (List.mem_cons_self _ _)) hpn⟩
        (fun x hx => hb x (List.mem_cons_of_mem _ hx))
      exact ⟨s2, d2, by rw [consoleintr_loop_cons c rest s s1 d hc hk]; exact hl, hg2⟩
    · exact ⟨s, d, by simp [consoleintr_loop, hc], hg⟩

/-- A call of `consoleintr` on bytes, from a good state, returns a good state. -/
theorem consoleintr_good (getc : List Int) (s : State) (hg : Good s)
    (hb : ∀ c ∈ getc, c < 256) : ∃ s1, consoleintr getc s = some s1 ∧ Good s1 := by
  obtain ⟨s1, d1, hl, hwf, hN, hI, hpn⟩ := consoleintr_loop_good getc s false hg hb
  cases d1 with
  | false => exact ⟨s1, by simp [consoleintr, hl], hwf, hN, hI, hpn⟩
  | true =>
    exact ⟨{ s1 with procdumps := s1.procdumps + 1 }, by simp [consoleintr, hl],
      hwf, Normal_of_eq s1 _ rfl rfl rfl hN, hI, hpn⟩

/-- Every reachable state is good. -/
theorem Reachable_good (s : State) (h : Reachable s) : Good s := by
  induction h with
  | boot crt hi lo hc =>
    have h0 : (0 : Nat) < 4294967296 := by decide
    have hz : u32sub 0 0 = 0 := by decide
    refine ⟨⟨h0, h0, h0, fun _ => Nat.zero_lt_succ 255⟩, ⟨rfl, hc⟩, ?_, ?_⟩
    · show u32sub 0 0 ≤ u32sub 0 0 ∧ u32sub 0 0 ≤ INPUT_BUF
      rw [hz]; exact ⟨le_refl _, Nat.zero_le _⟩
    · intro j hj
      have hj' : j < u32sub 0 0 := hj
      omega
  | intr s s1 getc _ hb hk ih =>
    obtain ⟨s2, hk2, hg2⟩ := consoleintr_good getc s ih hb
    rw [hk] at hk2
    injection hk2 with h
    exact h ▸ hg2
  | read s killed n _ _ hn ih =>
    obtain ⟨hwf, hN, hI, hpn⟩ := ih
    obtain ⟨h1, h2, h3, h4⟩ := consoleread_inv killed n s hwf hI hn
    exact ⟨h1, h3 hN, h2, h4 hpn⟩

/-- After the kill-line loop from a state whose pending region holds no
newline, the pending region is empty. -/
theorem killLine_empties (s s1 : State) (hwf : WF s) (hpn : PendingNoNewline s)
    (hwf1 : WF s1) (hw1 : s1.w = s.w) (hb1 : s1.buf = s.buf)
    (hle : u32sub s1.e s.w ≤ u32sub s.e s.w) (hk : killCond s1 = false) : s1.e = s.w := by
  by_contra hne
  have hpos := u32sub_pos s1.e s.w hwf1.2.2.1 hwf.2.1 (fun h => hne h.symm)
  have hidx := pending_last s.w s1.e hwf.2.1 hwf1.2.2.1 hne
  have hnot := hpn (u32sub s1.e s.w - 1) (by omega)
  rw [hidx] at hnot
  have hlt : s.buf (u32sub s1.e 1 % INPUT_BUF) < 256 := hwf.2.2.2 _
  have hcv : charVal (s.buf (u32sub s1.e 1 % INPUT_BUF)) ≠ 10 := fun h =>
    hnot ((charVal_eq_iff _ hlt 10 (by omega)).mp h)
  have hne' : s1.e ≠ s1.w := by rw [hw1]; exact hne
  have : killCond s1 = true := by
    simp [killCond, hne', hb1, hcv]
  rw [hk] at this
  cases this

/-! ## `consolewrite` -/

theorem charVal_and_ff (b : Nat) (h : b < 256) : charVal b % 256 = (b : Int) := by
  unfold charVal; split <;> omega

/-- The loop of `consolewrite` is one call of `consputc` per byte, in order. -/
theorem consolewrite_loop_eq (buf : Nat → Nat) (hb : ∀ i, buf i < 256) :
    ∀ (k i : Nat) (s : State),
      consolewrite_loop buf k i s =
        consputcAll ((List.range k).map (fun j => ((buf (i + j) : Nat) : Int))) s := by
  intro k
  induction k with
  | zero => intro i s; rfl
  | succ k ih =>
    intro i s
    rw [List.range_succ_eq_map, List.map_cons, List.map_map]
    simp only [consolewrite_loop, consputcAll, charVal_and_ff _ (hb i), Nat.add_zero]
    cases consputc ((buf i : Nat) : Int) s with
    | none => rfl
    | some s1 =>
      simp only
      rw [ih (i + 1) s1]
      congr 1
      apply List.map_congr_left
      intro j _
      simp only [Function.comp, Nat.succ_eq_add_one]
      congr 2
      omega

/-- In normal operation a list of characters other than the backspace
sentinel goes through `consputc` to the serial line, in order; the input
buffer is not touched. -/
theorem consputcAll_normal (l : List Int) :
    ∀ (s : State), Normal s → (∀ c ∈ l, c ≠ BACKSPACE) →
      ∃ s1, consputcAll l s = some s1 ∧ Normal s1 ∧ s1.uart = s.uart ++ l ∧
        s1.buf = s.buf ∧ s1.r = s.r ∧ s1.w = s.w ∧ s1.e = s.e ∧
        s1.wakeups = s.wakeups ∧ s1.procdumps = s.procdumps := by
  induction l with
  | nil => intro s hN _; exact ⟨s, rfl, hN, by simp, rfl, rfl, rfl, rfl, rfl, rfl⟩
  | cons c l ih =>
    intro s hN hne
    obtain ⟨s1, hput, hN1, hr1, hw1, he1, hb1, hwk1, hp1, hu1⟩ := consputc_fields c s hN
    rw [if_neg (hne c (List.mem_cons_self _ _))] at hu1
    obtain ⟨s2, hall, hN2, hu2, hb2, hr2, hw2, he2, hwk2, hp2⟩ :=
      ih s1 hN1 (fun x hx => hne x (List.mem_cons_of_mem _ hx))
    refine ⟨s2, by simp only [consputcAll, hput]; exact hall, hN2, ?_, hb2.trans hb1,
      hr2.trans hr1, hw2.trans hw1, he2.trans he1, hwk2.trans hwk1, hp2.trans hp1⟩
    rw [hu2, hu1]; simp

/-! ## A full buffer -/

/-- A key of the `default:` branch that finds the buffer full is dropped: the
state does not change at all. -/
theorem consoleintr_key_full (c : Int) (s : State) (hP : c ≠ 16) (hU : c ≠ 21) (hH : c ≠ 8)
    (hDel : c ≠ 127) (hfull : u32sub s.e s.r = 128) : consoleintr_key c s = some s := by
  have hH2 : ¬ (c = 8 ∨ c = 127) := by omega
  have hroom : ¬ (c ≠ 0 ∧ u32sub s.e s.r < INPUT_BUF) := by
    unfold INPUT_BUF; omega
  simp only [consoleintr_key, C_P, C_U, C_H, hP, hU, hH2, hroom, if_false]

/-- Ordinary keys that find the buffer full are all dropped. -/
theorem consoleintr_loop_full (l : List Nat) (s : State) (d : Bool) (rest : List Int)
    (hord : ∀ c ∈ l, Ordinary c) (hfull : u32sub s.e s.r = 128) :
    consoleintr_loop (keysOf l ++ rest) s d = consoleintr_loop rest s d := by
  induction l with
  | nil => rfl
  | cons c l ih =>
    have hoc := ordinary_cast c (hord c (List.mem_cons_self _ _))
    have hk := consoleintr_key_full (c : Int) s hoc.1 hoc.2.1 hoc.2.2.1 hoc.2.2.2.1 hfull
    have hdump : dumpFlag (c : Int) d = d := by simp [dumpFlag, hoc.1]
    have h := consoleintr_loop_cons (c : Int) (keysOf l ++ rest) s s d
      hoc.2.2.2.2.2.2.2.2.2 hk
    rw [hdump] at h
    exact h.trans (ih (fun x hx => hord x (List.mem_cons_of_mem _ hx)))

theorem u32add_fill (r e : Nat) (hr : r < 4294967296) (h : u32sub e r = 127) :
    u32add e 1 = u32add r INPUT_BUF ∧ u32sub (u32add e 1) r = 128 := by
  unfold u32add u32sub INPUT_BUF at *; omega

/-- The ordinary key that fills the buffer is stored and commits everything. -/
theorem consoleintr_key_fill (c : Nat) (s : State) (hwf : WF s) (hN : Normal s)
    (hc : Ordinary c) (h127 : u32sub s.e s.r = 127) :
    ∃ s1, consoleintr_key (c : Int) s = some s1 ∧ s1.r = s.r ∧ s1.e = u32add s.e 1 ∧
      s1.w = u32add s.e 1 ∧ u32sub s1.e s1.r = 128 := by
  obtain ⟨hfill, hsub⟩ := u32add_fill s.r s.e hwf.1 h127
  have hoc := ordinary_cast c hc
  obtain ⟨s1, hk, -, hr1, he1, -, hw1, -, -, -⟩ :=
    consoleintr_key_accept (c : Int) s hN hoc.1 hoc.2.1 hoc.2.2.1 hoc.2.2.2.1
      hoc.2.2.2.2.1 (by rw [h127]; decide)
  rw [if_pos (Or.inr (Or.inr hfill))] at hw1
  exact ⟨s1, hk, hr1, he1, hw1, by rw [he1, hr1]; exact hsub⟩

/-! ## The invariant on the counters read as numbers -/

theorem plain_to_inv (s : State) (hwf : WF s) (h : PlainInv s) : Inv s := by
  obtain ⟨hr, hw, he, -⟩ := hwf
  obtain ⟨h1, h2, h3⟩ := h
  unfold Inv u32sub
  unfold INPUT_BUF at *
  omega

theorem plain_accept (r w e w1 : Nat) (he : e < 4294967295) (h1 : r ≤ w) (h2 : w ≤ e)
    (h4 : u32sub (u32add e 1) r ≤ 128)
    (hw1 : w1 = w ∨ w1 = u32add e 1) :
    r ≤ w1 ∧ w1 ≤ u32add e 1 ∧ u32add e 1 - r ≤ 128 := by
  unfold u32sub u32add at *; omega

/-- Typing a newline and reading it, `k` times over, leads from boot to a
state with `r = w = e = k`: the counters of the reachable states take every
`uint` value. -/
theorem Reachable_counters (k : Nat) (hk : k < 4294967296) :
    ∃ s, Reachable s ∧ s.r = k ∧ s.w = k ∧ s.e = k := by
  induction k with
  | zero =>
    exact ⟨bootState (fun _ => 0) 0 0, Reachable.boot _ 0 0 (by decide), rfl, rfl, rfl⟩
  | succ k ih =>
    obtain ⟨s, hreach, hr, hw, he⟩ := ih (by omega)
    obtain ⟨hwf, hN, -, -⟩ := Reachable_good s hreach
    have hm : u32sub s.e s.r = 0 := by rw [he, hr]; exact u32sub_self _
    obtain ⟨s1, hk1, hwf1, -, hr1, he1, hw1, hreg1, -, -, -⟩ :=
      consoleintr_key_newline s hwf hN (by rw [hm]; decide)
    have hadd : u32add k 1 = k + 1 := by unfold u32add; omega
    rw [he, hadd] at he1 hw1
    have hintr : consoleintr [10] s = some s1 := by
      have hl : consoleintr_loop [10] s false = some (s1, false) := by
        rw [consoleintr_loop_cons 10 [] s s1 false (by decide) hk1]; rfl
      simp [consoleintr, hl]
    have hreach1 : Reachable s1 :=
      Reachable.intr s s1 [10] hreach (by decide) hintr
    have hreg : region s1.buf s1.r (([] : List Nat).length + 1) = [] ++ [10] := by
      rw [hm] at hreg1
      rw [hr1]
      simpa [region] using hreg1
    have hwr : ([] : List Nat).length + 1 ≤ u32sub s1.w s1.r := by
      rw [hw1, hr1, hr, ← hadd, u32sub_succ_self _ (by omega)]
      simp
    have hread := consoleread_line false 1 [] s1 hwf1 hreg (by simp) hwr (by decide) (by decide)
    have hreach2 := Reachable.read s1 false 1 hreach1 (by decide) (by decide)
    rw [hread] at hreach2
    refine ⟨_, hreach2, ?_, hw1, he1⟩
    show u32add s1.r (([] : List Nat).length + 1) = k + 1
    rw [hr1, hr]; exact hadd

/-! ## The screen renderer `cgaputc` -/

theorem cursorNext_bounds (c pos : Int) (h0 : 0 ≤ pos) (h : pos < 24 * 80) :
    0 ≤ cursorNext c pos ∧ cursorNext c pos ≤ 24 * 80 := by
  unfold cursorNext
  split
  · omega
  · split
    · split <;> omega
    · omega

/-- The function `cgaputc`, with its first two intermediate values named. -/
theorem cgaputc_unfold (c : Int) (s : State) :
    cgaputc c s =
      if cursorNext c (readCursor s) < 0 ∨ cursorNext c (readCursor s) > 25 * 80 then none
      else some { s with
        cursorHi := (((if decide (cursorNext c (readCursor s) / 80 ≥ 24) = true
          then cursorNext c (readCursor s) - 80 else cursorNext c (readCursor s)) / 256)
            % 256).toNat
        cursorLo := ((if decide (cursorNext c (readCursor s) / 80 ≥ 24) = true
          then cursorNext c (readCursor s) - 80 else cursorNext c (readCursor s)) % 256).toNat
        crt := fun i =>
          if i = (if decide (cursorNext c (readCursor s) / 80 ≥ 24) = true
            then cursorNext c (readCursor s) - 80 else cursorNext c (readCursor s))
          then 0x20 ||| 0x0700
          else (if decide (cursorNext c (readCursor s) / 80 ≥ 24) = true then
              fun i =>
                if (if decide (cursorNext c (readCursor s) / 80 ≥ 24) = true
                    then cursorNext c (readCursor s) - 80 else cursorNext c (readCursor s)) ≤ i
                    ∧ i < 24 * 80 then 0
                else if 0 ≤ i ∧ i < 23 * 80 then cgaGlyph c s (i + 80)
                else cgaGlyph c s i
            else cgaGlyph c s) i } := rfl

/-- The result of `cgaputc` when the range check passes and nothing scrolls. -/
theorem cgaputc_noscroll (c : Int) (s : State) (h0 : 0 ≤ cursorNext c (readCursor s))
    (h1 : cursorNext c (readCursor s) < 24 * 80) :
    cgaputc c s = some { s with
      cursorHi := ((cursorNext c (readCursor s) / 256) % 256).toNat
      cursorLo := (cursorNext c (readCursor s) % 256).toNat
      crt := fun i =>
        if i = cursorNext c (readCursor s) then 0x20 ||| 0x0700 else cgaGlyph c s i } := by
  have hs : ¬ (cursorNext c (readCursor s) / 80 ≥ 24) := by omega
  rw [cgaputc_unfold, if_neg (by omega)]
  simp only [hs, decide_False, Bool.false_eq_true, if_false]

/-- The result of `cgaputc` when the range check passes and the screen
scrolls. -/
theorem cgaputc_scroll (c : Int) (s : State) (h0 : 24 * 80 ≤ cursorNext c (readCursor s))
    (h1 : cursorNext c (readCursor s) ≤ 25 * 80) :
    cgaputc c s = some { s with
      cursorHi := (((cursorNext c (readCursor s) - 80) / 256) % 256).toNat
      cursorLo := ((cursorNext c (readCursor s) - 80) % 256).toNat
      crt := fun i =>
        if i = cursorNext c (readCursor s) - 80 then 0x20 ||| 0x0700
        else if cursorNext c (readCursor s) - 80 ≤ i ∧ i < 24 * 80 then 0
        else if 0 ≤ i ∧ i < 23 * 80 then cgaGlyph c s (i + 80)
        else cgaGlyph c s i } := by
  have hs : cursorNext c (readCursor s) / 80 ≥ 24 := by omega
  rw [cgaputc_unfold, if_neg (by omega)]
  simp only [hs, decide_True, if_true]

theorem cgaGlyph_frame (c : Int) (s : State) (i : Int)
    (h : ¬ (c ≠ 10 ∧ c ≠ BACKSPACE ∧ i = readCursor s)) : cgaGlyph c s i = s.crt i := by
  unfold cgaGlyph
  by_cases h10 : c = 10
  · rw [if_pos h10]
  · by_cases hb : c = BACKSPACE
    · rw [if_neg h10, if_pos hb]
    · rw [if_neg h10, if_neg hb]
      have hi : i ≠ readCursor s := fun hi => h ⟨h10, hb, hi⟩
      simp only [if_neg hi]

/-- On a position that is not negative the rule of `cgaputc` for the next
position is the one of `specCursor`. -/
theorem cursorNext_spec (c pos : Int) (h0 : 0 ≤ pos) :
    cursorNext c pos = specCursor c pos := by
  unfold cursorNext specCursor
  split
  · omega
  · split
    · split <;> split <;> omega
    · rfl

/-! ## The character sink `consputc` -/

/-- `consputc` returns exactly when `consputc_run` says so. -/
theorem consputc_eq_run (c : Int) (s : State) :
    consputc c s = (match consputc_run c s with
      | Ending.returned s1 => some s1
      | _ => none) := by
  unfold consputc consputc_run
  by_cases hp : s.panicked = true
  · rw [if_pos hp, if_pos hp]
  · rw [if_neg hp, if_neg hp]
    by_cases hb : c = BACKSPACE
    · rw [if_pos hb]
      cases cgaputc c { s with uart := s.uart ++ [8, 32, 8] } <;> rfl
    · rw [if_neg hb]
      cases cgaputc c { s with uart := s.uart ++ [c] } <;> rfl

/-! ## Wakeups -/

theorem commit_advances (r w e : Nat) (hr : r < 4294967296) (hw : w < 4294967296)
    (he : e < 4294967296) (h1 : u32sub w r ≤ u32sub e r) (h2 : u32sub e r < 128) :
    u32add e 1 ≠ w := by
  unfold u32sub u32add at *; omega

/-- One key of `consoleintr` in normal operation: `wakeup` is called once
when the key commits and not at all otherwise, and the write index is set to
the new edit index exactly when the key commits. -/
theorem consoleintr_key_wakeups (c : Int) (s : State) (hwf : WF s) (hN : Normal s) :
    ∃ s1, consoleintr_key c s = some s1 ∧
      s1.wakeups = s.wakeups + (if commits c s then 1 else 0) ∧
      s1.w = (if commits c s then u32add s.e 1 else s.w) := by
  by_cases hP : c = 16
  · have hnc : ¬ commits c s := fun h => h.1 (by rw [C_P]; exact hP)
    exact ⟨s, by simp [consoleintr_key, hP], by rw [if_neg hnc]; rfl, by rw [if_neg hnc]⟩
  by_cases hU : c = 21
  · have hnc : ¬ commits c s := fun h => h.2.1 (by rw [C_U]; exact hU)
    obtain ⟨s1, h1, -, -, -, hw1, -, hwk1, -, -, -⟩ :=
      killLine_spec (u32sub s.e s.w) s hwf hN (le_refl _)
    exact ⟨s1, by simp [consoleintr_key, hU, h1], by rw [if_neg hnc]; exact hwk1,
      by rw [if_neg hnc]; exact hw1⟩
  by_cases hH : c = 8 ∨ c = 127
  · have hnc : ¬ commits c s := by
      intro h
      rcases hH with h8 | h127
      · exact h.2.2.1 (by rw [C_H]; exact h8)
      · exact h.2.2.2.1 h127
    by_cases hne : s.e = s.w
    · exact ⟨s, by simp [consoleintr_key, hP, hU, hH, hne], by rw [if_neg hnc]; rfl,
        by rw [if_neg hnc]⟩
    · obtain ⟨crt, hi, lo, hk, -⟩ := consoleintr_key_backspace c s hN hH hne
      exact ⟨_, hk, by rw [if_neg hnc]; rfl, by rw [if_neg hnc]⟩
  by_cases hacc : c ≠ 0 ∧ u32sub s.e s.r < INPUT_BUF
  · obtain ⟨s1, hk, -, -, -, -, hw1, hwk1, -, -⟩ :=
      consoleintr_key_accept c s hN hP hU (fun h => hH (Or.inl h)) (fun h => hH (Or.inr h))
        hacc.1 hacc.2
    have hiff : commits c s ↔ ((if c = 13 then 10 else c) = 10 ∨ (if c = 13 then 10 else c) = 4 ∨
        u32add s.e 1 = u32add s.r INPUT_BUF) := by
      unfold commits
      rw [C_P, C_U, C_H, C_D]
      constructor
      · rintro ⟨-, -, -, -, -, -, h | h | h | h⟩
        · left; rw [if_neg (by omega)]; exact h
        · left; rw [if_pos h]
        · right; left; rw [if_neg (by omega)]; exact h
        · right; right; exact h
      · intro h
        refine ⟨hP, hU, fun h8 => hH (Or.inl h8), fun h7 => hH (Or.inr h7), hacc.1, hacc.2, ?_⟩
        by_cases h13 : c = 13
        · exact Or.inr (Or.inl h13)
        · rw [if_neg h13] at h
          rcases h with h | h | h
          · exact Or.inl h
          · exact Or.inr (Or.inr (Or.inl h))
          · exact Or.inr (Or.inr (Or.inr h))
    refine ⟨s1, hk, ?_, ?_⟩
    · rw [hwk1]
      by_cases hc : commits c s
      · rw [if_pos hc, if_pos (hiff.mp hc)]
      · rw [if_neg hc, if_neg (fun h => hc (hiff.mpr h))]; rfl
    · rw [hw1]
      by_cases hc : commits c s
      · rw [if_pos hc, if_pos (hiff.mp hc)]
      · rw [if_neg hc, if_neg (fun h => hc (hiff.mpr h))]
  · have hnc : ¬ commits c s := fun h => hacc ⟨h.2.2.2.2.1, h.2.2.2.2.2.1⟩
    exact ⟨s, by simp only [consoleintr_key, C_P, C_U, C_H, hP, hU, hH, hacc, if_false],
      by rw [if_neg hnc]; rfl, by rw [if_neg hnc]⟩

/-- Over the keys of a call of `consoleintr` from a state within the
invariant, the calls of `wakeup` are as many as the changes of the write
index. -/
theorem consoleintr_loop_wakeups (getc : List Int) :
    ∀ (s : State) (d : Bool), WF s → Normal s → Inv s →
      ∃ s1 d1, consoleintr_loop getc s d = some (s1, d1) ∧
        s1.wakeups = s.wakeups + wAdvances getc s := by
  induction getc with
  | nil => intro s d _ _ _; exact ⟨s, d, rfl, rfl⟩
  | cons c rest ih =>
    intro s d hwf hN hI
    by_cases hc : 0 ≤ c
    · obtain ⟨s1, hk, hwf1, hN1, hI1, -, -, -⟩ := consoleintr_key_inv c s hwf hN hI
      obtain ⟨s1', hk', hwk, hw⟩ := consoleintr_key_wakeups c s hwf hN
      rw [hk] at hk'
      injection hk' with hk'
      subst hk'
      obtain ⟨s2, d2, hl, hwk2⟩ := ih s1 (dumpFlag c d) hwf1 hN1 hI1
      refine ⟨s2, d2, by rw [consoleintr_loop_cons c rest s s1 d hc hk]; exact hl, ?_⟩
      have hadv : (if s1.w ≠ s.w then 1 else 0) = (if commits c s then 1 else 0) := by
        by_cases hcm : commits c s
        · rw [if_pos hcm] at hw
          have hne : s1.w ≠ s.w := by
            rw [hw]
            exact commit_advances s.r s.w s.e hwf.1 hwf.2.1 hwf.2.2.1 hI.1 hcm.2.2.2.2.2.1
          rw [if_pos hne, if_pos hcm]
        · rw [if_neg hcm] at hw
          rw [if_neg (fun h => h hw), if_neg hcm]
      have hstep : wAdvances (c :: rest) s = (if s1.w ≠ s.w then 1 else 0) + wAdvances rest s1 := by
        simp only [wAdvances, hc, ge_iff_le, if_true, hk]
      rw [hwk2, hwk, hstep, hadv]
      omega
    · exact ⟨s, d, by simp [consoleintr_loop, hc], by simp [wAdvances, hc]⟩

/-! ## The counters, one by one -/

theorem u32add_one (e : Nat) (he : e < 4294967295) : u32add e 1 = e + 1 := by
  unfold u32add; omega

/-- A key other than control-U, control-H and DEL either leaves the state as
it is or is accepted by the `default:` branch. -/
theorem consoleintr_key_other (c : Int) (s : State) (hU : c ≠ 21) (hH : c ≠ 8)
    (hDel : c ≠ 127) :
    consoleintr_key c s = some s ∨ (c ≠ 16 ∧ c ≠ 0 ∧ u32sub s.e s.r < INPUT_BUF) := by
  have hH2 : ¬ (c = 8 ∨ c = 127) := by omega
  by_cases hP : c = 16
  · left; simp [consoleintr_key, hP]
  · by_cases hacc : c ≠ 0 ∧ u32sub s.e s.r < INPUT_BUF
    · exact Or.inr ⟨hP, hacc.1, hacc.2⟩
    · left
      simp only [consoleintr_key, C_P, C_U, C_H, hP, hU, hH2, hacc, if_false]

/-! ## The integer printer `printint` -/

theorem digits_eq_spec (d : Nat) (h : d < 16) : digits d = specDigitChar d := by
  interval_cases d <;> decide

/-- What makes the digits of `specDigits` canonical: they are digits of the
base, they have the value `n`, and the first of them is not zero unless
`n = 0`. -/
theorem specDigits_canonical (b n : Nat) (hb : 2 ≤ b) :
    (∀ d ∈ specDigits b n, d < b) ∧ Nat.ofDigits b (specDigits b n).reverse = n ∧
      (n ≠ 0 → (specDigits b n).head? ≠ some 0) := by
  unfold specDigits
  by_cases hn : n = 0
  · subst hn
    refine ⟨?_, ?_, fun h => absurd rfl h⟩
    · intro d hd
      simp only [if_true, List.mem_singleton] at hd
      omega
    · simp
  · rw [if_neg hn]
    refine ⟨?_, ?_, fun _ => ?_⟩
    · intro d hd
      exact Nat.digits_lt_base (by omega) (List.mem_reverse.mp hd)
    · rw [List.reverse_reverse]; exact Nat.ofDigits_digits b n
    · have hne : Nat.digits b n ≠ [] := Nat.digits_ne_nil_iff_ne_zero.mpr hn
      have hlast := Nat.getLast_digit_ne_zero b hn
      rw [List.head?_reverse, List.getLast?_eq_getLast _ hne]
      intro h
      injection h with h
      exact hlast h

/-- The loop of `printint` stores the digits of `x`, least significant
first, when the bound on its rounds is large enough. -/
theorem printint_fill_spec (base : Nat) (hb : 2 ≤ base) :
    ∀ (fuel x : Nat) (buf : List Int), 0 < fuel → x < base ^ fuel →
      printint_fill base fuel x buf =
        some (buf ++ ((specDigits base x).reverse).map digits) := by
  intro fuel
  induction fuel with
  | zero => intro x buf h; omega
  | succ fuel ih =>
    intro x buf _ hx
    unfold printint_fill
    by_cases hq : x / base = 0
    · rw [if_neg (by simpa using hq)]
      have hlt : x < base := (Nat.div_eq_zero_iff (by omega)).mp hq
      by_cases hx0 : x = 0
      · subst hx0
        simp [specDigits]
      · have hd : Nat.digits base x = [x] := Nat.digits_of_lt base x hx0 hlt
        have hm : x % base = x := Nat.mod_eq_of_lt hlt
        simp [specDigits, hx0, hd, hm]
    · rw [if_pos hq]
      have hx0 : x ≠ 0 := by
        intro h; apply hq; rw [h]; exact Nat.zero_div base
      have hq0 : 0 < x / base := Nat.pos_of_ne_zero hq
      have hqlt : x / base < base ^ fuel := by
        apply Nat.div_lt_of_lt_mul
        rw [← Nat.pow_succ']
        exact hx
      have hf : 0 < fuel := by
        rcases Nat.eq_zero_or_pos fuel with h | h
        · rw [h] at hqlt; simp at hqlt; omega
        · exact h
      rw [ih (x / base) _ hf hqlt]
      have hd : Nat.digits base x = (x % base) :: Nat.digits base (x / base) :=
        Nat.digits_def' (by omega) (Nat.pos_of_ne_zero hx0)
      simp [specDigits, hx0, hq, hd]

/-- The characters that `printint` stores for a base from 2 to 16: the
digits of the magnitude, least significant first, then the sign. -/
theorem printint_buf_spec (xx base sign : Int) (hb2 : 2 ≤ base) (hb16 : base ≤ 16) :
    printint_buf xx base sign =
      some (((specDigits base.toNat
          (if sign ≠ 0 ∧ xx < 0 then toUInt32 (-xx) else toUInt32 xx)).reverse).map
            specDigitChar ++ (if sign ≠ 0 ∧ xx < 0 then [45] else [])) := by
  have hbase : toUInt32 base = base.toNat := by unfold toUInt32; omega
  have hb : 2 ≤ base.toNat := by omega
  have hb' : base.toNat ≤ 16 := by omega
  have hne : ¬ (toUInt32 base = 0) := by rw [hbase]; omega
  generalize hx : (if sign ≠ 0 ∧ xx < 0 then toUInt32 (-xx) else toUInt32 xx) = x
  have hx32 : x < 4294967296 := by
    rw [← hx]; unfold toUInt32; split <;> omega
  have hpow : x < base.toNat ^ 32 :=
    lt_of_lt_of_le hx32 (le_trans (by decide : 4294967296 ≤ 2 ^ 32)
      (Nat.pow_le_pow_left hb 32))
  have hmap : ((specDigits base.toNat x).reverse).map digits
      = ((specDigits base.toNat x).reverse).map specDigitChar := by
    apply List.map_congr_left
    intro d hd
    have := (specDigits_canonical base.toNat x hb).1 d (List.mem_reverse.mp hd)
    exact digits_eq_spec d (by omega)
  unfold printint_buf
  rw [if_neg hne, hx, hbase, printint_fill_spec base.toNat hb 32 x [] (by decide) hpow,
    List.nil_append, hmap]
  show some (if sign ≠ 0 ∧ xx < 0
      then List.map specDigitChar (specDigits base.toNat x).reverse ++ [45]
      else List.map specDigitChar (specDigits base.toNat x).reverse) = _
  by_cases hs : sign ≠ 0 ∧ xx < 0
  · rw [if_pos hs, if_pos hs]
  · rw [if_neg hs, if_neg hs, List.append_nil]

theorem specDigits_length (b n : Nat) (hb : 5 ≤ b) (hn : n < 4294967296) :
    (specDigits b n).length ≤ 14 := by
  unfold specDigits
  by_cases h0 : n = 0
  · rw [if_pos h0]; simp
  · rw [if_neg h0, List.length_reverse]
    by_contra hlen
    have h15 : 15 ≤ (Nat.digits b n).length := by omega
    have h1 := Nat.base_pow_length_digits_le b n (by omega) h0
    have h2 : b ^ 15 ≤ b ^ (Nat.digits b n).length := Nat.pow_le_pow_right (by omega) h15
    have h3 : b ^ 15 = b * b ^ 14 := by ring
    have h4 : b * b ^ 14 ≤ b * n := by rw [← h3]; exact le_trans h2 h1
    have h5 : b ^ 14 ≤ n := Nat.le_of_mul_le_mul_left h4 (by omega)
    have h6 : 5 ^ 14 ≤ b ^ 14 := Nat.pow_le_pow_left hb 14
    have h7 : (4294967296 : Nat) < 5 ^ 14 := by decide
    omega

/-- The buffer of `printint(v, 10, 1)` holds the signed decimal
representation of `v`, last character first. -/
theorem printint_buf_decimal (v : Int) (hlo : -2147483648 ≤ v) (hhi : v < 2147483648) :
    printint_buf v 10 1 = some (specDecimal v).reverse := by
  rw [printint_buf_spec v 10 1 (by decide) (by decide)]
  have hx : (if (1 : Int) ≠ 0 ∧ v < 0 then toUInt32 (-v) else toUInt32 v) = v.natAbs := by
    unfold toUInt32; split <;> omega
  rw [hx]
  congr 1
  unfold specDecimal
  by_cases hv : v < 0
  · have h1 : (1 : Int) ≠ 0 ∧ v < 0 := ⟨by decide, hv⟩
    rw [if_pos h1, if_pos hv]
    simp
  · have h1 : ¬ ((1 : Int) ≠ 0 ∧ v < 0) := fun h => hv h.2
    rw [if_neg h1, if_neg hv]
    simp

/-- The buffer of `printint(v, 16, 0)` holds the hexadecimal representation
of `v` read as an unsigned 32-bit number, last character first. -/
theorem printint_buf_hex (v : Int) :
    printint_buf v 16 0 = some (specHex (toUInt32 v)).reverse := by
  rw [printint_buf_spec v 16 0 (by decide) (by decide)]
  have h0 : ¬ ((0 : Int) ≠ 0 ∧ v < 0) := fun h => h.1 rfl
  rw [if_neg h0, if_neg h0]
  congr 1
  unfold specHex
  simp

/-! ## The formatter `cprintf` and `panic` -/

theorem consputcAll_append (a b : List Int) (s : State) :
    consputcAll (a ++ b) s = (consputcAll a s).bind (consputcAll b) := by
  induction a generalizing s with
  | nil => rfl
  | cons c cs ih =>
    show (match consputc c s with
        | none => none
        | some s1 => consputcAll (cs ++ b) s1) =
      (match consputc c s with
        | none => none
        | some s1 => consputcAll cs s1).bind (consputcAll b)
    cases consputc c s with
    | none => rfl
    | some s1 => exact ih s1

theorem consputcAll_cons (c : Int) (cs : List Int) (s : State) :
    consputcAll (c :: cs) s = (consputc c s).bind (consputcAll cs) := by
  show (match consputc c s with
        | none => none
        | some s1 => consputcAll cs s1) = _
  cases consputc c s <;> rfl

theorem match_eq_bind (x : Option State) (f : State → Option State) :
    (match x with
      | none => none
      | some s1 => f s1) = x.bind f := by
  cases x <;> rfl

/-- The loop of `cprintf` at the last byte of the format. -/
theorem cprintf_loop_one (str : Nat → List Nat) (argp : Nat → Nat) (b k : Nat) (s : State) :
    cprintf_loop str argp [b] k s =
    (if charVal b % 256 = 0 then some s
      else if charVal b % 256 ≠ 37 then
        match consputc (charVal b % 256) s with
        | none => none
        | some s1 => cprintf_loop str argp [] k s1
      else
        some s) := rfl

/-- The loop of `cprintf` at a byte that is not the last one of the format. -/
theorem cprintf_loop_two (str : Nat → List Nat) (argp : Nat → Nat) (b b2 : Nat)
    (rest2 : List Nat) (k : Nat) (s : State) :
    cprintf_loop str argp (b :: b2 :: rest2) k s =
    (if charVal b % 256 = 0 then some s
      else if charVal b % 256 ≠ 37 then
        match consputc (charVal b % 256) s with
        | none => none
        | some s1 => cprintf_loop str argp (b2 :: rest2) k s1
      else
        if charVal b2 % 256 = 0 then some s
        else if charVal b2 % 256 = 100 then
          match printint (toInt32 (argp k)) 10 1 s with
          | none => none
          | some s1 => cprintf_loop str argp rest2 (k + 1) s1
        else if charVal b2 % 256 = 120 ∨ charVal b2 % 256 = 112 then
          match printint (toInt32 (argp k)) 16 0 s with
          | none => none
          | some s1 => cprintf_loop str argp rest2 (k + 1) s1
        else if charVal b2 % 256 = 115 then
          match consputcAll
              (((if argp k = 0 then bytes "(null)" else str (argp k)).takeWhile
                (fun b3 => charVal b3 ≠ 0)).map charVal) s with
          | none => none
          | some s1 => cprintf_loop str argp rest2 (k + 1) s1
        else if charVal b2 % 256 = 37 then
          match consputc 37 s with
          | none => none
          | some s1 => cprintf_loop str argp rest2 k s1
        else
          match consputc 37 s with
          | none => none
          | some s1 =>
            match consputc (charVal b2 % 256) s1 with
            | none => none
            | some s2 => cprintf_loop str argp rest2 k s2) := rfl

theorem cprintf_chars_one (str : Nat → List Nat) (argp : Nat → Nat) (b k : Nat) :
    cprintf_chars str argp [b] k =
    (if charVal b % 256 = 0 then []
      else if charVal b % 256 ≠ 37 then (charVal b % 256) :: cprintf_chars str argp [] k
      else
        []) := rfl

theorem cprintf_chars_two (str : Nat → List Nat) (argp : Nat → Nat) (b b2 : Nat)
    (rest2 : List Nat) (k : Nat) :
    cprintf_chars str argp (b :: b2 :: rest2) k =
    (if charVal b % 256 = 0 then []
      else if charVal b % 256 ≠ 37 then (charVal b % 256) :: cprintf_chars str argp (b2 :: rest2) k
      else
        if charVal b2 % 256 = 0 then []
        else if charVal b2 % 256 = 100 then
          printint_chars (toInt32 (argp k)) 10 1 ++ cprintf_chars str argp rest2 (k + 1)
        else if charVal b2 % 256 = 120 ∨ charVal b2 % 256 = 112 then
          printint_chars (toInt32 (argp k)) 16 0 ++ cprintf_chars str argp rest2 (k + 1)
        else if charVal b2 % 256 = 115 then
          ((if argp k = 0 then bytes "(null)" else str (argp k)).takeWhile
              (fun b3 => charVal b3 ≠ 0)).map charVal
            ++ cprintf_chars str argp rest2 (k + 1)
        else if charVal b2 % 256 = 37 then 37 :: cprintf_chars str argp rest2 k
        else 37 :: (charVal b2 % 256) :: cprintf_chars str argp rest2 k) := rfl

/-- For a base from 2 to 16, `printint` is the run of `consputc` over its
characters. -/
theorem printint_eq_chars (xx base sign : Int) (hb2 : 2 ≤ base) (hb16 : base ≤ 16)
    (s : State) : printint xx base sign s = consputcAll (printint_chars xx base sign) s := by
  unfold printint printint_chars
  rw [printint_buf_spec xx base sign hb2 hb16]

/-- The loop of `cprintf` is the run of `consputc` over its characters. -/
theorem cprintf_loop_eq (str : Nat → List Nat) (argp : Nat → Nat) :
    ∀ (n : Nat) (f : List Nat), f.length ≤ n → ∀ (k : Nat) (s : State),
      cprintf_loop str argp f k s = consputcAll (cprintf_chars str argp f k) s := by
  intro n
  induction n with
  | zero =>
    intro f hf k s
    have : f = [] := List.length_eq_zero.mp (Nat.le_zero.mp hf)
    subst this
    rfl
  | succ n ih =>
    intro f hf k s
    match f, hf with
    | [], _ => rfl
    | [b], _ =>
      rw [cprintf_loop_one, cprintf_chars_one]
      by_cases h0 : charVal b % 256 = 0
      · rw [if_pos h0, if_pos h0]; rfl
      · rw [if_neg h0, if_neg h0]
        by_cases h1 : charVal b % 256 ≠ 37
        · rw [if_pos h1, if_pos h1, match_eq_bind, consputcAll_cons]
          congr 1
        · rw [if_neg h1, if_neg h1]; rfl
    | b :: b2 :: rest2, hf =>
      have hl1 : (b2 :: rest2).length ≤ n := by
        simp only [List.length_cons] at hf ⊢; omega
      have hl2 : rest2.length ≤ n := by
        simp only [List.length_cons] at hf ⊢; omega
      have ih1 := fun k => funext (ih (b2 :: rest2) hl1 k)
      have ih2 := fun k => funext (ih rest2 hl2 k)
      rw [cprintf_loop_two, cprintf_chars_two]
      by_cases h0 : charVal b % 256 = 0
      · rw [if_pos h0, if_pos h0]; rfl
      · rw [if_neg h0, if_neg h0]
        by_cases h1 : charVal b % 256 ≠ 37
        · rw [if_pos h1, if_pos h1, match_eq_bind, consputcAll_cons, ih1]
        · rw [if_neg h1, if_neg h1]
          by_cases c0 : charVal b2 % 256 = 0
          · rw [if_pos c0, if_pos c0]; rfl
          · rw [if_neg c0, if_neg c0]
            by_cases c1 : charVal b2 % 256 = 100
            · rw [if_pos c1, if_pos c1, match_eq_bind, consputcAll_append, ih2,
                printint_eq_chars _ 10 1 (by decide) (by decide)]
            · rw [if_neg c1, if_neg c1]
              by_cases c2 : charVal b2 % 256 = 120 ∨ charVal b2 % 256 = 112
              · rw [if_pos c2, if_pos c2, match_eq_bind, consputcAll_append, ih2,
                  printint_eq_chars _ 16 0 (by decide) (by decide)]
              · rw [if_neg c2, if_neg c2]
                by_cases c3 : charVal b2 % 256 = 115
                · rw [if_pos c3, if_pos c3, match_eq_bind, consputcAll_append, ih2]
                · rw [if_neg c3, if_neg c3]
                  by_cases c4 : charVal b2 % 256 = 37
                  · rw [if_pos c4, if_pos c4, match_eq_bind, consputcAll_cons, ih2]
                  · rw [if_neg c4, if_neg c4, consputcAll_cons]
                    cases consputc 37 s with
                    | none => rfl
                    | some s1 =>
                      show (match consputc (charVal b2 % 256) s1 with
                        | none => none
                        | some s2 => cprintf_loop str argp rest2 k s2) =
                          consputcAll (charVal b2 % 256 :: cprintf_chars str argp rest2 k) s1
                      rw [match_eq_bind, ih2, consputcAll_cons]

theorem cprintf_eq (str : Nat → List Nat) (argp : Nat → Nat) (f : List Nat) (s : State) :
    cprintf str argp (some f) s = consputcAll (cprintf_chars str argp f 0) s :=
  cprintf_loop_eq str argp f.length f (Nat.le_refl _) 0 s

theorem toUInt32_toInt32 (x : Nat) (h : x < 4294967296) : toUInt32 (toInt32 x) = x := by
  unfold toUInt32 toInt32; split <;> omega

theorem toInt32_range (x : Nat) (h : x < 4294967296) :
    -2147483648 ≤ toInt32 x ∧ toInt32 x < 2147483648 := by
  unfold toInt32; split <;> omega

theorem printint_chars_decimal (x : Nat) (h : x < 4294967296) :
    printint_chars (toInt32 x) 10 1 = specDecimal (toInt32 x) := by
  unfold printint_chars
  rw [printint_buf_decimal _ (toInt32_range x h).1 (toInt32_range x h).2]
  simp only [List.reverse_reverse]

theorem printint_chars_hex (x : Nat) (h : x < 4294967296) :
    printint_chars (toInt32 x) 16 0 = specHex x := by
  unfold printint_chars
  rw [printint_buf_hex, toUInt32_toInt32 x h]
  simp only [List.reverse_reverse]

theorem specDigitChar_ne (d : Nat) (h : d < 16) : specDigitChar d ≠ BACKSPACE := by
  interval_cases d <;> decide

theorem specHex_ne (n : Nat) : ∀ c ∈ specHex n, c ≠ BACKSPACE := by
  intro c hc
  unfold specHex at hc
  obtain ⟨d, hd, rfl⟩ := List.mem_map.mp hc
  exact specDigitChar_ne d ((specDigits_canonical 16 n (by decide)).1 d hd)

theorem specDecimal_ne (v : Int) : ∀ c ∈ specDecimal v, c ≠ BACKSPACE := by
  intro c hc
  unfold specDecimal at hc
  rcases List.mem_append.mp hc with h | h
  · by_cases hv : v < 0
    · rw [if_pos hv] at h
      rw [List.mem_singleton.mp h]; decide
    · rw [if_neg hv] at h
      exact absurd h (List.not_mem_nil _)
  · obtain ⟨d, hd, rfl⟩ := List.mem_map.mp h
    have := (specDigits_canonical 10 v.natAbs (by decide)).1 d hd
    exact specDigitChar_ne d (by omega)

theorem panic_pcs_eq (str : Nat → List Nat) (stack : Nat → Nat) (pcs : Nat → Nat) :
    ∀ (n i : Nat) (s : State),
      panic_pcs str stack pcs n i s = consputcAll (panic_pcs_chars pcs n i) s := by
  intro n
  induction n with
  | zero => intro i s; rfl
  | succ n ih =>
    intro i s
    have hc : cprintf_chars str (oneArg (pcs i) stack) (bytes " %p") 0 =
        32 :: printint_chars (toInt32 (pcs i)) 16 0 := by
      show cprintf_chars str (oneArg (pcs i) stack) [32, 37, 112] 0 = _
      rw [cprintf_chars_two, if_neg (by decide), if_pos (by decide), cprintf_chars_two,
        if_neg (by decide), if_neg (by decide), if_neg (by decide), if_neg (by decide),
        if_pos (by decide)]
      simp [cprintf_chars, oneArg]
      decide
    have hdef : panic_pcs str stack pcs (n + 1) i s =
        match cprintf str (oneArg (pcs i) stack) (some (bytes " %p")) s with
        | none => none
        | some s1 => panic_pcs str stack pcs n (i + 1) s1 := rfl
    have hch : panic_pcs_chars pcs (n + 1) i =
        (32 :: printint_chars (toInt32 (pcs i)) 16 0) ++ panic_pcs_chars pcs n (i + 1) := rfl
    rw [hdef, hch, cprintf_eq, hc, consputcAll_append]
    cases consputcAll (32 :: printint_chars (toInt32 (pcs i)) 16 0) s with
    | none => rfl
    | some s1 => exact ih (i + 1) s1

/-- A byte of the format other than NUL and `%` is passed on as it is. -/
theorem cprintf_loop_cons_plain (str : Nat → List Nat) (argp : Nat → Nat) (b : Nat)
    (rest : List Nat) (k : Nat) (s : State) (h0 : charVal b % 256 ≠ 0)
    (h37 : charVal b % 256 ≠ 37) :
    cprintf_loop str argp (b :: rest) k s =
      (consputc (charVal b % 256) s).bind (cprintf_loop str argp rest k) := by
  cases rest with
  | nil => rw [cprintf_loop_one, if_neg h0, if_pos h37, match_eq_bind]
  | cons b2 rest2 => rw [cprintf_loop_two, if_neg h0, if_pos h37, match_eq_bind]

theorem cprintf_chars_cons_plain (str : Nat → List Nat) (argp : Nat → Nat) (b : Nat)
    (rest : List Nat) (k : Nat) (h0 : charVal b % 256 ≠ 0) (h37 : charVal b % 256 ≠ 37) :
    cprintf_chars str argp (b :: rest) k = (charVal b % 256) :: cprintf_chars str argp rest k := by
  cases rest with
  | nil => rw [cprintf_chars_one, if_neg h0, if_pos h37]
  | cons b2 rest2 => rw [cprintf_chars_two, if_neg h0, if_pos h37]

/-- A run of bytes of the format other than NUL and `%` is passed on as it
is. -/
theorem cprintf_chars_plain (str : Nat → List Nat) (argp : Nat → Nat) (rest : List Nat)
    (k : Nat) :
    ∀ (pre : List Nat), (∀ b ∈ pre, 0 < b ∧ b < 256 ∧ b ≠ 37) →
      cprintf_chars str argp (pre ++ rest) k =
        pre.map (fun (b : Nat) => (b : Int)) ++ cprintf_chars str argp rest k := by
  intro pre
  induction pre with
  | nil => intro _; rfl
  | cons b pre ih =>
    intro h
    obtain ⟨hb0, hb1, hb2⟩ := h b (List.mem_cons_self _ _)
    have hc := charVal_and_ff b hb1
    rw [List.cons_append, cprintf_chars_cons_plain str argp b _ k (by omega) (by omega), hc,
      ih (fun x hx => h x (List.mem_cons_of_mem _ hx))]
    rfl

theorem text_eq (t : String) : text t = (bytes t).map (fun (b : Nat) => (b : Int)) := by
  unfold text bytes
  rw [List.map_map]
  rfl

/-- The function `panic` is a run of `consputc` over the characters of its
four pieces of output, followed by the setting of the latch. -/
theorem panic_eq (str : Nat → List Nat) (stack : Nat → Nat) (lapicid : Nat)
    (pcs : Nat → Nat) (msg : List Nat) (s : State) :
    panic str stack lapicid pcs (some msg) s =
      (consputcAll
        (cprintf_chars str (oneArg lapicid stack) (bytes "lapicid %d: panic: ") 0 ++
          (cprintf_chars str stack msg 0 ++
            (cprintf_chars str stack (bytes "\n") 0 ++ panic_pcs_chars pcs 10 0)))
        { s with locking := false }).map (fun s4 => { s4 with panicked := true }) := by
  unfold panic
  rw [cprintf_eq, consputcAll_append]
  cases consputcAll (cprintf_chars str (oneArg lapicid stack)
      (bytes "lapicid %d: panic: ") 0) { s with locking := false } with
  | none => rfl
  | some s1 =>
    simp only [Option.some_bind]
    rw [cprintf_eq, consputcAll_append]
    cases consputcAll (cprintf_chars str stack msg 0) s1 with
    | none => rfl
    | some s2 =>
      simp only [Option.some_bind]
      rw [cprintf_eq, consputcAll_append]
      cases consputcAll (cprintf_chars str stack (bytes "\n") 0) s2 with
      | none => rfl
      | some s3 =>
        simp only [Option.some_bind]
        rw [panic_pcs_eq]
        cases consputcAll (panic_pcs_chars pcs 10 0) s3 <;> rfl

theorem panic_prefix_chars (str : Nat → List Nat) (stack : Nat → Nat) (lapicid : Nat)
    (h : lapicid < 4294967296) :
    cprintf_chars str (oneArg lapicid stack) (bytes "lapicid %d: panic: ") 0 =
      text "lapicid " ++ specDecimal (toInt32 lapicid) ++ text ": panic: " := by
  have h1 : bytes "lapicid %d: panic: " = bytes "lapicid " ++ (37 :: 100 :: (bytes ": panic: " ++ [])) := by
    decide
  rw [h1, cprintf_chars_plain _ _ _ _ _ (by decide), cprintf_chars_two,
    if_neg (by decide), if_neg (by decide), if_neg (by decide), if_pos (by decide),
    cprintf_chars_plain _ _ _ _ _ (by decide), text_eq, text_eq]
  show _ ++ (printint_chars (toInt32 lapicid) 10 1 ++ (_ ++ [])) = _
  rw [printint_chars_decimal lapicid h, List.append_nil, List.append_assoc]

theorem panic_pcs_chars_ten (pcs : Nat → Nat) (h : ∀ i, i < 10 → pcs i < 4294967296) :
    panic_pcs_chars pcs 10 0 = (List.range 10).flatMap (fun i => text " " ++ specHex (pcs i)) := by
  simp only [panic_pcs_chars, List.range_succ, List.range_zero, List.nil_append,
    List.flatMap_append, List.flatMap_cons, List.flatMap_nil, List.append_nil,
    List.cons_append, List.append_assoc, List.singleton_append]
  rw [printint_chars_hex _ (h 0 (by decide)), printint_chars_hex _ (h 1 (by decide)),
    printint_chars_hex _ (h 2 (by decide)), printint_chars_hex _ (h 3 (by decide)),
    printint_chars_hex _ (h 4 (by decide)), printint_chars_hex _ (h 5 (by decide)),
    printint_chars_hex _ (h 6 (by decide)), printint_chars_hex _ (h 7 (by decide)),
    printint_chars_hex _ (h 8 (by decide)), printint_chars_hex _ (h 9 (by decide))]
  rfl

/-- In normal operation `panic` reaches its final loop with the latch set,
having sent to the serial line the prefix, the characters that `cprintf` makes
of the message taken as a format, the newline and the ten addresses. -/
theorem panic_normal (str : Nat → List Nat) (stack : Nat → Nat) (lapicid : Nat)
    (pcs : Nat → Nat) (msg : List Nat) (s : State) (hN : Normal s)
    (hid : lapicid < 4294967296) (hpcs : ∀ i, i < 10 → pcs i < 4294967296)
    (hmsg : ∀ c ∈ cprintf_chars str stack msg 0, c ≠ BACKSPACE) :
    ∃ s1, panic str stack lapicid pcs (some msg) s = some s1 ∧ s1.panicked = true ∧
      s1.uart = s.uart ++ specPanic (toInt32 lapicid) (cprintf_chars str stack msg 0) pcs := by
  have hnl : cprintf_chars str stack (bytes "\n") 0 = text "\n" := by
    show cprintf_chars str stack [10] 0 = [10]
    rw [cprintf_chars_one, if_neg (by decide), if_pos (by decide)]
    rfl
  have hlist : cprintf_chars str (oneArg lapicid stack) (bytes "lapicid %d: panic: ") 0 ++
      (cprintf_chars str stack msg 0 ++
        (cprintf_chars str stack (bytes "\n") 0 ++ panic_pcs_chars pcs 10 0)) =
      specPanic (toInt32 lapicid) (cprintf_chars str stack msg 0) pcs := by
    rw [panic_prefix_chars str stack lapicid hid, hnl, panic_pcs_chars_ten pcs hpcs]
    unfold specPanic
    simp only [List.append_assoc]
  have hne : ∀ c ∈ specPanic (toInt32 lapicid) (cprintf_chars str stack msg 0) pcs,
      c ≠ BACKSPACE := by
    intro c hc
    unfold specPanic at hc
    simp only [List.mem_append, List.mem_flatMap, List.mem_range] at hc
    rcases hc with ((((h | h) | h) | h) | h) | ⟨i, _, h | h⟩
    · revert c; decide
    · exact specDecimal_ne _ c h
    · revert c; decide
    · exact hmsg c h
    · revert c; decide
    · revert c; decide
    · exact specHex_ne _ c h
  have hN0 : Normal { s with locking := false } := hN
  obtain ⟨s1, hs1, hN1, hu1, -⟩ := consputcAll_normal _ _ hN0 hne
  refine ⟨{ s1 with panicked := true }, ?_, rfl, hu1⟩
  rw [panic_eq, hlist, hs1]; rfl

/-- A message without `%` is printed as it is: in normal operation the serial
line receives the prefix, the bytes of the message, the newline and the ten
addresses, and the latch is set afterwards. -/
theorem panic_plain_message (str : Nat → List Nat) (stack : Nat → Nat) (lapicid : Nat)
    (pcs : Nat → Nat) (msg : List Nat) (s : State) (hN : Normal s)
    (hid : lapicid < 4294967296) (hpcs : ∀ i, i < 10 → pcs i < 4294967296)
    (hmsg : ∀ b ∈ msg, 0 < b ∧ b < 256 ∧ b ≠ 37) :
    ∃ s1, panic str stack lapicid pcs (some msg) s = some s1 ∧ s1.panicked = true ∧
      s1.uart = s.uart ++
        specPanic (toInt32 lapicid) (msg.map (fun (b : Nat) => (b : Int))) pcs := by
  have hc : cprintf_chars str stack msg 0 = msg.map (fun (b : Nat) => (b : Int)) := by
    have := cprintf_chars_plain str stack [] 0 msg hmsg
    rw [List.append_nil] at this
    rw [this]
    simp [cprintf_chars]
  have hne : ∀ c ∈ cprintf_chars str stack msg 0, c ≠ BACKSPACE := by
    rw [hc]
    intro c hcm
    obtain ⟨b, hb, rfl⟩ := List.mem_map.mp hcm
    have := (hmsg b hb).2.1
    unfold BACKSPACE
    omega
  obtain ⟨s1, h1, h2, h3⟩ := panic_normal str stack lapicid pcs msg s hN hid hpcs hne
  rw [hc] at h3
  exact ⟨s1, h1, h2, h3⟩

/-! ## The accesses of `cgaputc` to the video memory -/

theorem crtLoad_ok (crt : Int → Nat) (i : Int) (h0 : 0 ≤ i) (h1 : i < 25 * 80) :
    crtLoad crt i = Except.ok (crt i) := by
  unfold crtLoad; rw [if_pos ⟨h0, h1⟩]

theorem crtStore_ok (crt : Int → Nat) (i : Int) (v : Nat) (h0 : 0 ≤ i) (h1 : i < 25 * 80) :
    crtStore crt i v = Except.ok (fun j => if j = i then v else crt j) := by
  unfold crtStore; rw [if_pos ⟨h0, h1⟩]

/-- A move inside the memory copies the cells `i + off .. i + off + n - 1` to
`i .. i + n - 1`. -/
theorem crtMove_ok (off : Int) (hoff : 0 < off) :
    ∀ (n : Nat) (i : Int) (crt : Int → Nat), 0 ≤ i → i + n + off ≤ 25 * 80 →
      crtMove off n i crt =
        Except.ok (fun j => if i ≤ j ∧ j < i + n then crt (j + off) else crt j) := by
  intro n
  induction n with
  | zero =>
    intro i crt _ _
    rw [crtMove]
    congr 1
    funext j
    rw [if_neg (by simp)]
  | succ n ih =>
    intro i crt h0 h1
    rw [crtMove, crtLoad_ok crt (i + off) (by omega) (by push_cast at h1; omega)]
    simp only
    rw [crtStore_ok crt i _ h0 (by push_cast at h1; omega)]
    simp only
    rw [ih (i + 1) _ (by omega) (by push_cast at h1 ⊢; omega)]
    congr 1
    funext j
    by_cases hj : i ≤ j ∧ j < i + ((n + 1 : Nat) : Int)
    · rw [if_pos hj]
      by_cases hji : j = i
      · rw [if_neg (by omega), if_pos hji, hji]
      · rw [if_pos (by push_cast at hj; omega), if_neg (by omega)]
    · rw [if_neg hj, if_neg (by push_cast at hj; omega), if_neg (by push_cast at hj; omega)]

/-- A fill inside the memory clears the cells `i .. i + n - 1`. -/
theorem crtSet_ok :
    ∀ (n : Nat) (i : Int) (crt : Int → Nat), 0 ≤ i → i + n ≤ 25 * 80 →
      crtSet n i crt = Except.ok (fun j => if i ≤ j ∧ j < i + n then 0 else crt j) := by
  intro n
  induction n with
  | zero =>
    intro i crt _ _
    show Except.ok crt = _
    congr 1
    funext j
    rw [if_neg (by simp)]
  | succ n ih =>
    intro i crt h0 h1
    have hdef : crtSet (n + 1) i crt =
        match crtStore crt i 0 with
        | Except.error j => Except.error j
        | Except.ok crt1 => crtSet n (i + 1) crt1 := rfl
    rw [hdef, crtStore_ok crt i _ h0 (by push_cast at h1; omega)]
    simp only
    rw [ih (i + 1) _ (by omega) (by push_cast at h1 ⊢; omega)]
    congr 1
    funext j
    by_cases hj : i ≤ j ∧ j < i + ((n + 1 : Nat) : Int)
    · rw [if_pos hj]
      by_cases hji : j = i
      · rw [if_neg (by omega), if_pos hji]
      · rw [if_pos (by push_cast at hj; omega)]
    · rw [if_neg hj, if_neg (by push_cast at hj; omega), if_neg (by push_cast at hj; omega)]

/-- With the cursor on the screen every access of `cgaputc` to `crt` falls
inside the memory, and the run on the bounded memory ends as `cgaputc`
does. -/
theorem cgaputc_mem_eq (c : Int) (s : State) (h : readCursor s < 25 * 80) :
    cgaputc_mem c s = Except.ok (cgaputc c s) := by
  have h0 := readCursor_nonneg s
  have hG : (if c = 10 then Except.ok s.crt
      else if c = BACKSPACE then Except.ok s.crt
      else crtStore s.crt (readCursor s) ((c % 256).toNat ||| 0x0700)) =
        (Except.ok (cgaGlyph c s) : Except Int (Int → Nat)) := by
    unfold cgaGlyph
    by_cases h10 : c = 10
    · rw [if_pos h10, if_pos h10]
    · rw [if_neg h10, if_neg h10]
      by_cases hb : c = BACKSPACE
      · rw [if_pos hb, if_pos hb]
      · rw [if_neg hb, if_neg hb, crtStore_ok _ _ _ h0 h]
  have hcn : (if c = 10 then readCursor s + (80 - readCursor s % 80)
      else if c = BACKSPACE then (if readCursor s > 0 then readCursor s - 1 else readCursor s)
      else readCursor s + 1) = cursorNext c (readCursor s) := rfl
  unfold cgaputc_mem
  simp only []
  rw [hG]
  simp only [hcn]
  by_cases hp : cursorNext c (readCursor s) < 0 ∨ cursorNext c (readCursor s) > 25 * 80
  · rw [if_pos hp, cgaputc_unfold, if_pos hp]
  · rw [if_neg hp]
    by_cases hs : cursorNext c (readCursor s) / 80 ≥ 24
    · have hd : decide (cursorNext c (readCursor s) / 80 ≥ 24) = true := decide_eq_true hs
      rw [cgaputc_scroll c s (by omega) (by omega)]
      simp only [hd, if_true]
      rw [crtMove_ok 80 (by decide) (23 * 80) 0 _ (le_refl 0) (by decide)]
      simp only
      have hcast : (((24 * 80 - (cursorNext c (readCursor s) - 80)).toNat : Nat) : Int) =
          24 * 80 - (cursorNext c (readCursor s) - 80) := by omega
      rw [crtSet_ok _ _ _ (by omega) (by omega)]
      simp only
      rw [crtStore_ok _ _ _ (by omega) (by omega)]
      simp only
      congr 3
      funext i
      by_cases hi : i = cursorNext c (readCursor s) - 80
      · rw [if_pos hi, if_pos hi]
      · rw [if_neg hi, if_neg hi]
        by_cases h2 : cursorNext c (readCursor s) - 80 ≤ i ∧ i < 24 * 80
        · rw [if_pos h2, if_pos (by omega)]
        · rw [if_neg h2, if_neg (by omega)]
          by_cases h3 : 0 ≤ i ∧ i < 23 * 80
          · rw [if_pos h3, if_pos (by omega)]
          · rw [if_neg h3, if_neg (by omega)]
    · have hd : decide (cursorNext c (readCursor s) / 80 ≥ 24) = false := decide_eq_false hs
      rw [cgaputc_noscroll c s (by omega) (by omega)]
      simp only [hd, Bool.false_eq_true, if_false]
      rw [crtStore_ok _ _ _ (by omega) (by omega)]

/-- The bounds of the memory are felt: with the cursor registers at `25*80`
the store of the glyph is an access outside the memory. -/
theorem cgaputc_mem_outside :
    cgaputc_mem 97 (bootState (fun _ => 0) 7 208) = Except.error 2000 := rfl

theorem u32sub_of_le (a b : Nat) (hb : b < 4294967296) (h : a ≤ b) : u32sub b a = b - a := by
  unfold u32sub; omega

/-! ## C1: round trip through the line editor -/

/-- C1: round trip through the line editor.  Starting from an empty input
buffer (`r = w = e`, at any value of the counters) in normal operation, a
sequence of at most 128 keys made of ordinary bytes and one trailing newline,
fed to `consoleintr` in one call, is handed back by the next `consoleread`
with `n` at least the length of the sequence: the call returns the length
and delivers exactly those bytes, in order, the newline included. -/
theorem C1_round_trip (body : List Nat) (s : State) (n : Int) (killed : Bool)
    (hwf : WF s) (hN : Normal s) (hrw : s.r = s.w) (hwe : s.w = s.e)
    (hord : ∀ c ∈ body, Ordinary c) (hlen : (body ++ [10]).length ≤ 128)
    (hn : (((body ++ [10]).length : Nat) : Int) ≤ n) (hn32 : n < 2147483648) :
    ∃ s1, consoleintr (keysOf (body ++ [10])) s = some s1 ∧
      (consoleread killed n s1).ret = some (((body ++ [10]).length : Nat) : Int) ∧
      (consoleread killed n s1).dst = body ++ [10] := by
  simp only [List.length_append, List.length_singleton] at hlen hn ⊢
  have hm : u32sub s.e s.r = 0 := by
    have := hwf.1; rw [← hwe, ← hrw]; unfold u32sub; omega
  obtain ⟨s1, hl, hwf1, hN1, hr1, he1, hw1, hreg1⟩ :=
    consoleintr_line body s hwf hN hord (by rw [hm]; unfold INPUT_BUF; omega)
  have hkeys : keysOf (body ++ [10]) = keysOf body ++ [10] := by simp [keysOf]
  refine ⟨s1, ?_, ?_⟩
  · simp only [consoleintr, hkeys, hl]
    rfl
  · rw [hm] at hreg1
    simp only [Nat.zero_add, region, List.range_zero, List.map_nil, List.nil_append] at hreg1
    have hreg : region s1.buf s1.r (body.length + 1) = body ++ [10] := by
      rw [hr1]; exact hreg1
    have hne : ∀ x ∈ body, x ≠ 4 ∧ x ≠ 10 := fun x hx =>
      ⟨(hord x hx).2.2.1, (hord x hx).2.2.2.2.1⟩
    have hwr : body.length + 1 ≤ u32sub s1.w s1.r := by
      obtain ⟨hr, hw, he, -⟩ := hwf
      rw [hw1, hr1, ← hwe, ← hrw]; unfold u32add u32sub; omega
    rw [consoleread_line killed n body s1 hwf1 hreg hne hwr hn hn32]
    exact ⟨rfl, rfl⟩

/-- C1 at the keys `abc` and a newline, typed at boot and read with `n = 10`. -/
theorem C1_round_trip_witness :
    ∃ s1, consoleintr (keysOf ([97, 98, 99] ++ [10])) (bootState (fun _ => 0) 0 0) = some s1 ∧
      (consoleread false 10 s1).ret = some ((([97, 98, 99] ++ [10] : List Nat).length : Nat) : Int) ∧
      (consoleread false 10 s1).dst = [97, 98, 99] ++ [10] :=
  C1_round_trip [97, 98, 99] (bootState (fun _ => 0) 0 0) 10 false
    ⟨by decide, by decide, by decide, fun _ => Nat.zero_lt_succ 255⟩ ⟨rfl, by decide⟩ rfl rfl
    (by decide) (by decide) (by decide) (by decide)

/-! ## C2: the EOF code across two reads -/

/-- C2 as stated fails at two inputs.  When the EOF code is the first
committed byte (keys control-D, `a`, newline), the first `consoleread` with
`n = 10` returns the 0 bytes that precede the marker and consumes it, and the
next one returns the 2 bytes behind it, not 0.  When a newline precedes the
marker (keys `a`, newline, `b`, control-D), the first call stops behind the
newline and the next one returns the byte `b`, not 0. -/
theorem C2_counterexample :
    (∃ s, consoleintr [4, 97, 10] (bootState (fun _ => 0) 0 0) = some s ∧
      (consoleread false 10 s).ret = some 0 ∧
      (consoleread false 10 (consoleread false 10 s).state).ret = some 2 ∧
      (consoleread false 10 (consoleread false 10 s).state).dst = [97, 10]) ∧
    (∃ s, consoleintr [97, 10, 98, 4] (bootState (fun _ => 0) 0 0) = some s ∧
      (consoleread false 10 s).ret = some 2 ∧
      (consoleread false 10 s).dst = [97, 10] ∧
      (consoleread false 10 (consoleread false 10 s).state).ret = some 1 ∧
      (consoleread false 10 (consoleread false 10 s).state).dst = [98]) := by
  constructor
  · exact ⟨_, rfl, by decide, by decide, by decide⟩
  · exact ⟨_, rfl, by decide, by decide, by decide, by decide⟩

/-- C2, amended: when the committed bytes at the read position are a run of
at least one and fewer than `n` bytes, none of them a newline or the EOF
code, followed by the EOF code, the first `consoleread` of length `n` returns
exactly the bytes of the run and leaves the marker in the buffer, and the
immediately following `consoleread` (of any length) returns 0 bytes. -/
theorem C2_eof_two_reads (killed killed2 : Bool) (n n2 : Int) (bs : List Nat) (s : State)
    (hwf : WF s) (hreg : region s.buf s.r (bs.length + 1) = bs ++ [4])
    (hne : ∀ x ∈ bs, x ≠ 4 ∧ x ≠ 10) (hpos : 0 < bs.length)
    (hw : bs.length + 1 ≤ u32sub s.w s.r)
    (hn : ((bs.length : Nat) : Int) < n) (hn32 : n < 2147483648) (hn2 : n2 < 2147483648) :
    (consoleread killed n s).ret = some ((bs.length : Nat) : Int) ∧
      (consoleread killed n s).dst = bs ∧
      (consoleread killed n s).state.r = u32add s.r bs.length ∧
      (consoleread killed2 n2 (consoleread killed n s).state).ret = some 0 ∧
      (consoleread killed2 n2 (consoleread killed n s).state).dst = [] := by
  rw [consoleread_eof_later killed n bs s hwf hreg hne hpos hw hn hn32]
  refine ⟨rfl, rfl, rfl, ?_⟩
  obtain ⟨hr, hw32, he, hbuf⟩ := hwf
  have hrw : u32add s.r bs.length ≠ s.w := by
    unfold u32add u32sub at *; omega
  have hb : s.buf (u32add s.r bs.length % INPUT_BUF) = 4 := by
    have h := region_getElem s.buf s.r (bs.length + 1) bs.length (by simp [region_length])
    simp only [hreg] at h
    have hidx : u32add s.r bs.length % INPUT_BUF = (s.r + bs.length) % INPUT_BUF := by
      unfold u32add INPUT_BUF; omega
    rw [hidx, ← h]
    simp
  rw [consoleread_eof_first killed2 n2 { s with r := u32add s.r bs.length } hrw hb hn2]
  exact ⟨rfl, rfl⟩

/-- C2 (amended) at the committed bytes `a`, `b`, control-D, read twice with
`n = 10`. -/
theorem C2_eof_two_reads_witness :
    (consoleread false 10 { bootState (fun _ => 0) 0 0 with
        buf := fun i => if i = 0 then 97 else if i = 1 then 98 else 4, w := 3, e := 3 }).ret
      = some (([97, 98] : List Nat).length : Int) ∧
    (consoleread false 10 (consoleread false 10 { bootState (fun _ => 0) 0 0 with
        buf := fun i => if i = 0 then 97 else if i = 1 then 98 else 4, w := 3, e := 3 }).state).ret
      = some 0 :=
  have h := C2_eof_two_reads false false 10 10 [97, 98]
    { bootState (fun _ => 0) 0 0 with
        buf := fun i => if i = 0 then 97 else if i = 1 then 98 else 4, w := 3, e := 3 }
    ⟨by decide, by decide, by decide, fun i => by dsimp only; split_ifs <;> omega⟩
    (by decide) (by decide) (by decide) (by decide) (by decide) (by decide) (by decide)
  ⟨h.1, h.2.2.2.1⟩

/-! ## C3: backpressure at capacity -/

/-- C3: backpressure at capacity.  (1) In every state with `e - r = 128` (in
the arithmetic of the counters) a key of the `default:` branch is dropped:
`consoleintr` returns the state as it was, counters, buffer and output alike,
so nothing is echoed.  (2) From an empty buffer in normal operation, when
more than 128 ordinary keys are typed, the first 128 are accepted and
committed and the 129th and all later ones change nothing.  (3) From a state
with `e - r = 128` within the invariant, once a `consoleread` has advanced
`r`, the next key of the `default:` branch other than zero is accepted: it is
stored at the edit position, the edit index advances and the key is echoed. -/
theorem C3_backpressure :
    (∀ (c : Int) (s : State), c ≠ 16 → c ≠ 21 → c ≠ 8 → c ≠ 127 →
      u32sub s.e s.r = 128 →
      consoleintr_key c s = some s ∧ (0 ≤ c → consoleintr [c] s = some s)) ∧
    (∀ (l0 more : List Nat) (c : Nat) (s : State), WF s → Normal s →
      s.r = s.w → s.w = s.e → l0.length = 127 →
      (∀ x ∈ l0, Ordinary x) → Ordinary c → (∀ x ∈ more, Ordinary x) →
      ∃ s1, consoleintr (keysOf (l0 ++ [c])) s = some s1 ∧
        consoleintr (keysOf (l0 ++ [c]) ++ keysOf more) s = some s1 ∧
        u32sub s1.e s1.r = 128 ∧ s1.w = s1.e) ∧
    (∀ (c : Int) (s : State) (killed : Bool) (n : Int), WF s → Normal s → Inv s →
      u32sub s.e s.r = 128 → n < 2147483648 →
      (consoleread killed n s).state.r ≠ s.r →
      c ≠ 16 → c ≠ 21 → c ≠ 8 → c ≠ 127 → c ≠ 0 →
      ∃ s1, consoleintr_key c (consoleread killed n s).state = some s1 ∧
        s1.e = u32add s.e 1 ∧
        s1.buf (s.e % INPUT_BUF) = toByte (if c = 13 then 10 else c) ∧
        s1.uart = s.uart ++ (if (if c = 13 then 10 else c) = BACKSPACE then [8, 32, 8]
                              else [if c = 13 then 10 else c])) := by
  refine ⟨?_, ?_, ?_⟩
  · intro c s hP hU hH hDel hfull
    have hk := consoleintr_key_full c s hP hU hH hDel hfull
    refine ⟨hk, fun hc => ?_⟩
    have hl : consoleintr_loop [c] s false = some (s, dumpFlag c false) := by
      rw [consoleintr_loop_cons c [] s s false hc hk]; rfl
    have hd : dumpFlag c false = false := by simp [dumpFlag, hP]
    rw [hd] at hl
    simp [consoleintr, hl]
  · intro l0 more c s hwf hN hrw hwe hlen hl0 hc hmore
    have hm : u32sub s.e s.r = 0 := by rw [hrw, hwe]; exact u32sub_self _
    obtain ⟨s1, hl1, hwf1, hN1, hr1, -, he1, -, -, -, -⟩ :=
      consoleintr_loop_ordinary l0 s false hwf hN hl0 (by rw [hm, hlen]; decide)
    have h127 : u32sub s1.e s1.r = 127 := by
      rw [he1, hr1, hrw, hwe, hlen]
      exact u32sub_add_self _ _ hwf.2.2.1 (by decide)
    obtain ⟨s2, hk2, hr2, he2, hw2, hfull⟩ := consoleintr_key_fill c s1 hwf1 hN1 hc h127
    have hoc := ordinary_cast c hc
    have hd : dumpFlag (c : Int) false = false := by simp [dumpFlag, hoc.1]
    have hkeys : keysOf (l0 ++ [c]) = keysOf l0 ++ [(c : Int)] := by simp [keysOf]
    have hA : consoleintr_loop (keysOf (l0 ++ [c])) s false = some (s2, false) := by
      rw [hkeys, hl1, consoleintr_loop_cons (c : Int) [] s1 s2 false hoc.2.2.2.2.2.2.2.2.2 hk2,
        hd]
      rfl
    have hB : consoleintr_loop (keysOf (l0 ++ [c]) ++ keysOf more) s false
        = some (s2, false) := by
      rw [hkeys, List.append_assoc, hl1, List.singleton_append,
        consoleintr_loop_cons (c : Int) _ s1 s2 false hoc.2.2.2.2.2.2.2.2.2 hk2, hd]
      have := consoleintr_loop_full more s2 false [] hmore hfull
      rw [List.append_nil] at this
      rw [this]; rfl
    exact ⟨s2, by simp [consoleintr, hA], by simp [consoleintr, hB], hfull,
      by rw [hw2, he2]⟩
  · intro c s killed n hwf hN hI hfull hn32 hadv hP hU hH hDel h0
    obtain ⟨d, r1, -, hst, hr1, -, -, -, -, -, -, hpass, -⟩ :=
      consoleread_spec killed n s hwf hn32
    rw [hst] at hadv ⊢
    have hne : r1 ≠ s.r := hadv
    obtain ⟨hr, hw, he, hbuf⟩ := hwf
    obtain ⟨hI1, hI2⟩ := hI
    unfold INPUT_BUF at hI2
    have hrd := inv_read s.r s.w s.e r1 hr hw he hr1 hI1 hI2 hpass
    have hpos := u32sub_pos r1 s.r hr1 hr (fun h => hne h.symm)
    obtain ⟨s1, hk, -, -, he1, hb1, -, -, hu1, -⟩ :=
      consoleintr_key_accept c { s with r := r1 } (Normal_of_eq s _ rfl rfl rfl hN)
        hP hU hH hDel h0
        (by show u32sub s.e r1 < INPUT_BUF; unfold INPUT_BUF; omega)
    refine ⟨s1, hk, he1, ?_, hu1⟩
    rw [hb1]
    simp

/-- C3 at concrete inputs: on the state with 128 committed bytes the key `a`
is dropped; 127 keys `a`, a key `b` and two more keys typed at boot leave the
state that the first 128 of them leave; and after a `consoleread` of one byte
from the full state the key `a` is accepted. -/
theorem C3_backpressure_witness :
    consoleintr_key 97 { bootState (fun _ => 0) 0 0 with w := 128, e := 128 } =
        some { bootState (fun _ => 0) 0 0 with w := 128, e := 128 } ∧
      (∃ s1, consoleintr (keysOf (List.replicate 127 97 ++ [98])) (bootState (fun _ => 0) 0 0)
            = some s1 ∧
          consoleintr (keysOf (List.replicate 127 97 ++ [98]) ++ keysOf [99, 100])
            (bootState (fun _ => 0) 0 0) = some s1 ∧
          u32sub s1.e s1.r = 128) ∧
      ∃ s1, consoleintr_key 97
          (consoleread false 1 { bootState (fun _ => 0) 0 0 with w := 128, e := 128 }).state
            = some s1 ∧
        s1.e = u32add 128 1 :=
  ⟨(C3_backpressure.1 97 { bootState (fun _ => 0) 0 0 with w := 128, e := 128 }
      (by decide) (by decide) (by decide) (by decide) (by decide)).1,
    (C3_backpressure.2.1 (List.replicate 127 97) [99, 100] 98 (bootState (fun _ => 0) 0 0)
      ⟨by decide, by decide, by decide, fun _ => Nat.zero_lt_succ 255⟩ ⟨rfl, by decide⟩
      rfl rfl (List.length_replicate 127 97)
      (fun x hx => by rw [List.eq_of_mem_replicate hx]; decide) (by decide)
      (by decide)).elim fun s1 h => ⟨s1, h.1, h.2.1, h.2.2.1⟩,
    (C3_backpressure.2.2 97 { bootState (fun _ => 0) 0 0 with w := 128, e := 128 } false 1
      ⟨by decide, by decide, by decide, fun _ => Nat.zero_lt_succ 255⟩ ⟨rfl, by decide⟩
      ⟨by decide, by decide⟩ (by decide) (by decide) (by decide)
      (by decide) (by decide) (by decide) (by decide) (by decide)).elim
      fun s1 h => ⟨s1, h.1, h.2.1⟩⟩

/-! ## C4: backspace and kill-line spare the committed bytes -/

/-- C4: backspace and kill-line never erase committed bytes.  In normal
operation, from a state with `w <= e`, processing control-H, DEL or control-U
returns and leaves `r`, `w` and every byte of the buffer (those of the
committed region among them) unchanged, and the edit index `e'` afterwards
satisfies `w <= e' <= e`. -/
theorem C4_erase_frame (c : Int) (s : State) (hwf : WF s) (hN : Normal s)
    (hc : c = 8 ∨ c = 127 ∨ c = 21) (hwe : s.w ≤ s.e) :
    ∃ s1, consoleintr_key c s = some s1 ∧ s1.r = s.r ∧ s1.w = s.w ∧ s1.buf = s.buf ∧
      s.w ≤ s1.e ∧ s1.e ≤ s.e := by
  by_cases hU : c = 21
  · obtain ⟨s1, h1, hwf1, -, hr1, hw1, hb1, -, -, hle1, -⟩ :=
      killLine_spec (u32sub s.e s.w) s hwf hN (le_refl _)
    refine ⟨s1, ?_, hr1, hw1, hb1, ?_⟩
    · simp [consoleintr_key, hU, h1]
    · exact u32sub_between s.w s1.e s.e hwf1.2.2.1 hwf.2.2.1 hle1 hwe
  · have hc2 : c = 8 ∨ c = 127 := by omega
    by_cases hne : s.e = s.w
    · refine ⟨s, ?_, rfl, rfl, rfl, hwe, le_refl _⟩
      have hP : c ≠ 16 := by omega
      simp [consoleintr_key, hP, hU, hc2, hne]
    · obtain ⟨crt, hi, lo, hk, -⟩ := consoleintr_key_backspace c s hN hc2 hne
      refine ⟨_, hk, rfl, rfl, rfl, ?_, ?_⟩
      · show s.w ≤ u32sub s.e 1
        have := hwf.2.2.1; unfold u32sub; omega
      · show u32sub s.e 1 ≤ s.e
        have := hwf.2.2.1; unfold u32sub; omega

/-- C4 at three pending bytes on the state at boot, for control-U. -/
theorem C4_erase_frame_witness :
    ∃ s1, consoleintr_key 21 { bootState (fun _ => 97) 0 0 with e := 3 } = some s1 ∧
      s1.r = 0 ∧ s1.w = 0 ∧ s1.buf = (fun _ => 0) ∧ 0 ≤ s1.e ∧ s1.e ≤ 3 :=
  C4_erase_frame 21 { bootState (fun _ => 97) 0 0 with e := 3 }
    ⟨by decide, by decide, by decide, fun _ => Nat.zero_lt_succ 255⟩ ⟨rfl, by decide⟩
    (by decide) (by decide)

/-! ## C5: kill-line, then newline -/

/-- C5: kill-line followed immediately by a newline commits an empty line.
From every reachable state in which nothing is committed (`r = w`), whatever
the pending region holds, processing control-U and then a newline (key by
key, or as one call of `consoleintr`) returns, and the next `consoleread`
with `n >= 1` returns exactly one byte, the newline. -/
theorem C5_kill_then_newline (s : State) (killed : Bool) (n : Int) (hreach : Reachable s)
    (hrw : s.r = s.w) (hn : 1 ≤ n) (hn32 : n < 2147483648) :
    ∃ s1 s2, consoleintr_key 21 s = some s1 ∧ consoleintr_key 10 s1 = some s2 ∧
      consoleintr [21, 10] s = some s2 ∧
      (consoleread killed n s2).ret = some 1 ∧ (consoleread killed n s2).dst = [10] := by
  obtain ⟨hwf, hN, hI, hpn⟩ := Reachable_good s hreach
  obtain ⟨s1, h1, hwf1, hN1, hr1, hw1, hb1, -, -, hle1, hk1⟩ :=
    killLine_spec (u32sub s.e s.w) s hwf hN (le_refl _)
  have he1 : s1.e = s.w := killLine_empties s s1 hwf hpn hwf1 hw1 hb1 hle1 hk1
  have hkey1 : consoleintr_key 21 s = some s1 := by simp [consoleintr_key, h1]
  have hm : u32sub s1.e s1.r = 0 := by rw [he1, hr1, hrw]; exact u32sub_self _
  obtain ⟨s2, hkey2, hwf2, -, hr2, he2, hw2, hreg2, -, -, -⟩ :=
    consoleintr_key_newline s1 hwf1 hN1 (by rw [hm]; decide)
  refine ⟨s1, s2, hkey1, hkey2, ?_, ?_⟩
  · have hl : consoleintr_loop [21, 10] s false = some (s2, false) := by
      rw [consoleintr_loop_cons 21 [10] s s1 false (by decide) hkey1,
        consoleintr_loop_cons 10 [] s1 s2 _ (by decide) hkey2]
      rfl
    simp [consoleintr, hl]
  · have hreg : region s2.buf s2.r (([] : List Nat).length + 1) = [] ++ [10] := by
      rw [hm] at hreg2
      rw [hr2]
      simpa [region] using hreg2
    have hwr : ([] : List Nat).length + 1 ≤ u32sub s2.w s2.r := by
      rw [hw2, hr2, he1, hr1, hrw, u32sub_succ_self _ hwf.2.1]
      simp
    rw [consoleread_line killed n [] s2 hwf2 hreg (by simp) hwr (by simpa using hn) hn32]
    exact ⟨rfl, rfl⟩

/-- C5 on the state reached from boot by typing `ab` (two pending bytes),
read with `n = 1`. -/
theorem C5_kill_then_newline_witness :
    ∃ s0 s1 s2, consoleintr [97, 98] (bootState (fun _ => 0) 0 0) = some s0 ∧ s0.e = 2 ∧
      consoleintr_key 21 s0 = some s1 ∧ consoleintr_key 10 s1 = some s2 ∧
      consoleintr [21, 10] s0 = some s2 ∧
      (consoleread false 1 s2).ret = some 1 ∧ (consoleread false 1 s2).dst = [10] :=
  have h0 : ∃ s0, consoleintr [97, 98] (bootState (fun _ => 0) 0 0) = some s0 ∧ s0.e = 2 ∧
      s0.r = s0.w := ⟨_, rfl, by decide, by decide⟩
  h0.elim fun s0 h =>
    (C5_kill_then_newline s0 false 1
      (Reachable.intr _ s0 [97, 98] (Reachable.boot (fun _ => 0) 0 0 (by decide))
        (by decide) h.1) h.2.2 (by decide) (by decide)).elim
      fun s1 h1 => h1.elim fun s2 h2 => ⟨s0, s1, s2, h.1, h.2.1, h2⟩

/-! ## C6: backspace undoes the last character -/

/-- C6: backspace undoes the last typed character.  For runs `sb` and `tb` of
ordinary bytes and an ordinary byte `x` with `|sb| + |tb| + 2 <= 128`, typing
`sb`, `x`, a backspace (control-H or DEL), `tb` and a newline into an empty
buffer in normal operation, and then calling `consoleread` with `n` at least
`|sb| + |tb| + 1`, returns `|sb| + |tb| + 1` and delivers `sb`, then `tb`,
then the newline. -/
theorem C6_backspace_undo (sb tb : List Nat) (x : Nat) (bsp : Int) (s : State) (n : Int)
    (killed : Bool) (hwf : WF s) (hN : Normal s) (hrw : s.r = s.w) (hwe : s.w = s.e)
    (hs : ∀ c ∈ sb, Ordinary c) (ht : ∀ c ∈ tb, Ordinary c) (hx : Ordinary x)
    (hbsp : bsp = 8 ∨ bsp = 127) (hlen : sb.length + tb.length + 2 ≤ 128)
    (hn : ((sb.length + tb.length + 1 : Nat) : Int) ≤ n) (hn32 : n < 2147483648) :
    ∃ s1, consoleintr (keysOf (sb ++ [x]) ++ (bsp :: (keysOf tb ++ [10]))) s = some s1 ∧
      (consoleread killed n s1).ret = some ((sb.length + tb.length + 1 : Nat) : Int) ∧
      (consoleread killed n s1).dst = sb ++ tb ++ [10] := by
  have hre : s.r = s.e := hrw.trans hwe
  have hm : u32sub s.e s.r = 0 := by rw [hre]; exact u32sub_self _
  have he := hwf.2.2.1
  -- typing `sb` and `x`
  obtain ⟨s1, hl1, hwf1, hN1, hr1, hw1, he1, hreg1, -, -, -⟩ :=
    consoleintr_loop_ordinary (sb ++ [x]) s false hwf hN
      (fun c hc => by
        rcases List.mem_append.mp hc with h | h
        · exact hs c h
        · rw [List.mem_singleton.mp h]; exact hx)
      (by rw [hm]; simp only [List.length_append, List.length_singleton]; unfold INPUT_BUF; omega)
  simp only [List.length_append, List.length_singleton, hm, Nat.zero_add] at he1 hreg1
  rw [show region s.buf s.r 0 = [] from rfl, List.nil_append] at hreg1
  -- the backspace
  obtain ⟨hpred, hne⟩ := u32add_pred s.e sb.length (by omega)
  obtain ⟨s2, hk2, hwf2, hN2, hr2, hw2, hb2, he2⟩ :=
    consoleintr_key_backspace_fields bsp s1 hwf1 hN1 hbsp (by rw [he1, hw1, hwe]; exact hne)
  rw [he1, hpred] at he2
  have hm2 : u32sub s2.e s2.r = sb.length := by
    rw [he2, hr2, hr1, hre]; exact u32sub_add_self _ _ he (by omega)
  have hreg2 : region s2.buf s2.r sb.length = sb := by
    rw [region_succ_snoc] at hreg1
    rw [hb2, hr2, hr1]
    exact (List.append_inj hreg1 (region_length _ _ _)).1
  -- typing `tb` and the newline
  obtain ⟨s3, hl3, hwf3, -, hr3, he3, hw3, hreg3⟩ :=
    consoleintr_line tb s2 hwf2 hN2 ht (by rw [hm2]; unfold INPUT_BUF; omega)
  rw [hm2, hreg2] at hreg3
  have hdump : dumpFlag bsp false = false := by
    have : bsp ≠ 16 := by omega
    simp [dumpFlag, this]
  refine ⟨s3, ?_, ?_⟩
  · have hl : consoleintr_loop (keysOf (sb ++ [x]) ++ (bsp :: (keysOf tb ++ [10]))) s false
        = some (s3, false) := by
      rw [hl1, consoleintr_loop_cons bsp _ s1 s2 false (by omega) hk2, hdump, hl3]
    simp [consoleintr, hl]
  · have hreg : region s3.buf s3.r ((sb ++ tb).length + 1) = (sb ++ tb) ++ [10] := by
      rw [hr3, List.length_append]; exact hreg3
    have hne4 : ∀ c ∈ sb ++ tb, c ≠ 4 ∧ c ≠ 10 := by
      intro c hc
      rcases List.mem_append.mp hc with h | h
      · exact ⟨(hs c h).2.2.1, (hs c h).2.2.2.2.1⟩
      · exact ⟨(ht c h).2.2.1, (ht c h).2.2.2.2.1⟩
    have hwr : (sb ++ tb).length + 1 ≤ u32sub s3.w s3.r := by
      rw [hw3, hr3, he2, hr2, hr1, hre, u32add_add,
        u32sub_add_self _ _ he (by omega), List.length_append]
      omega
    have hn' : (((sb ++ tb).length + 1 : Nat) : Int) ≤ n := by
      rw [List.length_append]; exact hn
    rw [consoleread_line killed n (sb ++ tb) s3 hwf3 hreg hne4 hwr hn' hn32,
      List.length_append]
    exact ⟨rfl, rfl⟩

/-- C6 at the keys `ab`, backspace, `c`, newline, typed at boot and read with
`n = 10`: the call returns 3 bytes, `ac` and the newline. -/
theorem C6_backspace_undo_witness :
    ∃ s1, consoleintr (keysOf ([97] ++ [98]) ++ (8 :: (keysOf [99] ++ [10])))
        (bootState (fun _ => 0) 0 0) = some s1 ∧
      (consoleread false 10 s1).ret = some ((([97] : List Nat).length +
        ([99] : List Nat).length + 1 : Nat) : Int) ∧
      (consoleread false 10 s1).dst = [97] ++ [99] ++ [10] :=
  C6_backspace_undo [97] [99] 98 8 (bootState (fun _ => 0) 0 0) 10 false
    ⟨by decide, by decide, by decide, fun _ => Nat.zero_lt_succ 255⟩ ⟨rfl, by decide⟩ rfl rfl
    (by decide) (by decide) (by decide) (by decide) (by decide) (by decide) (by decide)

/-! ## C7: the shape of a result of `consoleread` -/

/-- C7: the shape of a result of `consoleread`.  When a call with `n > 0`
returns a value `k` other than the `-1` of a killed caller, then
`0 <= k <= n`, the `k` bytes delivered are `buf[r mod 128], ...,
buf[(r + k - 1) mod 128]` in order, none of the first `k - 1` of them is a
newline and none of them is the EOF code; the read index has moved forward
without passing the write index (`r' - r <= w - r` in the arithmetic of the
counters, hence `r <= r' <= w` whenever `r <= w`), and `w`, `e` and the bytes
of the buffer are unchanged.  The delivered bytes are committed ones: the
read index has moved over all `k` of them and over at most one byte more (an
EOF code that the call consumes), `k <= r' - r <= k + 1`, so that
`k <= w - r`, and `r + k <= w` whenever `r <= w`. -/
theorem C7_consoleread_shape (killed : Bool) (n k : Int) (s : State) (hwf : WF s)
    (hn : 0 < n) (hn32 : n < 2147483648)
    (hret : (consoleread killed n s).ret = some k) (hk : k ≠ -1) :
    0 ≤ k ∧ k ≤ n ∧
      (consoleread killed n s).dst = region s.buf s.r k.toNat ∧
      (∀ i, i + 1 < k.toNat → (consoleread killed n s).dst[i]? ≠ some 10) ∧
      (∀ x ∈ (consoleread killed n s).dst, x ≠ 4) ∧
      u32sub (consoleread killed n s).state.r s.r ≤ u32sub s.w s.r ∧
      (s.r ≤ s.w → s.r ≤ (consoleread killed n s).state.r ∧
        (consoleread killed n s).state.r ≤ s.w) ∧
      (consoleread killed n s).state.w = s.w ∧
      (consoleread killed n s).state.e = s.e ∧
      (consoleread killed n s).state.buf = s.buf ∧
      k.toNat ≤ u32sub (consoleread killed n s).state.r s.r ∧
      u32sub (consoleread killed n s).state.r s.r ≤ k.toNat + 1 ∧
      k.toNat ≤ u32sub s.w s.r ∧
      (s.r ≤ s.w → s.r + k.toNat ≤ s.w) := by
  obtain ⟨d, r1, hdst, hst, hr1, hreg, hlen, h4, h10, hlo, hhi, hpass, hr⟩ :=
    consoleread_spec killed n s hwf hn32
  have hkd : k = ((d.length : Nat) : Int) := by
    rcases hr with h | h | h
    · rw [h.1] at hret; cases hret
    · rw [h.1] at hret; injection hret with h'; exact absurd h'.symm hk
    · rw [h] at hret; injection hret with h'; exact h'.symm
  subst hkd
  rw [hdst, hst, Int.toNat_ofNat]
  refine ⟨by omega, by omega, hreg, ?_, h4, hpass, ?_, rfl, rfl, rfl, hlo, hhi,
    le_trans hlo hpass, ?_⟩
  · intro i hi
    rw [List.getElem?_eq_getElem (by omega)]
    intro h
    injection h with h
    exact h10 i hi h
  · intro hrw
    exact u32sub_between s.r r1 s.w hr1 hwf.2.1 hpass hrw
  · intro hrw
    have hsub := u32sub_of_le s.r s.w hwf.2.1 hrw
    have := le_trans hlo hpass
    omega

/-- C7 at the committed line `a`, newline, read with `n = 10`: the call
delivers the two committed bytes and the read index moves over them. -/
theorem C7_consoleread_shape_witness :
    (0 : Int) ≤ 2 ∧ (2 : Int) ≤ 10 ∧
      (consoleread false 10 { bootState (fun _ => 0) 0 0 with
        buf := fun i => if i = 0 then 97 else 10, w := 2, e := 2 }).dst =
      region (fun i => if i = 0 then 97 else 10) 0 2 ∧
      (2 : Int).toNat ≤ u32sub (consoleread false 10 { bootState (fun _ => 0) 0 0 with
        buf := fun i => if i = 0 then 97 else 10, w := 2, e := 2 }).state.r 0 :=
  have h := C7_consoleread_shape false 10 2
    { bootState (fun _ => 0) 0 0 with buf := fun i => if i = 0 then 97 else 10, w := 2, e := 2 }
    ⟨by decide, by decide, by decide, fun i => by dsimp only; split_ifs <;> omega⟩
    (by decide) (by decide) (by decide) (by decide)
  ⟨h.1, h.2.1, h.2.2.1, h.2.2.2.2.2.2.2.2.2.2.1⟩

/-! ## C8: `consolewrite` -/

/-- C8: `consolewrite` never partially fails.  For every buffer of bytes and
every `n`, the call is one call of the Character Sink `consputc` per byte
`buf[0], ..., buf[n-1]`, each as a value `0..255`, in that order; with the
panic latch clear (and the cursor on the screen) it returns `n`, the bytes
appear in that order on the serial line, and the input buffer and its
counters are unchanged. -/
theorem C8_consolewrite (buf : Nat → Nat) (n : Int) (s : State) (hN : Normal s)
    (hb : ∀ i, buf i < 256) :
    consolewrite_loop buf n.toNat 0 s =
        consputcAll ((List.range n.toNat).map (fun i => ((buf i : Nat) : Int))) s ∧
      ∃ s1, consolewrite buf n s = some (n, s1) ∧
        s1.uart = s.uart ++ (List.range n.toNat).map (fun i => ((buf i : Nat) : Int)) ∧
        s1.buf = s.buf ∧ s1.r = s.r ∧ s1.w = s.w ∧ s1.e = s.e := by
  have hloop := consolewrite_loop_eq buf hb n.toNat 0 s
  simp only [Nat.zero_add] at hloop
  refine ⟨hloop, ?_⟩
  obtain ⟨s1, hall, -, hu, hbuf, hr, hw, he, -, -⟩ :=
    consputcAll_normal ((List.range n.toNat).map (fun i => ((buf i : Nat) : Int))) s hN
      (by
        intro c hc
        obtain ⟨i, -, rfl⟩ := List.mem_map.mp hc
        have := hb i
        unfold BACKSPACE; omega)
  exact ⟨s1, by simp [consolewrite, hloop, hall], hu, hbuf, hr, hw, he⟩

/-- C8 at the buffer `hi` with `n = 2`, on the state at boot. -/
theorem C8_consolewrite_witness :
    ∃ s1, consolewrite (fun i => if i = 0 then 104 else 105) 2 (bootState (fun _ => 0) 0 0)
        = some (2, s1) ∧ s1.uart = [104, 105] :=
  have h := (C8_consolewrite (fun i => if i = 0 then 104 else 105) 2 (bootState (fun _ => 0) 0 0)
    ⟨rfl, by decide⟩ (fun i => by dsimp only; split <;> omega)).2
  h.elim fun s1 h1 => ⟨s1, h1.1, h1.2.1⟩

/-! ## C9: a killed reader -/

/-- C9: a killed reader.  When `consoleread` is called with `n > 0` while
nothing is committed (`r = w`) and the caller is marked killed, it returns
`-1`, stores nothing and leaves the whole state, the counters and the buffer
included, as it was. -/
theorem C9_killed_reader (n : Int) (s : State) (hn : 0 < n) (hrw : s.r = s.w) :
    (consoleread true n s).ret = some (-1) ∧ (consoleread true n s).dst = [] ∧
      (consoleread true n s).state = s := by
  obtain ⟨m, hm⟩ : ∃ m : Nat, n.toNat = m + 1 := ⟨n.toNat - 1, by omega⟩
  have hpos : n > 0 := hn
  simp [consoleread, hpos, hm, consoleread_loop_succ, hrw]

/-- C9 on the state at boot, with `n = 10`. -/
theorem C9_killed_reader_witness :
    (consoleread true 10 (bootState (fun _ => 0) 0 0)).ret = some (-1) ∧
      (consoleread true 10 (bootState (fun _ => 0) 0 0)).dst = [] ∧
      (consoleread true 10 (bootState (fun _ => 0) 0 0)).state = bootState (fun _ => 0) 0 0 :=
  C9_killed_reader 10 (bootState (fun _ => 0) 0 0) (by decide) rfl

/-! ## C10: the invariant of the input buffer -/

/-- C10 as stated fails where the 32-bit edit counter wraps.  The state with
`r = w = e = 2^32 - 1` satisfies `r <= w <= e` and `e - r <= 128`; the key `a`
is accepted there (`e - r = 0`), `input.e++` wraps `e` to `0` and `w` stays
`2^32 - 1`, so `w <= e` no longer holds.  A state with these counters is
reachable from boot. -/
theorem C10_counterexample :
    PlainInv { bootState (fun _ => 0) 0 0 with r := 4294967295, w := 4294967295, e := 4294967295 } ∧
    (∃ s1, consoleintr_key 97
        { bootState (fun _ => 0) 0 0 with r := 4294967295, w := 4294967295, e := 4294967295 }
          = some s1 ∧
      s1.r = 4294967295 ∧ s1.w = 4294967295 ∧ s1.e = 0 ∧ ¬ PlainInv s1) ∧
    (∃ s, Reachable s ∧ s.r = 4294967295 ∧ s.w = 4294967295 ∧ s.e = 4294967295) := by
  refine ⟨⟨by decide, by decide, by decide⟩, ⟨_, rfl, by decide, by decide, by decide, ?_⟩,
    Reachable_counters 4294967295 (by decide)⟩
  intro h
  exact absurd h.2.1 (by decide)

/-- C10, amended: the invariant of the input buffer holds in the arithmetic
of the 32-bit counters.  (1) At boot `r <= w <= e` and `e - r <= 128` hold,
and so does their form modulo `2^32`, `(w - r) mod 2^32 <= (e - r) mod 2^32
<= 128`.  (2) Every key-processing step of `consoleintr` in normal operation
returns and preserves the form modulo `2^32`, and so does (3) every call of
`consoleread`.  (4) A key-processing step that starts with `e < 2^32 - 1`,
and (5) every call of `consoleread`, also preserve `r <= w <= e` and
`e - r <= 128` on the counters read as numbers. -/
theorem C10_invariant :
    (∀ (crt : Int → Nat) (hi lo : Nat),
      PlainInv (bootState crt hi lo) ∧ Inv (bootState crt hi lo)) ∧
    (∀ (c : Int) (s : State), WF s → Normal s → Inv s →
      ∃ s1, consoleintr_key c s = some s1 ∧ WF s1 ∧ Normal s1 ∧ Inv s1) ∧
    (∀ (killed : Bool) (n : Int) (s : State), WF s → Inv s → n < 2147483648 →
      WF (consoleread killed n s).state ∧ Inv (consoleread killed n s).state) ∧
    (∀ (c : Int) (s : State), WF s → Normal s → PlainInv s → s.e < 4294967295 →
      ∃ s1, consoleintr_key c s = some s1 ∧ WF s1 ∧ Normal s1 ∧ PlainInv s1) ∧
    (∀ (killed : Bool) (n : Int) (s : State), WF s → PlainInv s → n < 2147483648 →
      PlainInv (consoleread killed n s).state) := by
  refine ⟨?_, ?_, ?_, ?_, ?_⟩
  · intro crt hi lo
    have hz : u32sub 0 0 = 0 := by decide
    refine ⟨⟨le_refl _, le_refl _, Nat.zero_le _⟩, ?_⟩
    show u32sub 0 0 ≤ u32sub 0 0 ∧ u32sub 0 0 ≤ INPUT_BUF
    rw [hz]; exact ⟨le_refl _, Nat.zero_le _⟩
  · intro c s hwf hN hI
    obtain ⟨s1, hk, hwf1, hN1, hI1, -, -, -⟩ := consoleintr_key_inv c s hwf hN hI
    exact ⟨s1, hk, hwf1, hN1, hI1⟩
  · intro killed n s hwf hI hn
    obtain ⟨h1, h2, -, -⟩ := consoleread_inv killed n s hwf hI hn
    exact ⟨h1, h2⟩
  · intro c s hwf hN hP he
    obtain ⟨s1, hk, hwf1, hN1, hI1, hr1, -, hmove⟩ :=
      consoleintr_key_inv c s hwf hN (plain_to_inv s hwf hP)
    refine ⟨s1, hk, hwf1, hN1, ?_⟩
    obtain ⟨h1, h2, h3⟩ := hP
    unfold INPUT_BUF at h3
    rcases hmove with ⟨he1, hw1⟩ | ⟨hw1, hle⟩
    · have h4 : u32sub (u32add s.e 1) s.r ≤ 128 := by
        have := hI1.2; rw [he1, hr1] at this; exact this
      have := plain_accept s.r s.w s.e s1.w he h1 h2 h4 (by rw [← he1]; exact hw1)
      unfold PlainInv INPUT_BUF
      rw [hr1, he1]; exact this
    · have hb := u32sub_between s.w s1.e s.e hwf1.2.2.1 hwf.2.2.1 hle h2
      unfold PlainInv INPUT_BUF
      rw [hr1, hw1]
      omega
  · intro killed n s hwf hP hn
    obtain ⟨d, r1, -, hst, hr1, -, -, -, -, -, -, hpass, -⟩ :=
      consoleread_spec killed n s hwf hn
    obtain ⟨h1, h2, h3⟩ := hP
    have hb := u32sub_between s.r r1 s.w hr1 hwf.2.1 hpass h1
    rw [hst]
    unfold PlainInv at *
    show r1 ≤ s.w ∧ s.w ≤ s.e ∧ s.e - r1 ≤ INPUT_BUF
    omega

/-- C10 (amended) on the state at boot: the key `a` and a `consoleread` keep
the invariant. -/
theorem C10_invariant_witness :
    (∃ s1, consoleintr_key 97 (bootState (fun _ => 0) 0 0) = some s1 ∧ WF s1 ∧ Normal s1 ∧
      PlainInv s1) ∧
    PlainInv (consoleread false 10 (bootState (fun _ => 0) 0 0)).state :=
  ⟨C10_invariant.2.2.2.1 97 (bootState (fun _ => 0) 0 0)
      ⟨by decide, by decide, by decide, fun _ => Nat.zero_lt_succ 255⟩ ⟨rfl, by decide⟩
      ⟨by decide, by decide, by decide⟩ (by decide),
    C10_invariant.2.2.2.2 false 10 (bootState (fun _ => 0) 0 0)
      ⟨by decide, by decide, by decide, fun _ => Nat.zero_lt_succ 255⟩
      ⟨by decide, by decide, by decide⟩ (by decide)⟩

/-! ## C11: scroll on newline at the end of row 23 -/

/-- C11: scroll on newline at the end of row 23.  When `cgaputc` receives a
newline with the cursor at position `23*80 + 79`, it returns and scrolls:
every row above the cursor row holds the prior content of the row below it
(the prior content of row 0 is gone), the position written back is `23*80`,
the start of row 23, and every cell of row 23 is blank: the cell at the cursor
holds the blank glyph `' ' | 0x0700` and the other 79 cells hold the `0` of
`memset`.  The cells outside the rows `0..23` are unchanged. -/
theorem C11_scroll_on_newline (s : State) (h : readCursor s = 23 * 80 + 79) :
    ∃ s1, cgaputc 10 s = some s1 ∧ readCursor s1 = 23 * 80 ∧
      (∀ i, 0 ≤ i → i < 23 * 80 → s1.crt i = s.crt (i + 80)) ∧
      s1.crt (23 * 80) = 0x20 ||| 0x0700 ∧
      (∀ i, 23 * 80 < i → i < 24 * 80 → s1.crt i = 0) ∧
      (∀ i, i < 0 ∨ 24 * 80 ≤ i → s1.crt i = s.crt i) ∧
      (∀ i, 23 * 80 ≤ i → i < 24 * 80 → specBlank (s1.crt i)) := by
  have hn : cursorNext 10 (readCursor s) = 24 * 80 := by
    rw [h]; decide
  have hg : ∀ i, cgaGlyph 10 s i = s.crt i := fun i =>
    cgaGlyph_frame 10 s i (fun hh => hh.1 rfl)
  refine ⟨_, cgaputc_scroll 10 s (by omega) (by omega), ?_, ?_, ?_, ?_, ?_, ?_⟩
  · rw [hn, readCursor_write s _ _ (by omega) (by omega)]; rfl
  · intro i hi0 hi1
    show (if i = cursorNext 10 (readCursor s) - 80 then 0x20 ||| 0x0700
        else if cursorNext 10 (readCursor s) - 80 ≤ i ∧ i < 24 * 80 then 0
        else if 0 ≤ i ∧ i < 23 * 80 then cgaGlyph 10 s (i + 80)
        else cgaGlyph 10 s i) = s.crt (i + 80)
    rw [hn, if_neg (by omega), if_neg (by omega), if_pos ⟨hi0, hi1⟩, hg]
  · show (if (23 * 80 : Int) = cursorNext 10 (readCursor s) - 80 then 0x20 ||| 0x0700
        else _) = 0x20 ||| 0x0700
    rw [hn, if_pos (by omega)]
  · intro i hi0 hi1
    show (if i = cursorNext 10 (readCursor s) - 80 then 0x20 ||| 0x0700
        else if cursorNext 10 (readCursor s) - 80 ≤ i ∧ i < 24 * 80 then 0
        else if 0 ≤ i ∧ i < 23 * 80 then cgaGlyph 10 s (i + 80)
        else cgaGlyph 10 s i) = 0
    rw [hn, if_neg (by omega), if_pos (by omega)]
  · intro i hi
    show (if i = cursorNext 10 (readCursor s) - 80 then 0x20 ||| 0x0700
        else if cursorNext 10 (readCursor s) - 80 ≤ i ∧ i < 24 * 80 then 0
        else if 0 ≤ i ∧ i < 23 * 80 then cgaGlyph 10 s (i + 80)
        else cgaGlyph 10 s i) = s.crt i
    rw [hn, if_neg (by omega), if_neg (by omega), if_neg (by omega), hg]
  · intro i hi0 hi1
    show specBlank (if i = cursorNext 10 (readCursor s) - 80 then 0x20 ||| 0x0700
        else if cursorNext 10 (readCursor s) - 80 ≤ i ∧ i < 24 * 80 then 0
        else if 0 ≤ i ∧ i < 23 * 80 then cgaGlyph 10 s (i + 80)
        else cgaGlyph 10 s i)
    rw [hn]
    by_cases hi : i = 24 * 80 - 80
    · rw [if_pos hi]; exact Or.inr rfl
    · rw [if_neg hi, if_pos (by omega)]; exact Or.inl rfl

/-- C11 on a screen full of `A` with the cursor at `23*80 + 79`: the cursor
goes to `23*80`, the cell there holds the blank glyph, and the cell next to it
is blank. -/
theorem C11_scroll_on_newline_witness :
    ∃ s1, cgaputc 10 (bootState (fun _ => 0x0741) 7 127) = some s1 ∧
      readCursor s1 = 23 * 80 ∧ s1.crt (23 * 80) = 0x20 ||| 0x0700 ∧
      specBlank (s1.crt (23 * 80 + 1)) :=
  (C11_scroll_on_newline (bootState (fun _ => 0x0741) 7 127) (by decide)).elim
    fun s1 h => ⟨s1, h.1, h.2.1, h.2.2.2.1,
      h.2.2.2.2.2.2 (23 * 80 + 1) (by decide) (by decide)⟩

/-! ## C12: the cursor rules of `cgaputc` -/

/-- C12: the cursor rules of `cgaputc` when nothing scrolls.  For every
position `pos` read from the cursor ports and every character `c` whose
resulting position is below `24*80`, `cgaputc` returns and the position
written back to the ports is the next multiple of 80 strictly greater than
`pos` for a newline, `pos - 1` (or `0` at `pos = 0`) for the backspace
sentinel and `pos + 1` for any other character, in which case the cell `pos`
holds `(c & 0xff) | 0x0700`; the cell at the new position holds the blank
glyph `' ' | 0x0700`, every other cell of video memory is unchanged, and so
is everything else in the state. -/
theorem C12_cursor_rules (c : Int) (s : State)
    (h : specCursor c (readCursor s) < 24 * 80) :
    ∃ s1, cgaputc c s = some s1 ∧
      readCursor s1 = specCursor c (readCursor s) ∧
      (∀ i, s1.crt i =
        if i = specCursor c (readCursor s) then 0x20 ||| 0x0700
        else if c ≠ 10 ∧ c ≠ BACKSPACE ∧ i = readCursor s then (c % 256).toNat ||| 0x0700
        else s.crt i) ∧
      s1 = { s with crt := s1.crt, cursorHi := s1.cursorHi, cursorLo := s1.cursorLo } := by
  have h0 := readCursor_nonneg s
  have hsp := cursorNext_spec c (readCursor s) h0
  have hnn : 0 ≤ cursorNext c (readCursor s) := by
    unfold cursorNext
    split
    · omega
    · split
      · split <;> omega
      · omega
  refine ⟨_, cgaputc_noscroll c s hnn (by rw [hsp]; exact h), ?_, ?_, rfl⟩
  · rw [readCursor_write s _ _ hnn (by omega)]; exact hsp
  · intro i
    show (if i = cursorNext c (readCursor s) then 0x20 ||| 0x0700 else cgaGlyph c s i) = _
    rw [hsp]
    by_cases hi : i = specCursor c (readCursor s)
    · rw [if_pos hi, if_pos hi]
    · rw [if_neg hi, if_neg hi]
      by_cases hg : c ≠ 10 ∧ c ≠ BACKSPACE ∧ i = readCursor s
      · rw [if_pos hg]
        unfold cgaGlyph
        rw [if_neg hg.1, if_neg hg.2.1, if_pos hg.2.2]
      · rw [if_neg hg, cgaGlyph_frame c s i hg]

/-- C12 at the three kinds of character, with the cursor at position 5 on an
empty screen: `a` moves it to 6, the backspace sentinel to 4 and a newline to
80. -/
theorem C12_cursor_rules_witness :
    (∃ s1, cgaputc 97 (bootState (fun _ => 0) 0 5) = some s1 ∧ readCursor s1 = 6) ∧
    (∃ s1, cgaputc BACKSPACE (bootState (fun _ => 0) 0 5) = some s1 ∧ readCursor s1 = 4) ∧
    (∃ s1, cgaputc 10 (bootState (fun _ => 0) 0 5) = some s1 ∧ readCursor s1 = 80) :=
  ⟨(C12_cursor_rules 97 (bootState (fun _ => 0) 0 5) (by decide)).elim
      fun s1 h => ⟨s1, h.1, h.2.1⟩,
    (C12_cursor_rules BACKSPACE (bootState (fun _ => 0) 0 5) (by decide)).elim
      fun s1 h => ⟨s1, h.1, h.2.1⟩,
    (C12_cursor_rules 10 (bootState (fun _ => 0) 0 5) (by decide)).elim
      fun s1 h => ⟨s1, h.1, h.2.1⟩⟩

/-! ## C13: integer rendering -/

/-- C13: integer rendering is correct.  For every 32-bit value `v`,
`printint(v, 10, 1)`, the `%d` directive, passes to `consputc` the canonical
signed decimal representation of `v`: a leading `-` exactly when `v < 0`, then
the digits of the magnitude (negation taken modulo `2^32`, so that `-2^31` is
covered), most significant first and without leading zeros; and
`printint(v, 16, 0)`, the `%x` and `%p` directives, passes the canonical
lowercase hexadecimal representation of `v` read as an unsigned 32-bit
number.  In both cases the digit loop ends and the buffer holds that
representation, last character first; in normal operation the call returns
and the serial line has received exactly these characters, in this order. -/
theorem C13_printint (v : Int) (hlo : -2147483648 ≤ v) (hhi : v < 2147483648) (s : State) :
    printint_buf v 10 1 = some (specDecimal v).reverse ∧
      printint v 10 1 s = consputcAll (specDecimal v) s ∧
      printint_buf v 16 0 = some (specHex (toUInt32 v)).reverse ∧
      printint v 16 0 s = consputcAll (specHex (toUInt32 v)) s ∧
      (Normal s →
        (∃ s1, printint v 10 1 s = some s1 ∧ s1.uart = s.uart ++ specDecimal v) ∧
        (∃ s1, printint v 16 0 s = some s1 ∧ s1.uart = s.uart ++ specHex (toUInt32 v))) := by
  have hd : printint v 10 1 s = consputcAll (specDecimal v) s := by
    unfold printint
    rw [printint_buf_decimal v hlo hhi]
    simp only [List.reverse_reverse]
  have hx : printint v 16 0 s = consputcAll (specHex (toUInt32 v)) s := by
    unfold printint
    rw [printint_buf_hex v]
    simp only [List.reverse_reverse]
  refine ⟨printint_buf_decimal v hlo hhi, hd, printint_buf_hex v, hx, ?_⟩
  intro hN
  obtain ⟨s1, h1, -, hu1, -⟩ := consputcAll_normal _ s hN (specDecimal_ne v)
  obtain ⟨s2, h2, -, hu2, -⟩ := consputcAll_normal _ s hN (specHex_ne (toUInt32 v))
  exact ⟨⟨s1, hd.trans h1, hu1⟩, ⟨s2, hx.trans h2, hu2⟩⟩

/-- C13 at `v = -2^31` and at `v = -1`, on the state at boot: the serial line
receives `-2147483648` for `%d` and `ffffffff` for `%x`. -/
theorem C13_printint_witness :
    ((∃ s1, printint (-2147483648) 10 1 (bootState (fun _ => 0) 0 0) = some s1 ∧
        s1.uart = (bootState (fun _ => 0) 0 0).uart ++ specDecimal (-2147483648)) ∧
      specDecimal (-2147483648) = [45, 50, 49, 52, 55, 52, 56, 51, 54, 52, 56]) ∧
    ((∃ s1, printint (-1) 16 0 (bootState (fun _ => 0) 0 0) = some s1 ∧
        s1.uart = (bootState (fun _ => 0) 0 0).uart ++ specHex (toUInt32 (-1))) ∧
      specHex (toUInt32 (-1)) = [102, 102, 102, 102, 102, 102, 102, 102]) :=
  ⟨⟨((C13_printint (-2147483648) (by decide) (by decide)
        (bootState (fun _ => 0) 0 0)).2.2.2.2 ⟨rfl, by decide⟩).1,
      by simp [specDecimal, specDigits, specDigitChar, Nat.digitChar]⟩,
    ⟨((C13_printint (-1) (by decide) (by decide)
        (bootState (fun _ => 0) 0 0)).2.2.2.2 ⟨rfl, by decide⟩).2,
      by simp [specHex, specDigits, specDigitChar, Nat.digitChar, toUInt32]⟩⟩

/-! ## C14: the digit buffer of `printint` -/

/-- C14 as stated fails for the bases 2, 3 and 4.  In base 2 the value
`0xffffffff` takes 32 digits, in base 3 it takes 21, and in base 4 the value
`-2^31` printed with its sign takes 16 digits and the `-`: more than the 16
entries of `buf`. -/
theorem C14_counterexample :
    (printint_buf (-1) 2 0).map List.length = some 32 ∧
    (printint_buf (-1) 3 0).map List.length = some 21 ∧
    (printint_buf (-2147483648) 4 1).map List.length = some 17 := by
  refine ⟨by decide, by decide, by decide⟩

/-- C14, amended: the digit buffer of `printint` is large enough for the
bases 5 to 16, the two bases in use (10 and 16) among them.  For every value
`xx`, every base from 5 to 16 and either value of the sign flag, `printint`
stores at most 15 characters, digits and `-` together, in its buffer of 16
entries. -/
theorem C14_buffer_bound (xx base sign : Int) (hb5 : 5 ≤ base) (hb16 : base ≤ 16) :
    ∃ buf, printint_buf xx base sign = some buf ∧ buf.length ≤ 15 ∧ buf.length ≤ 16 := by
  refine ⟨_, printint_buf_spec xx base sign (by omega) hb16, ?_⟩
  have hx32 : (if sign ≠ 0 ∧ xx < 0 then toUInt32 (-xx) else toUInt32 xx) < 4294967296 := by
    unfold toUInt32; split <;> omega
  have hlen := specDigits_length base.toNat _ (by omega) hx32
  have hs : (if sign ≠ 0 ∧ xx < 0 then [(45 : Int)] else []).length ≤ 1 := by
    split <;> simp
  simp only [List.length_append, List.length_map, List.length_reverse]
  omega

/-- C14 (amended) at `xx = -2^31`, base 10, signed. -/
theorem C14_buffer_bound_witness :
    ∃ buf, printint_buf (-2147483648) 10 1 = some buf ∧ buf.length ≤ 15 ∧ buf.length ≤ 16 :=
  C14_buffer_bound (-2147483648) 10 1 (by decide) (by decide)

/-! ## C15: the message of `panic` -/

/-- C15 fails when the message holds a `%`: `panic` hands the message to
`cprintf` as the format string, `cprintf(s)`, so the message is interpreted
and not copied.  For the message `100%`, in normal operation, `panic` reaches
its final loop with the latch set, and the serial line has received the text
of a panic whose message is `100`: the prefix, the three characters `100`, the
newline and the ten addresses.  The `%` that ends the message is never sent,
so the output differs from the text with the message verbatim. -/
theorem C15_panic_message_as_format (str : Nat → List Nat) (stack : Nat → Nat) (lapicid : Nat)
    (pcs : Nat → Nat) (s : State) (hN : Normal s) (hid : lapicid < 4294967296)
    (hpcs : ∀ i, i < 10 → pcs i < 4294967296) :
    ∃ s1, panic str stack lapicid pcs (some (bytes "100%")) s = some s1 ∧
      s1.panicked = true ∧
      s1.uart = s.uart ++ specPanic (toInt32 lapicid) (text "100") pcs ∧
      s1.uart ≠ s.uart ++ specPanic (toInt32 lapicid) (text "100%") pcs := by
  have hc : cprintf_chars str stack (bytes "100%") 0 = text "100" := by
    have h1 : bytes "100%" = bytes "100" ++ [37] := by decide
    rw [h1, cprintf_chars_plain _ _ _ _ _ (by decide), cprintf_chars_one, if_neg (by decide),
      if_neg (by decide), List.append_nil, text_eq]
  obtain ⟨s1, h1, h2, h3⟩ := panic_normal str stack lapicid pcs (bytes "100%") s hN hid hpcs
    (by rw [hc]; decide)
  rw [hc] at h3
  refine ⟨s1, h1, h2, h3, ?_⟩
  rw [h3]
  intro h
  have hl := congrArg List.length h
  have e1 : (text "100").length = 3 := by decide
  have e2 : (text "100%").length = 4 := by decide
  unfold specPanic at hl
  simp only [List.length_append, e1, e2] at hl
  omega

/-- C15 at the state at boot, on the CPU 0 and with ten null addresses: the
serial line receives `lapicid 0: panic: 100`, a newline and ten times ` 0`. -/
theorem C15_panic_message_as_format_witness :
    ∃ s1, panic (fun _ => []) (fun _ => 0) 0 (fun _ => 0) (some (bytes "100%"))
        (bootState (fun _ => 0) 0 0) = some s1 ∧
      s1.panicked = true ∧
      s1.uart = (bootState (fun _ => 0) 0 0).uart ++
        specPanic (toInt32 0) (text "100") (fun _ => 0) ∧
      s1.uart ≠ (bootState (fun _ => 0) 0 0).uart ++
        specPanic (toInt32 0) (text "100%") (fun _ => 0) :=
  C15_panic_message_as_format (fun _ => []) (fun _ => 0) 0 (fun _ => 0)
    (bootState (fun _ => 0) 0 0) ⟨rfl, by decide⟩ (by decide) (fun _ _ => Nat.zero_lt_succ 4294967295)

/-! ## C16: directives of `cprintf` -/

/-- C16 as stated fails for a format that ends in `%`: the format `a%` sends
the character `a` alone, exactly as the format `a` does, and the `%` is
dropped without any output. -/
theorem C16_counterexample :
    cprintf (fun _ => []) (fun _ => 0) (some (bytes "a%")) (bootState (fun _ => 0) 0 0) =
        cprintf (fun _ => []) (fun _ => 0) (some (bytes "a")) (bootState (fun _ => 0) 0 0) ∧
      (cprintf (fun _ => []) (fun _ => 0) (some (bytes "a%"))
        (bootState (fun _ => 0) 0 0)).map State.uart = some [97] :=
  ⟨rfl, by decide⟩

/-- C16, amended: malformed directives stay visible in `cprintf`, except a
`%` that is the last character of the format.  At every position of every
format: where `%` is followed by a character `c` that is not one of `d`, `x`,
`p`, `s`, `%`, the loop calls `consputc` with `%` and then with `c` and goes
on with the same argument index; `%%` gives one call with `%`; `%s` with a
null pointer argument gives the calls for the text `(null)`; a character other
than `%` gives one call with this character; a `%` that is the last character
of the format gives no call at all.  A format without any `%` is passed to
`consputc` character by character. -/
theorem C16_directives (str : Nat → List Nat) (argp : Nat → Nat) (rest : List Nat) (k : Nat)
    (s : State) :
    (∀ c : Nat, 0 < c → c < 256 → c ≠ 100 → c ≠ 120 → c ≠ 112 → c ≠ 115 → c ≠ 37 →
      cprintf_loop str argp (37 :: c :: rest) k s =
        (consputcAll [37, (c : Int)] s).bind (cprintf_loop str argp rest k)) ∧
    cprintf_loop str argp (37 :: 37 :: rest) k s =
      (consputc 37 s).bind (cprintf_loop str argp rest k) ∧
    (argp k = 0 →
      cprintf_loop str argp (37 :: 115 :: rest) k s =
        (consputcAll (text "(null)") s).bind (cprintf_loop str argp rest (k + 1))) ∧
    (∀ c : Nat, 0 < c → c < 256 → c ≠ 37 →
      cprintf_loop str argp (c :: rest) k s =
        (consputc (c : Int) s).bind (cprintf_loop str argp rest k)) ∧
    cprintf_loop str argp [37] k s = some s ∧
    (∀ f : List Nat, (∀ b ∈ f, 0 < b ∧ b < 256 ∧ b ≠ 37) →
      cprintf str argp (some f) s = consputcAll (f.map (fun (b : Nat) => (b : Int))) s) := by
  refine ⟨?_, ?_, ?_, ?_, ?_, ?_⟩
  · intro c h0 h1 hd hx hp hs hpc
    have hc := charVal_and_ff c h1
    rw [cprintf_loop_two, if_neg (by decide), if_neg (by decide), hc,
      if_neg (by omega), if_neg (by omega), if_neg (by omega), if_neg (by omega),
      if_neg (by omega), consputcAll_cons]
    cases consputc 37 s with
    | none => rfl
    | some s1 =>
      show (match consputc (c : Int) s1 with
        | none => none
        | some s2 => cprintf_loop str argp rest k s2) =
          (consputcAll [(c : Int)] s1).bind (cprintf_loop str argp rest k)
      rw [consputcAll_cons]
      cases consputc (c : Int) s1 <;> rfl
  · rw [cprintf_loop_two, if_neg (by decide), if_neg (by decide), if_neg (by decide),
      if_neg (by decide), if_neg (by decide), if_neg (by decide), if_pos (by decide),
      match_eq_bind]
  · intro hk
    rw [cprintf_loop_two, if_neg (by decide), if_neg (by decide), if_neg (by decide),
      if_neg (by decide), if_neg (by decide), if_pos (by decide), if_pos hk, match_eq_bind]
    rfl
  · intro c h0 h1 h37
    have hc := charVal_and_ff c h1
    rw [cprintf_loop_cons_plain str argp c rest k s (by omega) (by omega), hc]
  · rfl
  · intro f hf
    rw [cprintf_eq]
    have := cprintf_chars_plain str argp [] 0 f hf
    rw [List.append_nil] at this
    rw [this]
    simp [cprintf_chars]

/-- C16 (amended) at the format `%q!`, at `%s` with a null pointer and at the
format `ok`, on the state at boot. -/
theorem C16_directives_witness :
    cprintf_loop (fun _ => []) (fun _ => 0) (37 :: 113 :: [33]) 0 (bootState (fun _ => 0) 0 0) =
        (consputcAll [37, 113] (bootState (fun _ => 0) 0 0)).bind
          (cprintf_loop (fun _ => []) (fun _ => 0) [33] 0) ∧
      cprintf_loop (fun _ => []) (fun _ => 0) (37 :: 115 :: [33]) 0
          (bootState (fun _ => 0) 0 0) =
        (consputcAll (text "(null)") (bootState (fun _ => 0) 0 0)).bind
          (cprintf_loop (fun _ => []) (fun _ => 0) [33] 1) ∧
      cprintf (fun _ => []) (fun _ => 0) (some [111, 107]) (bootState (fun _ => 0) 0 0) =
        consputcAll [111, 107] (bootState (fun _ => 0) 0 0) :=
  have h := C16_directives (fun _ => []) (fun _ => 0) [33] 0 (bootState (fun _ => 0) 0 0)
  ⟨h.1 113 (by decide) (by decide) (by decide) (by decide) (by decide) (by decide)
      (by decide),
    h.2.2.1 rfl,
    h.2.2.2.2.2 [111, 107] (by decide)⟩

/-! ## C17: the character sink and the panic latch -/

/-- C17: fan-out of the Character Sink and the panic latch.  For every
character `c`: when the panic latch is set, `consputc` never returns; it
spins with the serial trace, the cursor and the video memory (the whole
state) as they were, having sent nothing.  When the latch is clear, it first
sends to the serial transmitter the three bytes backspace, space, backspace
for the backspace sentinel `0x100` and the single character `c` otherwise,
and then forwards `c` exactly once to the screen renderer `cgaputc`. -/
theorem C17_sink_fanout (c : Int) (s : State) :
    (s.panicked = true → consputc c s = none ∧ consputc_run c s = Ending.spins s) ∧
    (s.panicked = false →
      consputc c s =
        cgaputc c { s with uart := s.uart ++ (if c = BACKSPACE then [8, 32, 8] else [c]) } ∧
      (c = BACKSPACE → consputc c s = cgaputc c { s with uart := s.uart ++ [8, 32, 8] }) ∧
      (c ≠ BACKSPACE → consputc c s = cgaputc c { s with uart := s.uart ++ [c] })) := by
  constructor
  · intro hp
    exact ⟨by simp [consputc, hp], by simp [consputc_run, hp]⟩
  · intro hp
    refine ⟨?_, ?_, ?_⟩
    · by_cases hb : c = BACKSPACE
      · simp [consputc, hp, hb]
      · simp [consputc, hp, hb]
    · intro hb; simp [consputc, hp, hb]
    · intro hb; simp [consputc, hp, hb]

/-- C17 at the character `a`, with the latch set and with the latch clear. -/
theorem C17_sink_fanout_witness :
    (consputc 97 { bootState (fun _ => 0) 0 0 with panicked := true } = none ∧
      consputc_run 97 { bootState (fun _ => 0) 0 0 with panicked := true } =
        Ending.spins { bootState (fun _ => 0) 0 0 with panicked := true }) ∧
    consputc 97 (bootState (fun _ => 0) 0 0) =
      cgaputc 97 { bootState (fun _ => 0) 0 0 with
        uart := (bootState (fun _ => 0) 0 0).uart ++ (if (97 : Int) = BACKSPACE then [8, 32, 8]
          else [97]) } :=
  ⟨(C17_sink_fanout 97 { bootState (fun _ => 0) 0 0 with panicked := true }).1 rfl,
    ((C17_sink_fanout 97 (bootState (fun _ => 0) 0 0)).2 rfl).1⟩

/-! ## C18: one wakeup per commit -/

/-- C18: exactly one wakeup per commit.  (1) While `consoleintr` processes
one key in normal operation, `wakeup` is called exactly once if the key is
accepted and is a newline or a carriage return, the EOF code, or fills the
buffer to `e = r + 128`, and is not called otherwise.  (2) Over a whole call
of `consoleintr` from a state within the invariant, the number of calls of
`wakeup` equals the number of keys at which the write index advances. -/
theorem C18_wakeups :
    (∀ (c : Int) (s : State), WF s → Normal s →
      ∃ s1, consoleintr_key c s = some s1 ∧
        s1.wakeups = s.wakeups + (if commits c s then 1 else 0)) ∧
    (∀ (getc : List Int) (s : State), WF s → Normal s → Inv s →
      ∃ s1, consoleintr getc s = some s1 ∧
        s1.wakeups = s.wakeups + wAdvances getc s) := by
  constructor
  · intro c s hwf hN
    obtain ⟨s1, hk, hwk, -⟩ := consoleintr_key_wakeups c s hwf hN
    exact ⟨s1, hk, hwk⟩
  · intro getc s hwf hN hI
    obtain ⟨s1, d1, hl, hwk⟩ := consoleintr_loop_wakeups getc s false hwf hN hI
    cases d1 with
    | false => exact ⟨s1, by simp [consoleintr, hl], hwk⟩
    | true => exact ⟨{ s1 with procdumps := s1.procdumps + 1 }, by simp [consoleintr, hl], hwk⟩

/-- C18 on the state at boot: the key `a` wakes nobody, a newline wakes once,
and the call on `ab`, newline, `c`, control-D wakes twice. -/
theorem C18_wakeups_witness :
    (∃ s1, consoleintr_key 97 (bootState (fun _ => 0) 0 0) = some s1 ∧ s1.wakeups = 0) ∧
    (∃ s1, consoleintr_key 10 (bootState (fun _ => 0) 0 0) = some s1 ∧ s1.wakeups = 1) ∧
    (∃ s1, consoleintr [97, 98, 10, 99, 4] (bootState (fun _ => 0) 0 0) = some s1 ∧
      s1.wakeups = 2) :=
  ⟨(C18_wakeups.1 97 (bootState (fun _ => 0) 0 0)
      ⟨by decide, by decide, by decide, fun _ => Nat.zero_lt_succ 255⟩ ⟨rfl, by decide⟩).elim
      fun s1 h => ⟨s1, h.1, h.2⟩,
    (C18_wakeups.1 10 (bootState (fun _ => 0) 0 0)
      ⟨by decide, by decide, by decide, fun _ => Nat.zero_lt_succ 255⟩ ⟨rfl, by decide⟩).elim
      fun s1 h => ⟨s1, h.1, h.2⟩,
    (C18_wakeups.2 [97, 98, 10, 99, 4] (bootState (fun _ => 0) 0 0)
      ⟨by decide, by decide, by decide, fun _ => Nat.zero_lt_succ 255⟩ ⟨rfl, by decide⟩
      ⟨by decide, by decide⟩).elim
      fun s1 h => ⟨s1, h.1, h.2.trans (by decide)⟩⟩

/-! ## C19: the counters are not all monotonic -/

/-- C19 as stated fails on the edit counter and where the counters wrap.
Backspace with one pending byte takes `e` from 1 to 0; control-U with three
pending bytes takes it from 3 to 0.  At `r = w = e = 2^32 - 1` the key `a`
wraps `e` to 0, and at `r = 2^32 - 1`, `w = e = 0` a `consoleread` of one
byte wraps `r` to 0. -/
theorem C19_counterexample :
    (∃ s1, consoleintr_key 8 { bootState (fun _ => 0) 0 5 with e := 1 } = some s1 ∧
      s1.e = 0) ∧
    (∃ s1, consoleintr_key 21 { bootState (fun _ => 0) 0 5 with e := 3 } = some s1 ∧
      s1.e = 0) ∧
    (∃ s1, consoleintr_key 97
        { bootState (fun _ => 0) 0 0 with r := 4294967295, w := 4294967295, e := 4294967295 }
          = some s1 ∧ s1.e = 0) ∧
    (consoleread false 1
        { bootState (fun _ => 0) 0 0 with r := 4294967295, buf := fun _ => 97 }).state.r = 0 := by
  refine ⟨⟨_, rfl, by decide⟩, ⟨_, rfl, by decide⟩, ⟨_, rfl, by decide⟩, by decide⟩

/-- C19, amended: the read and write counters do not decrease as long as the
32-bit counters do not wrap, and the edit counter decreases only under
backspace and kill-line.  (1) From a state with `r <= w <= e`,
`e - r <= 128` and `e < 2^32 - 1`, a key-processing step of `consoleintr` in
normal operation returns, leaves `r` as it is and `w` not smaller, keeps
`w <= e`, and leaves `e` not smaller unless the key is control-H, DEL or
control-U.  (2) From a state with `r <= w <= e`, a call of `consoleread`
leaves `r` not smaller and `w` and `e` as they are. -/
theorem C19_counters :
    (∀ (c : Int) (s : State), WF s → Normal s → PlainInv s → s.e < 4294967295 →
      ∃ s1, consoleintr_key c s = some s1 ∧ s1.r = s.r ∧ s.w ≤ s1.w ∧ s1.w ≤ s1.e ∧
        (c ≠ 8 → c ≠ 127 → c ≠ 21 → s.e ≤ s1.e)) ∧
    (∀ (killed : Bool) (n : Int) (s : State), WF s → PlainInv s → n < 2147483648 →
      s.r ≤ (consoleread killed n s).state.r ∧ (consoleread killed n s).state.w = s.w ∧
        (consoleread killed n s).state.e = s.e) := by
  constructor
  · intro c s hwf hN hP he
    obtain ⟨s1, hk, hwf1, -, -, hr1, -, hmove⟩ :=
      consoleintr_key_inv c s hwf hN (plain_to_inv s hwf hP)
    obtain ⟨h1, h2, h3⟩ := hP
    have hadd := u32add_one s.e he
    refine ⟨s1, hk, hr1, ?_, ?_, ?_⟩
    · rcases hmove with ⟨he1, hw1 | hw1⟩ | ⟨hw1, -⟩
      · omega
      · omega
      · omega
    · rcases hmove with ⟨he1, hw1 | hw1⟩ | ⟨hw1, hle⟩
      · omega
      · omega
      · have hb := u32sub_between s.w s1.e s.e hwf1.2.2.1 hwf.2.2.1 hle h2
        omega
    · intro h8 h127 h21
      rcases consoleintr_key_other c s h21 h8 h127 with hsame | ⟨h16, h0, hroom⟩
      · rw [hk] at hsame
        injection hsame with hsame
        rw [hsame]
      · obtain ⟨s2, hk2, -, -, he2, -, -, -, -, -⟩ :=
          consoleintr_key_accept c s hN h16 h21 h8 h127 h0 hroom
        rw [hk] at hk2
        injection hk2 with hk2
        rw [hk2, he2, hadd]
        omega
  · intro killed n s hwf hP hn
    obtain ⟨d, r1, -, hst, hr1, -, -, -, -, -, -, hpass, -⟩ :=
      consoleread_spec killed n s hwf hn
    have hb := u32sub_between s.r r1 s.w hr1 hwf.2.1 hpass hP.1
    rw [hst]
    exact ⟨hb.1, rfl, rfl⟩

/-- C19 (amended) on the state at boot: the key `a` and a `consoleread`. -/
theorem C19_counters_witness :
    (∃ s1, consoleintr_key 97 { bootState (fun _ => 0) 0 0 with r := 2, w := 5, e := 7 }
        = some s1 ∧ s1.r = 2 ∧ 5 ≤ s1.w ∧ s1.w ≤ s1.e) ∧
    2 ≤ (consoleread false 10
      { bootState (fun _ => 0) 0 0 with r := 2, w := 5, e := 7 }).state.r :=
  ⟨(C19_counters.1 97 { bootState (fun _ => 0) 0 0 with r := 2, w := 5, e := 7 }
      ⟨by decide, by decide, by decide, fun _ => Nat.zero_lt_succ 255⟩ ⟨rfl, by decide⟩
      ⟨by decide, by decide, by decide⟩ (by decide)).elim
      fun s1 h => ⟨s1, h.1, h.2.1, h.2.2.1, h.2.2.2.1⟩,
    (C19_counters.2 false 10 { bootState (fun _ => 0) 0 0 with r := 2, w := 5, e := 7 }
      ⟨by decide, by decide, by decide, fun _ => Nat.zero_lt_succ 255⟩
      ⟨by decide, by decide, by decide⟩ (by decide)).1⟩

/-! ## C20: the range check of `cgaputc` -/

/-- C20: the range check of `cgaputc` cannot fail in normal operation.  When
the position read from the cursor ports is in `[0, 24*80)`, then for every
character `c`, newline and the backspace sentinel included, `cgaputc` does
not call `panic` (it returns), and the position that it writes back to the
ports is again in `[0, 24*80)`.  Every index of video memory that it reads or
writes is in `[0, 25*80)`: the run `cgaputc_mem`, in which each access to
`crt[i]` (the store of the glyph, every read and every write of `memmove`,
every write of `memset`, the store of the caret) is checked against these
bounds, meets no index outside them and ends in the same state. -/
theorem C20_range_check_unreachable (c : Int) (s : State) (h : readCursor s < 24 * 80) :
    ∃ s1, cgaputc c s = some s1 ∧ 0 ≤ readCursor s1 ∧ readCursor s1 < 24 * 80 ∧
      cgaputc_mem c s = Except.ok (some s1) := by
  have h0 := readCursor_nonneg s
  obtain ⟨hb0, hb1⟩ := cursorNext_bounds c (readCursor s) h0 h
  have hmem := cgaputc_mem_eq c s (by omega)
  by_cases hs : cursorNext c (readCursor s) < 24 * 80
  · have hc := cgaputc_noscroll c s hb0 hs
    refine ⟨_, hc, ?_, ?_, by rw [hmem, hc]⟩
    · rw [readCursor_write s _ _ hb0 (by omega)]; exact hb0
    · rw [readCursor_write s _ _ hb0 (by omega)]; exact hs
  · have hs1 : 24 * 80 ≤ cursorNext c (readCursor s) := by omega
    have hc := cgaputc_scroll c s hs1 (by omega)
    refine ⟨_, hc, ?_, ?_, by rw [hmem, hc]⟩
    · rw [readCursor_write s _ _ (by omega) (by omega)]; omega
    · rw [readCursor_write s _ _ (by omega) (by omega)]; omega

/-- C20 on the state at boot with the cursor at the last cell of row 23, for
the character `a`: the screen scrolls, no access leaves the memory, and the
cursor is written back at the start of row 23. -/
theorem C20_range_check_unreachable_witness :
    ∃ s1, cgaputc 97 (bootState (fun _ => 0) 7 127) = some s1 ∧ 0 ≤ readCursor s1 ∧
      readCursor s1 < 24 * 80 ∧
      cgaputc_mem 97 (bootState (fun _ => 0) 7 127) = Except.ok (some s1) :=
  (C20_range_check_unreachable 97 (bootState (fun _ => 0) 7 127) (by decide)).elim
    fun s1 h => ⟨s1, h.1, h.2.1, h.2.2.1, h.2.2.2⟩

end Console
